import Mathlib

/-!
# Verification of the closure-pro-build Module Placement Solver

Shallow embedding of `lib/js-module-manager.js` (the `ModuleManager`
pipeline behind `calcInputFiles`) and `lib/graph-util.js` (`topSortNodes`,
`CycleError`, `deepClone`), together with proofs of the specification
claims about them.

Modelling conventions:
* A JS object used as a map is modelled as an insertion-ordered association
  list (`List (α × β)`): `for (k in obj)` iterates keys in insertion order
  for the non-numeric string keys this code uses; assigning to an existing
  key keeps its position (`mset`).
* A JS object used as a set (values always `true`) is modelled as a
  duplicate-free insertion-ordered list (`List α`, inserted with `sadd`).
* `graphUtil.deepClone` is the identity on these pure values (`deepClone`).
* Module IDs are the single-character strings `'A'`, `'B'`, â€¦ produced by
  `String.fromCharCode('A'.charCodeAt(0) + n)`; we model the n-th such ID
  as `MId.reg n` and the virtual base module ID `'@'` as `MId.vbase`,
  which is distinct from every `reg n` just as `'@'` differs from every
  generated module ID.  File IDs `'a'`, `'b'`, â€¦ are modelled by their
  index `Nat`; a lookup `this.filePathToId[path]` yields the JS value
  `undefined` for an unknown path, so file keys are `Option Nat` with
  `none` playing the role of the single JS key `"undefined"`.
* A JS exception is modelled with `Except`; reading a property of
  `undefined` (a `TypeError`) is `JsErr.typeError`.
-/

set_option linter.unusedSectionVars false
set_option linter.unusedVariables false

deriving instance DecidableEq for Except

namespace CPB

/-! ## Insertion-ordered maps (JS objects) -/

section ObjMap

variable {α : Type} [DecidableEq α] {β : Type}

/-- `m[k]`: first binding of `k`, or `none` (JS `undefined`). -/
def mget (m : List (α × β)) (k : α) : Option β :=
  (m.find? (fun p => decide (p.1 = k))).map (·.2)

/-- `m[k] = v`: overwrite in place when the key exists, else append
(JS objects keep the original position of an existing key). -/
def mset : List (α × β) → α → β → List (α × β)
  | [], k, v => [(k, v)]
  | (k', v') :: rest, k, v =>
    if k' = k then (k, v) :: rest else (k', v') :: mset rest k v

/-- Update the value at `k` when present (models mutating `m[k].field`). -/
def mupd : List (α × β) → α → (β → β) → List (α × β)
  | [], _, _ => []
  | (k', v') :: rest, k, f =>
    if k' = k then (k', f v') :: rest else (k', v') :: mupd rest k f

/-- The keys of a JS object in iteration (insertion) order. -/
def keysOf (m : List (α × β)) : List α := m.map Prod.fst

theorem keysOf_nil : keysOf ([] : List (α × β)) = [] := rfl

theorem keysOf_cons (k' : α) (v' : β) (rest : List (α × β)) :
    keysOf ((k', v') :: rest) = k' :: keysOf rest := rfl

theorem mget_nil (k : α) : mget ([] : List (α × β)) k = none := rfl

theorem mget_cons (k' : α) (v' : β) (rest : List (α × β)) (k : α) :
    mget ((k', v') :: rest) k = if k' = k then some v' else mget rest k := by
  by_cases h : k' = k <;> simp [mget, List.find?, h]

theorem mget_mset_self (m : List (α × β)) (k : α) (v : β) :
    mget (mset m k v) k = some v := by
  induction m with
  | nil => simp [mset, mget_cons]
  | cons p rest ih =>
    obtain ⟨k', v'⟩ := p
    by_cases h : k' = k
    · simp [mset, h, mget_cons]
    · simp [mset, h, mget_cons, ih]

theorem mget_mset_ne (m : List (α × β)) (k k₀ : α) (v : β) (h : k ≠ k₀) :
    mget (mset m k v) k₀ = mget m k₀ := by
  induction m with
  | nil => simp [mset, mget_cons, h]
  | cons p rest ih =>
    obtain ⟨k', v'⟩ := p
    by_cases hk : k' = k
    · subst hk
      simp [mset, mget_cons, h]
    · simp [mset, hk, mget_cons, ih]

theorem mget_mupd_self (m : List (α × β)) (k : α) (f : β → β) :
    mget (mupd m k f) k = (mget m k).map f := by
  induction m with
  | nil => rfl
  | cons p rest ih =>
    obtain ⟨k', v'⟩ := p
    by_cases h : k' = k
    · simp [mupd, h, mget_cons]
    · simp [mupd, h, mget_cons, ih]

theorem mget_mupd_ne (m : List (α × β)) (k k₀ : α) (f : β → β) (h : k ≠ k₀) :
    mget (mupd m k f) k₀ = mget m k₀ := by
  induction m with
  | nil => rfl
  | cons p rest ih =>
    obtain ⟨k', v'⟩ := p
    by_cases hk : k' = k
    · subst hk
      simp [mupd, mget_cons, h]
    · simp [mupd, hk, mget_cons, ih]

theorem keysOf_mupd (m : List (α × β)) (k : α) (f : β → β) :
    keysOf (mupd m k f) = keysOf m := by
  induction m with
  | nil => rfl
  | cons p rest ih =>
    obtain ⟨k', v'⟩ := p
    by_cases hk : k' = k
    · simp [mupd, hk, keysOf_cons]
    · rw [mupd, if_neg hk, keysOf_cons, keysOf_cons, ih]

theorem keysOf_mset_mem (m : List (α × β)) (k : α) (v : β)
    (h : k ∈ keysOf m) : keysOf (mset m k v) = keysOf m := by
  induction m with
  | nil => simp [keysOf_nil] at h
  | cons p rest ih =>
    obtain ⟨k', v'⟩ := p
    by_cases hk : k' = k
    · rw [mset, if_pos hk, keysOf_cons, keysOf_cons, hk]
    · have hmem : k ∈ keysOf rest := by
        rw [keysOf_cons] at h
        rcases List.mem_cons.mp h with hh | hh
        · exact absurd hh.symm hk
        · exact hh
      rw [mset, if_neg hk, keysOf_cons, keysOf_cons, ih hmem]

theorem keysOf_mset_not_mem (m : List (α × β)) (k : α) (v : β)
    (h : k ∉ keysOf m) : keysOf (mset m k v) = keysOf m ++ [k] := by
  induction m with
  | nil => simp [mset, keysOf]
  | cons p rest ih =>
    obtain ⟨k', v'⟩ := p
    rw [keysOf_cons] at h
    have hk : k' ≠ k := fun hh => h (hh ▸ List.mem_cons_self _ _)
    have hrest : k ∉ keysOf rest := fun hh => h (List.mem_cons_of_mem _ hh)
    rw [mset, if_neg hk, keysOf_cons, keysOf_cons, ih hrest, List.cons_append]

theorem mem_keysOf_iff_isSome (m : List (α × β)) (k : α) :
    k ∈ keysOf m ↔ (mget m k).isSome := by
  induction m with
  | nil => simp [keysOf, mget]
  | cons p rest ih =>
    obtain ⟨k', v'⟩ := p
    rw [keysOf_cons, mget_cons]
    by_cases h : k' = k
    · simp [h]
    · simp only [if_neg h]
      rw [List.mem_cons, ← ih]
      simp [Ne.symm h]

theorem mget_eq_none_of_not_mem (m : List (α × β)) (k : α)
    (h : k ∉ keysOf m) : mget m k = none := by
  have := (mem_keysOf_iff_isSome m k).not.mp h
  cases hm : mget m k with
  | none => rfl
  | some v => exact absurd (by simp [hm]) this

theorem mem_of_mget_eq_some (m : List (α × β)) (k : α) (v : β)
    (h : mget m k = some v) : (k, v) ∈ m := by
  induction m with
  | nil => simp [mget] at h
  | cons p rest ih =>
    obtain ⟨k', v'⟩ := p
    by_cases hk : k' = k
    · subst hk
      simp [mget_cons] at h
      simp [h]
    · simp [mget_cons, hk] at h
      exact List.mem_cons_of_mem _ (ih h)

theorem mget_eq_some_of_mem_nodup (m : List (α × β)) (k : α) (v : β)
    (hnd : (keysOf m).Nodup) (h : (k, v) ∈ m) : mget m k = some v := by
  induction m with
  | nil => simp at h
  | cons p rest ih =>
    obtain ⟨k', v'⟩ := p
    rw [keysOf_cons, List.nodup_cons] at hnd
    rcases List.mem_cons.mp h with h | h
    · injection h with h1 h2
      subst h1
      subst h2
      simp [mget_cons]
    · have hk : k' ≠ k := by
        intro hh
        apply hnd.1
        rw [hh]
        exact List.mem_map_of_mem Prod.fst h
      rw [mget_cons, if_neg hk]
      exact ih hnd.2 h

theorem nodup_keysOf_mset (m : List (α × β)) (k : α) (v : β)
    (h : (keysOf m).Nodup) : (keysOf (mset m k v)).Nodup := by
  by_cases hm : k ∈ keysOf m
  · rwa [keysOf_mset_mem m k v hm]
  · rw [keysOf_mset_not_mem m k v hm]
    rw [List.nodup_append]
    refine ⟨h, List.nodup_singleton k, ?_⟩
    intro a ha hb
    rw [List.mem_singleton] at hb
    subst hb
    exact hm ha

end ObjMap

/-! ## JS object sets (insertion-ordered, duplicate-free) -/

section OSet

variable {α : Type} [DecidableEq α]

/-- `s[k] = true`: no-op when present (keeps position), else append. -/
def sadd (s : List α) (k : α) : List α :=
  if k ∈ s then s else s ++ [k]

theorem mem_sadd {s : List α} {k x : α} : x ∈ sadd s k ↔ x ∈ s ∨ x = k := by
  by_cases h : k ∈ s
  · simp only [sadd, if_pos h]
    constructor
    · exact Or.inl
    · rintro (hx | rfl)
      · exact hx
      · exact h
  · simp [sadd, if_neg h]

theorem self_mem_sadd {s : List α} {k : α} : k ∈ sadd s k :=
  mem_sadd.mpr (Or.inr rfl)

theorem sadd_subset {s : List α} {k : α} : s ⊆ sadd s k :=
  fun _ hx => mem_sadd.mpr (Or.inl hx)

theorem nodup_sadd {s : List α} {k : α} (h : s.Nodup) : (sadd s k).Nodup := by
  by_cases hk : k ∈ s
  · simpa [sadd, hk] using h
  · rw [sadd, if_neg hk, List.nodup_append]
    refine ⟨h, List.nodup_singleton k, ?_⟩
    intro a ha hb
    rw [List.mem_singleton] at hb
    subst hb
    exact hk ha

end OSet

/-! ## graph-util.js -/

section GraphUtil

variable {α : Type} [DecidableEq α]

/-- `graphUtil.deepClone`: `JSON.parse(JSON.stringify(obj))`, the identity
on the pure values this code clones. -/
def deepClone (x : List α) : List α := x

/-- Modelled from the spec: `IntersectSets(a, b)` (`graphUtil.intersectSets`
is used by js-module-manager.js but its implementation is not among the
provided sources; the spec describes it as the standard set intersection
over the identifier domain).  Returns a fresh set with the elements of `a`
that are also in `b`, keeping the iteration order of `a`. -/
def intersectSets (a b : List α) : List α :=
  a.filter (fun x => decide (x ∈ b))

/-- Modelled from the spec: `UnionInto(dst, src)` (`graphUtil.addSetValues
{from := src, to := dst}` is used by js-module-manager.js but its
implementation is not among the provided sources; the spec describes it as
the standard set union into `dst`).  Adds every element of `src` to `dst`. -/
def addSetValues (src dst : List α) : List α :=
  src.foldl sadd dst

theorem mem_intersectSets {a b : List α} {x : α} :
    x ∈ intersectSets a b ↔ x ∈ a ∧ x ∈ b := by
  simp [intersectSets]

theorem nodup_intersectSets {a b : List α} (h : a.Nodup) :
    (intersectSets a b).Nodup :=
  h.filter _

theorem mem_addSetValues {src dst : List α} {x : α} :
    x ∈ addSetValues src dst ↔ x ∈ src ∨ x ∈ dst := by
  induction src generalizing dst with
  | nil => simp [addSetValues]
  | cons y ys ih =>
    simp only [addSetValues, List.foldl_cons] at ih ⊢
    rw [ih]
    constructor
    · rintro (h | h)
      · exact Or.inl (List.mem_cons_of_mem _ h)
      · rcases mem_sadd.mp h with h | rfl
        · exact Or.inr h
        · exact Or.inl (List.mem_cons_self _ _)
    · rintro (h | h)
      · rcases List.mem_cons.mp h with rfl | h
        · exact Or.inr self_mem_sadd
        · exact Or.inl h
      · exact Or.inr (sadd_subset h)

theorem nodup_addSetValues {src dst : List α} (h : dst.Nodup) :
    (addSetValues src dst).Nodup := by
  induction src generalizing dst with
  | nil => simpa [addSetValues] using h
  | cons y ys ih =>
    simp only [addSetValues, List.foldl_cons]
    exact ih (nodup_sadd h)

/-- The outgoing-edge set of `a` in an adjacency graph (empty when `a` is
not a node, as reading a missing key of the JS object yields nothing to
iterate). -/
def outOf (g : List (α × List α)) (a : α) : List α :=
  (mget g a).getD []

/-- `delete remainingGraph[n]` followed by deleting `n` from every
remaining node's outgoing set. -/
def removeNode : List (α × List α) → α → List (α × List α)
  | [], _ => []
  | (k, v) :: rest, n =>
    if k = n then removeNode rest n
    else (k, v.filter (fun x => decide (x ≠ n))) :: removeNode rest n

/-- `chooseNodeWithNoOutgoingEdges`: the first node (in key iteration
order) whose outgoing set is empty. -/
def chooseNodeWithNoOutgoingEdges (g : List (α × List α)) : Option α :=
  (g.find? (fun p => p.2.isEmpty)).map (·.1)

/-- The loop of `topSortNodes`, with explicit fuel (the JS `while` loop
removes one node per iteration, so `g.length` fuel is exact; the
`fuel = 0` branch is only reached with an empty graph when called with
enough fuel). -/
def topSortGo : Nat → List (α × List α) → Except (List α) (List α)
  | 0, g => if g.isEmpty then .ok [] else .error (keysOf g)
  | fuel + 1, g =>
    if g.isEmpty then .ok []
    else
      match chooseNodeWithNoOutgoingEdges g with
      | none => .error (keysOf g)
      | some n => (topSortGo fuel (removeNode g n)).map (fun rest => n :: rest)

/-- `graphUtil.topSortNodes`: leaves-first topological sort; a
`CycleError` carrying the remaining nodes is modelled as `.error`. -/
def topSortNodes (g : List (α × List α)) : Except (List α) (List α) :=
  topSortGo g.length g

/-- One step of the directed edge relation of an adjacency graph. -/
def edgeRel (g : List (α × List α)) (x y : α) : Prop := y ∈ outOf g x

/-- The graph contains a (directed, non-trivial) cycle. -/
def HasCycle (g : List (α × List α)) : Prop :=
  ∃ a, Relation.TransGen (edgeRel g) a a

/-- Adjacency-list well-formedness: every edge points at a node. -/
def ClosedGraph (g : List (α × List α)) : Prop :=
  ∀ p ∈ g, ∀ y ∈ p.2, y ∈ keysOf g

instance closedGraphDecidable (g : List (α × List α)) :
    Decidable (ClosedGraph g) :=
  decidable_of_iff (∀ p ∈ g, ∀ y ∈ p.2, y ∈ keysOf g) Iff.rfl

end GraphUtil

/-! ## Correctness of topSortNodes -/

section TopSortTheory

variable {α : Type} [DecidableEq α]

theorem keysOf_removeNode (g : List (α × List α)) (n : α) :
    keysOf (removeNode g n) = (keysOf g).filter (fun x => decide (x ≠ n)) := by
  induction g with
  | nil => rfl
  | cons p rest ih =>
    obtain ⟨k, v⟩ := p
    by_cases hk : k = n
    · subst hk
      rw [removeNode, if_pos rfl, keysOf_cons, List.filter_cons, ih]
      simp
    · rw [removeNode, if_neg hk, keysOf_cons, keysOf_cons, List.filter_cons, ih]
      simp [hk]

theorem not_mem_keysOf_removeNode (g : List (α × List α)) (n : α) :
    n ∉ keysOf (removeNode g n) := by
  rw [keysOf_removeNode]
  intro h
  have := List.of_mem_filter h
  simp at this

theorem mem_keysOf_removeNode {g : List (α × List α)} {n x : α}
    (h : x ∈ keysOf (removeNode g n)) : x ∈ keysOf g := by
  rw [keysOf_removeNode] at h
  exact List.mem_of_mem_filter h

theorem nodup_keysOf_removeNode {g : List (α × List α)} {n : α}
    (h : (keysOf g).Nodup) : (keysOf (removeNode g n)).Nodup := by
  rw [keysOf_removeNode]
  exact h.filter _

theorem outOf_removeNode {g : List (α × List α)} {n x : α} (hx : x ≠ n) :
    outOf (removeNode g n) x = (outOf g x).filter (fun y => decide (y ≠ n)) := by
  induction g with
  | nil => simp [removeNode, outOf, mget]
  | cons p rest ih =>
    obtain ⟨k, v⟩ := p
    by_cases hk : k = n
    · subst hk
      have hkx : k ≠ x := fun hh => hx hh.symm
      rw [removeNode, if_pos rfl, ih]
      have h2 : outOf ((k, v) :: rest) x = outOf rest x := by
        simp [outOf, mget_cons, hkx]
      rw [h2]
    · rw [removeNode, if_neg hk]
      by_cases hkx : k = x
      · subst hkx
        simp [outOf, mget_cons]
      · have h1 : outOf ((k, v.filter (fun y => decide (y ≠ n))) ::
            removeNode rest n) x = outOf (removeNode rest n) x := by
          simp [outOf, mget_cons, hkx]
        have h2 : outOf ((k, v) :: rest) x = outOf rest x := by
          simp [outOf, mget_cons, hkx]
        rw [h1, h2, ih]

theorem outOf_removeNode_self (g : List (α × List α)) (n : α) :
    outOf (removeNode g n) n = [] := by
  have hnm := not_mem_keysOf_removeNode g n
  simp [outOf, mget_eq_none_of_not_mem _ _ hnm]

theorem outOf_subset_of_removeNode {g : List (α × List α)} {n x y : α}
    (h : y ∈ outOf (removeNode g n) x) : y ∈ outOf g x := by
  by_cases hx : x = n
  · subst hx
    rw [outOf_removeNode_self] at h
    cases h
  · rw [outOf_removeNode hx] at h
    exact List.mem_of_mem_filter h

theorem length_removeNode_le (g : List (α × List α)) (n : α) :
    (removeNode g n).length ≤ g.length := by
  induction g with
  | nil => simp [removeNode]
  | cons p rest ih =>
    obtain ⟨k, v⟩ := p
    by_cases hk : k = n
    · rw [removeNode, if_pos hk]
      exact Nat.le_succ_of_le ih
    · rw [removeNode, if_neg hk]
      simpa using ih

theorem length_removeNode_lt {g : List (α × List α)} {n : α}
    (h : n ∈ keysOf g) : (removeNode g n).length < g.length := by
  induction g with
  | nil => simp [keysOf] at h
  | cons p rest ih =>
    obtain ⟨k, v⟩ := p
    by_cases hk : k = n
    · rw [removeNode, if_pos hk]
      exact Nat.lt_succ_of_le (length_removeNode_le rest n)
    · rw [keysOf_cons] at h
      rcases List.mem_cons.mp h with hh | hh
      · exact absurd hh.symm hk
      · rw [removeNode, if_neg hk]
        simpa using ih hh

theorem topSortGo_succ_none {fuel : Nat} {g : List (α × List α)}
    (hge : ¬ g.isEmpty = true)
    (hch : chooseNodeWithNoOutgoingEdges g = none) :
    topSortGo (fuel + 1) g = .error (keysOf g) := by
  rw [topSortGo, if_neg hge, hch]

theorem topSortGo_succ_some {fuel : Nat} {g : List (α × List α)} {n : α}
    (hge : ¬ g.isEmpty = true)
    (hch : chooseNodeWithNoOutgoingEdges g = some n) :
    topSortGo (fuel + 1) g =
      Except.map (fun rest => n :: rest) (topSortGo fuel (removeNode g n)) := by
  rw [topSortGo, if_neg hge, hch]

theorem chooseNoOut_none {g : List (α × List α)}
    (h : chooseNodeWithNoOutgoingEdges g = none) :
    ∀ p ∈ g, p.2 ≠ [] := by
  intro p hp hemp
  unfold chooseNodeWithNoOutgoingEdges at h
  cases hf : g.find? (fun p => p.2.isEmpty) with
  | some q => rw [hf] at h; simp at h
  | none =>
    have := List.find?_eq_none.mp hf p hp
    rw [hemp] at this
    simp at this

theorem chooseNoOut_some {g : List (α × List α)} {n : α}
    (hnd : (keysOf g).Nodup)
    (h : chooseNodeWithNoOutgoingEdges g = some n) :
    n ∈ keysOf g ∧ outOf g n = [] := by
  unfold chooseNodeWithNoOutgoingEdges at h
  cases hf : g.find? (fun p => p.2.isEmpty) with
  | none => rw [hf] at h; simp at h
  | some p =>
    rw [hf] at h
    have hpn : p.1 = n := by simpa using h
    have hmem := List.mem_of_find?_eq_some hf
    have hpred := List.find?_some hf
    have hempty : p.2 = [] := by simpa using hpred
    constructor
    · rw [← hpn]
      exact List.mem_map_of_mem Prod.fst hmem
    · have hmg : mget g p.1 = some p.2 :=
        mget_eq_some_of_mem_nodup g p.1 p.2 hnd (by simpa using hmem)
      rw [← hpn]
      simp [outOf, hmg, hempty]

theorem closedGraph_removeNode {g : List (α × List α)} {n : α}
    (h : ClosedGraph g) : ClosedGraph (removeNode g n) := by
  intro p hp y hy
  -- members of removeNode come from members of g with the same key
  have hsrc : ∃ v, (p.1, v) ∈ g ∧ p.1 ≠ n ∧ p.2 = v.filter (fun x => decide (x ≠ n)) := by
    clear h
    induction g with
    | nil => cases hp
    | cons q rest ih =>
      obtain ⟨k, v⟩ := q
      by_cases hk : k = n
      · rw [removeNode, if_pos hk] at hp
        obtain ⟨w, hw, hwn, hwe⟩ := ih hp
        exact ⟨w, List.mem_cons_of_mem _ hw, hwn, hwe⟩
      · rw [removeNode, if_neg hk] at hp
        rcases List.mem_cons.mp hp with hh | hh
        · subst hh
          exact ⟨v, List.mem_cons_self _ _, hk, rfl⟩
        · obtain ⟨w, hw, hwn, hwe⟩ := ih hh
          exact ⟨w, List.mem_cons_of_mem _ hw, hwn, hwe⟩
  obtain ⟨v, hv, hpn, hpe⟩ := hsrc
  rw [hpe] at hy
  have hyn : y ≠ n := by
    have := List.of_mem_filter hy
    simpa using this
  have hyv : y ∈ v := List.mem_of_mem_filter hy
  have : y ∈ keysOf g := h (p.1, v) hv y hyv
  rw [keysOf_removeNode]
  exact List.mem_filter.mpr ⟨this, by simp [hyn]⟩

/-- Success of the sort loop: the output is a permutation of the nodes,
has no self-edges, swallows every outgoing set, and never places an edge
source before its target. -/
theorem topSortGo_ok (fuel : Nat) :
    ∀ (g : List (α × List α)), g.length ≤ fuel → (keysOf g).Nodup →
    ∀ l, topSortGo fuel g = .ok l →
      l.Perm (keysOf g) ∧ (∀ x ∈ l, x ∉ outOf g x) ∧
      (∀ x ∈ l, outOf g x ⊆ l) ∧ l.Pairwise (fun a b => b ∉ outOf g a) := by
  induction fuel with
  | zero =>
    intro g hlen hnd l hok
    have hg : g = [] := List.length_eq_zero.mp (Nat.le_zero.mp hlen)
    subst hg
    simp only [topSortGo, List.isEmpty_nil, if_pos] at hok
    cases hok
    simp [keysOf]
  | succ fuel ih =>
    intro g hlen hnd l hok
    by_cases hge : g.isEmpty
    · have hg : g = [] := List.isEmpty_iff.mp hge
      subst hg
      simp only [topSortGo, List.isEmpty_nil, if_pos] at hok
      cases hok
      simp [keysOf]
    · cases hch : chooseNodeWithNoOutgoingEdges g with
      | none => rw [topSortGo_succ_none hge hch] at hok; cases hok
      | some n =>
        rw [topSortGo_succ_some hge hch] at hok
        cases hrec : topSortGo fuel (removeNode g n) with
        | error e => rw [hrec] at hok; cases hok
        | ok rest =>
          rw [hrec] at hok
          have hl : l = n :: rest := by
            have hmap : Except.map (fun rest => n :: rest)
                ((Except.ok rest : Except (List α) (List α))) = Except.ok (n :: rest) := rfl
            rw [hmap] at hok
            cases hok
            rfl
          subst hl
          obtain ⟨hnmem, hnout⟩ := chooseNoOut_some hnd hch
          have hlen' : (removeNode g n).length ≤ fuel :=
            Nat.lt_succ_iff.mp (Nat.lt_of_lt_of_le (length_removeNode_lt hnmem) hlen)
          obtain ⟨hperm, hself, hsub, hpw⟩ :=
            ih (removeNode g n) hlen' (nodup_keysOf_removeNode hnd) rest hrec
          have hrest_keys : ∀ x ∈ rest, x ∈ keysOf (removeNode g n) :=
            fun x hx => hperm.subset hx
          have hrest_ne_n : ∀ x ∈ rest, x ≠ n := by
            intro x hx hxn
            subst hxn
            exact not_mem_keysOf_removeNode g x (hrest_keys x hx)
          refine ⟨?_, ?_, ?_, ?_⟩
          · -- permutation
            have h1 : (keysOf g).Perm (n :: (keysOf g).erase n) :=
              List.perm_cons_erase hnmem
            have h2 : (keysOf g).erase n =
                (keysOf g).filter (fun x => decide (x ≠ n)) := by
              rw [hnd.erase_eq_filter]
              apply List.filter_congr
              intro x _
              by_cases hxn : x = n
              · simp [hxn]
              · simp [hxn]
            have h3 : rest.Perm ((keysOf g).filter (fun x => decide (x ≠ n))) := by
              rw [← keysOf_removeNode]
              exact hperm
            refine List.Perm.trans (List.Perm.cons n h3) ?_
            rw [← h2]
            exact h1.symm
          · -- no self edges
            intro x hx
            rcases List.mem_cons.mp hx with rfl | hx
            · simp [hnout]
            · intro hmem
              have hxn := hrest_ne_n x hx
              have : x ∈ outOf (removeNode g n) x := by
                rw [outOf_removeNode hxn]
                exact List.mem_filter.mpr ⟨hmem, by simp [hxn]⟩
              exact hself x hx this
          · -- outgoing sets are swallowed
            intro x hx y hy
            rcases List.mem_cons.mp hx with rfl | hx
            · rw [hnout] at hy
              cases hy
            · by_cases hyn : y = n
              · subst hyn
                exact List.mem_cons_self _ _
              · have hxn := hrest_ne_n x hx
                have : y ∈ outOf (removeNode g n) x := by
                  rw [outOf_removeNode hxn]
                  exact List.mem_filter.mpr ⟨hy, by simp [hyn]⟩
                exact List.mem_cons_of_mem _ (hsub x hx this)
          · -- pairwise: no forward edges
            rw [List.pairwise_cons]
            constructor
            · intro b _
              simp [hnout]
            · refine List.Pairwise.imp_of_mem ?_ hpw
              intro a b ha hb hnab hmem
              have hbn := hrest_ne_n b hb
              have han := hrest_ne_n a ha
              apply hnab
              rw [outOf_removeNode han]
              exact List.mem_filter.mpr ⟨hmem, by simp [hbn]⟩

/-- Failure of the sort loop leaves a non-empty trapped set of nodes,
each with an outgoing edge back into the set. -/
theorem topSortGo_error (fuel : Nat) :
    ∀ (g : List (α × List α)) (r : List α), g.length ≤ fuel →
    (keysOf g).Nodup → ClosedGraph g → topSortGo fuel g = .error r →
      r ≠ [] ∧ r ⊆ keysOf g ∧ (∀ x ∈ r, ∃ y ∈ r, y ∈ outOf g x) := by
  induction fuel with
  | zero =>
    intro g r hlen hnd hcl herr
    have hg : g = [] := List.length_eq_zero.mp (Nat.le_zero.mp hlen)
    subst hg
    simp only [topSortGo, List.isEmpty_nil, if_pos] at herr
    cases herr
  | succ fuel ih =>
    intro g r hlen hnd hcl herr
    by_cases hge : g.isEmpty
    · have hg : g = [] := List.isEmpty_iff.mp hge
      subst hg
      simp only [topSortGo, List.isEmpty_nil, if_pos] at herr
      cases herr
    · cases hch : chooseNodeWithNoOutgoingEdges g with
      | none =>
        rw [topSortGo_succ_none hge hch] at herr
        cases herr
        have hgne : g ≠ [] := fun hh => hge (by simp [hh])
        refine ⟨?_, by simp, ?_⟩
        · intro hh
          apply hgne
          cases g with
          | nil => rfl
          | cons p rest => simp [keysOf] at hh
        · intro x hx
          rcases List.mem_map.mp hx with ⟨p, hp, hpx⟩
          have hpne := chooseNoOut_none hch p hp
          have hmg : mget g x = some p.2 := by
            apply mget_eq_some_of_mem_nodup g x p.2 hnd
            rw [← hpx]
            simpa using hp
          obtain ⟨y, hy⟩ := List.exists_mem_of_ne_nil p.2 hpne
          refine ⟨y, ?_, ?_⟩
          · exact hcl p hp y hy
          · simp [outOf, hmg, hy]
      | some n =>
        rw [topSortGo_succ_some hge hch] at herr
        cases hrec : topSortGo fuel (removeNode g n) with
        | ok rest =>
          rw [hrec] at herr
          have hmap : Except.map (fun rest => n :: rest)
              ((Except.ok rest : Except (List α) (List α))) = Except.ok (n :: rest) := rfl
          rw [hmap] at herr
          cases herr
        | error r' =>
          rw [hrec] at herr
          have hmap : Except.map (fun rest => n :: rest)
              ((Except.error r' : Except (List α) (List α))) = Except.error r' := rfl
          rw [hmap] at herr
          cases herr
          obtain ⟨hnmem, _⟩ := chooseNoOut_some hnd hch
          have hlen' : (removeNode g n).length ≤ fuel :=
            Nat.lt_succ_iff.mp (Nat.lt_of_lt_of_le (length_removeNode_lt hnmem) hlen)
          obtain ⟨hne, hsub, hloop⟩ :=
            ih (removeNode g n) r hlen' (nodup_keysOf_removeNode hnd)
              (closedGraph_removeNode hcl) hrec
          refine ⟨hne, fun x hx => mem_keysOf_removeNode (hsub hx), ?_⟩
          intro x hx
          obtain ⟨y, hyr, hy⟩ := hloop x hx
          exact ⟨y, hyr, outOf_subset_of_removeNode hy⟩

/-- A non-empty set of nodes in which every node has a successor inside
the set yields a directed cycle (walk plus pigeonhole). -/
theorem hasCycle_of_trapped (g : List (α × List α)) (r : List α)
    (hne : r ≠ []) (hsucc : ∀ x ∈ r, ∃ y ∈ r, y ∈ outOf g x) :
    HasCycle g := by
  classical
  obtain ⟨a₀, ha₀⟩ := List.exists_mem_of_ne_nil r hne
  let next : α → α := fun x =>
    if h : ∃ y ∈ r, y ∈ outOf g x then h.choose else x
  have hnext_mem : ∀ x ∈ r, next x ∈ r := by
    intro x hx
    have h : ∃ y ∈ r, y ∈ outOf g x := hsucc x hx
    simp only [next, dif_pos h]
    exact h.choose_spec.1
  have hnext_edge : ∀ x ∈ r, edgeRel g x (next x) := by
    intro x hx
    have h : ∃ y ∈ r, y ∈ outOf g x := hsucc x hx
    simp only [next, dif_pos h]
    exact h.choose_spec.2
  let seq : Nat → α := fun k => next^[k] a₀
  have hseq_mem : ∀ k, seq k ∈ r := by
    intro k
    induction k with
    | zero => exact ha₀
    | succ k ihk =>
      have hit : seq (k + 1) = next (seq k) := Function.iterate_succ_apply' next k a₀
      rw [hit]
      exact hnext_mem _ ihk
  have hseq_step : ∀ k, edgeRel g (seq k) (seq (k + 1)) := by
    intro k
    have hit : seq (k + 1) = next (seq k) := Function.iterate_succ_apply' next k a₀
    rw [hit]
    exact hnext_edge _ (hseq_mem k)
  have htg : ∀ i j, i < j → Relation.TransGen (edgeRel g) (seq i) (seq j) := by
    intro i j hij
    induction j with
    | zero => cases hij
    | succ j ihj =>
      rcases Nat.lt_succ_iff_lt_or_eq.mp hij with h | h
      · exact Relation.TransGen.tail (ihj h) (hseq_step j)
      · subst h
        exact Relation.TransGen.single (hseq_step i)
  have hmaps : ∀ i : Fin (r.length + 1), seq i.val ∈ r.toFinset := by
    intro i
    exact List.mem_toFinset.mpr (hseq_mem i.val)
  have hcard : r.toFinset.card < (Finset.univ : Finset (Fin (r.length + 1))).card := by
    have h1 : r.toFinset.card ≤ r.length := r.toFinset_card_le
    simpa using Nat.lt_succ_of_le h1
  obtain ⟨i, _, j, _, hij, heq⟩ :=
    Finset.exists_ne_map_eq_of_card_lt_of_maps_to hcard (fun i _ => hmaps i)
  rcases Nat.lt_or_ge i.val j.val with h | h
  · exact ⟨seq i.val, heq ▸ htg i.val j.val h⟩
  · have hji : j.val < i.val := by
      apply Nat.lt_of_le_of_ne h
      intro hh
      exact hij (Fin.ext hh.symm)
    exact ⟨seq j.val, heq.symm ▸ htg j.val i.val hji⟩

/-- On success the output order puts every edge target strictly before
its source. -/
theorem topSortNodes_ok_indexOf {g : List (α × List α)} {l : List α}
    (hnd : (keysOf g).Nodup) (h : topSortNodes g = .ok l)
    {x y : α} (hx : x ∈ l) (hy : y ∈ outOf g x) :
    l.indexOf y < l.indexOf x := by
  obtain ⟨hperm, hself, hsub, hpw⟩ :=
    topSortGo_ok g.length g (le_refl _) hnd l h
  have hyl : y ∈ l := hsub x hx hy
  have hxy : x ≠ y := by
    intro hh
    subst hh
    exact hself x hx hy
  have hlnd : l.Nodup := hperm.nodup_iff.mpr hnd
  have hix : l.indexOf x < l.length := List.indexOf_lt_length.mpr hx
  have hiy : l.indexOf y < l.length := List.indexOf_lt_length.mpr hyl
  have hpairget := List.pairwise_iff_getElem.mp hpw
  rcases Nat.lt_trichotomy (l.indexOf y) (l.indexOf x) with hlt | heq | hgt
  · exact hlt
  · exfalso
    exact hxy ((List.indexOf_inj hx hyl).mp heq.symm)
  · exfalso
    have hgx : l[l.indexOf x] = x := List.getElem_indexOf hix
    have hgy : l[l.indexOf y] = y := List.getElem_indexOf hiy
    have hbad := hpairget (l.indexOf x) (l.indexOf y) hix hiy hgt
    rw [hgx, hgy] at hbad
    exact hbad hy

theorem transGen_src_mem_keysOf {g : List (α × List α)} {a b : α}
    (h : Relation.TransGen (edgeRel g) a b) : a ∈ keysOf g := by
  rw [mem_keysOf_iff_isSome]
  have hedge : ∃ c, edgeRel g a c := by
    induction h with
    | single hab => exact ⟨_, hab⟩
    | tail hab _ ihab => exact ihab
  obtain ⟨c, hc⟩ := hedge
  unfold edgeRel outOf at hc
  cases hm : mget g a with
  | none => rw [hm] at hc; simp at hc
  | some v => simp

/-- Success of the sort implies the graph is acyclic. -/
theorem not_hasCycle_of_topSortNodes_ok {g : List (α × List α)} {l : List α}
    (hnd : (keysOf g).Nodup) (h : topSortNodes g = .ok l) :
    ¬ HasCycle g := by
  rintro ⟨a, hcyc⟩
  obtain ⟨hperm, _, hsub, _⟩ := topSortGo_ok g.length g (le_refl _) hnd l h
  have hstep : ∀ x y, edgeRel g x y → x ∈ l →
      y ∈ l ∧ l.indexOf y < l.indexOf x := by
    intro x y hxy hxl
    exact ⟨hsub x hxl hxy, topSortNodes_ok_indexOf hnd h hxl hxy⟩
  have hal : a ∈ l := hperm.mem_iff.mpr (transGen_src_mem_keysOf hcyc)
  have hdesc : ∀ b, Relation.TransGen (edgeRel g) a b →
      b ∈ l ∧ l.indexOf b < l.indexOf a := by
    intro b htg
    induction htg with
    | single hab => exact hstep _ _ hab hal
    | tail _ hbc ihb =>
      obtain ⟨hbl, hblt⟩ := ihb
      obtain ⟨hcl', hclt⟩ := hstep _ _ hbc hbl
      exact ⟨hcl', Nat.lt_trans hclt hblt⟩
  exact Nat.lt_irrefl _ (hdesc a hcyc).2

/-- Failure of the sort on a closed graph implies a cycle. -/
theorem hasCycle_of_topSortNodes_error {g : List (α × List α)} {r : List α}
    (hnd : (keysOf g).Nodup) (hcl : ClosedGraph g)
    (h : topSortNodes g = .error r) : HasCycle g := by
  obtain ⟨hne, _, hloop⟩ :=
    topSortGo_error g.length g r (le_refl _) hnd hcl h
  exact hasCycle_of_trapped g r hne hloop

end TopSortTheory

/-! ## js-module-manager.js: data model -/

/-- Module IDs: `'A' + n` is `reg n`; the sentinel `'@'`
(`VIRTUAL_BASE_MODULE_ID`) is `vbase`. -/
inductive MId
  | reg (n : Nat)
  | vbase
deriving DecidableEq, Inhabited

/-- File IDs: `'a' + n` is `some n`; `none` is the JS value `undefined`
produced by looking up an unknown path (used as the object key
`"undefined"`). -/
abbrev FId := Option Nat

/-- `ModuleManager.CompileMode` (`UNCOMPILED = 1`, `NON_NAMESPACED = 2`,
`CLOSURE = 3`). -/
inductive CompileMode
  | uncompiled
  | nonNamespaced
  | closure
deriving DecidableEq, Inhabited

/-- One entry of `projectOptions.jsModules` (the solver reads only these
three fields). -/
structure ModuleSpec where
  alwaysLoadedAfterModules : List String
  nonClosureNamespacedInputFiles : List String
  dontCompileInputFiles : List String
deriving DecidableEq, Inhabited

/-- `projectOptions`, with `jsModules` in its `for (name in ...)`
iteration order. -/
structure ProjectOptions where
  jsModules : List (String × ModuleSpec)
deriving DecidableEq, Inhabited

/-- An entry of `this.modules`: `{name, moduleDeps, transitiveModuleDeps,
isRoot}`. -/
structure JsModule where
  name : String
  moduleDeps : List MId
  transitiveModuleDeps : List MId
  isRoot : Bool
deriving DecidableEq, Inhabited

/-- An entry of `this.files`: `{path, compileMode, inferredDeps,
neededInModules}`. -/
structure JsFile where
  path : String
  compileMode : CompileMode
  inferredDeps : List FId
  neededInModules : List MId
deriving DecidableEq, Inhabited

/-- One record of the result list of `calcInputs`. -/
structure ModuleOutput where
  name : String
  compiledInputFiles : List String
  dontCompileInputFiles : List String
deriving DecidableEq, Inhabited

/-- The exceptions this pipeline can throw.  `typeError` models the JS
`TypeError` raised by reading a property of `undefined`. -/
inductive JsErr
  | unknownModule (dep parent : String)
  | moduleCycle (names : List String)
  | multipleRoots (name : String) (roots : List String)
  | typeError
  | mixedModes (path : String)
  | fileCycle (paths : List String)
deriving DecidableEq, Inhabited

def VIRTUAL_BASE_MODULE : String := "virtual_base_module"

/-! ## js-module-manager.js: the ModuleManager pipeline -/

/-- `ModuleManager.indexModules`: successive IDs `'A' + n` for each
module name in iteration order. -/
def indexModules (po : ProjectOptions) : List (String × MId) :=
  (po.jsModules.foldl
    (fun acc p => (mset acc.1 p.1 (MId.reg acc.2), acc.2 + 1))
    (([] : List (String × MId)), 0)).1

/-- The body of `maybeAdd` in `ModuleManager.indexFiles`. -/
def maybeAddFile (st : List (String × Nat) × Nat) (filePath : String) :
    List (String × Nat) × Nat :=
  if (mget st.1 filePath).isSome then st else (mset st.1 filePath st.2, st.2 + 1)

/-- `ModuleManager.indexFiles`: interns, per module, the transitive
Closure deps, then the non-Closure-namespaced files, then the
don't-compile files. -/
def indexFiles (po : ProjectOptions) (tcd : List (String × List String)) :
    List (String × Nat) :=
  (po.jsModules.foldl (fun st p =>
    let st1 := ((mget tcd p.1).getD []).foldl maybeAddFile st
    let st2 := p.2.nonClosureNamespacedInputFiles.foldl maybeAddFile st1
    p.2.dontCompileInputFiles.foldl maybeAddFile st2) ([], 0)).1

/-- The `alwaysLoadedAfterModules.forEach` loop of `initModules`:
records each (resolved) dep in `moduleDeps`, throwing on a dep name with
no definition. -/
def addDepsLoop (nameToId : List (String × MId)) (parentName : String)
    (moduleId : MId) (deps : List String) (ms : List (MId × JsModule)) :
    Except JsErr (List (MId × JsModule)) :=
  deps.foldlM (fun ms depName =>
    match mget nameToId depName with
    | none => throw (JsErr.unknownModule depName parentName)
    | some depId => pure (mupd ms moduleId (fun m =>
        { m with moduleDeps := sadd m.moduleDeps depId }))) ms

/-- One iteration of the `for (moduleName in projectOptions.jsModules)`
loop of `ModuleManager.initModules`: create the module record, record
its deps, then set its root flag. -/
def initModulesStep (nameToId : List (String × MId))
    (ms : List (MId × JsModule)) (p : String × ModuleSpec) :
    Except JsErr (List (MId × JsModule)) := do
  let moduleId := (mget nameToId p.1).getD (MId.reg 0)
  let ms1 := mset ms moduleId ⟨p.1, [], [], false⟩
  let ms2 ← addDepsLoop nameToId p.1 moduleId p.2.alwaysLoadedAfterModules ms1
  pure (mupd ms2 moduleId (fun m =>
    { m with isRoot := p.2.alwaysLoadedAfterModules.length == 0 }))

/-- The `for (moduleName in projectOptions.jsModules)` loop of
`ModuleManager.initModules` (throws on a dep name with no definition). -/
def initModulesLoop (po : ProjectOptions) (nameToId : List (String × MId)) :
    Except JsErr (List (MId × JsModule)) :=
  po.jsModules.foldlM (initModulesStep nameToId) []

/-- `ModuleManager.prototype.maybeAddVirtualBaseModule`. -/
def maybeAddVirtualBaseModule (ms : List (MId × JsModule)) :
    List (MId × JsModule) :=
  let rootModuleIds := (ms.filter (fun p => p.2.isRoot)).map Prod.fst
  if rootModuleIds.length == 1 then ms
  else
    let ms' := mset ms MId.vbase ⟨VIRTUAL_BASE_MODULE, [], [], false⟩
    rootModuleIds.foldl (fun acc rootModuleId =>
      mupd acc rootModuleId (fun m =>
        { m with moduleDeps := sadd m.moduleDeps MId.vbase })) ms'

/-- `ModuleManager.prototype.initModules`. -/
def initModules (po : ProjectOptions) (nameToId : List (String × MId)) :
    Except JsErr (List (MId × JsModule)) := do
  let ms ← initModulesLoop po nameToId
  pure (maybeAddVirtualBaseModule ms)

/-- `ModuleManager.prototype.getSortedModuleIds`. -/
def getSortedModuleIds (ms : List (MId × JsModule)) : Except JsErr (List MId) :=
  let depGraph := ms.map (fun p => (p.1, p.2.moduleDeps))
  match topSortNodes depGraph with
  | .ok sorted => .ok sorted
  | .error remaining =>
    .error (JsErr.moduleCycle
      (remaining.map (fun moduleId => ((mget ms moduleId).getD default).name)))

/-- The filling loop of `fillInTransitiveModuleDeps`:
`trans(m) := trans(m) ∪ ⋃ trans(d) ∪ {m}` in topological order. -/
def fillInTransDepsLoop (ms : List (MId × JsModule)) (sorted : List MId) :
    List (MId × JsModule) :=
  sorted.foldl (fun ms moduleId =>
    let m := (mget ms moduleId).getD default
    let t := m.moduleDeps.foldl (fun acc directDep =>
        addSetValues ((mget ms directDep).getD default).transitiveModuleDeps acc)
      m.transitiveModuleDeps
    mupd ms moduleId (fun mm => { mm with transitiveModuleDeps := sadd t moduleId })) ms

/-- The root names reachable from a module
(`keys(trans).filter(isRoot).map(name)`). -/
def rootNamesIn (ms : List (MId × JsModule)) (m : JsModule) : List String :=
  (m.transitiveModuleDeps.filter
    (fun moduleId => ((mget ms moduleId).getD default).isRoot)).map
    (fun moduleId => ((mget ms moduleId).getD default).name)

/-- `ModuleManager.prototype.fillInTransitiveModuleDeps`, including the
more-than-one-root check. -/
def fillInTransitiveModuleDeps (ms : List (MId × JsModule))
    (sorted : List MId) : Except JsErr (List (MId × JsModule)) :=
  let ms' := fillInTransDepsLoop ms sorted
  match ms'.find? (fun p => decide (1 < (rootNamesIn ms' p.2).length)) with
  | some p => .error (.multipleRoots p.2.name (rootNamesIn ms' p.2))
  | none => .ok ms'

/-- The per-module file-dependency accumulators of `initFiles`. -/
structure FDeps where
  uncompiled : List FId
  uncompiledAndNonNamespaced : List FId
deriving DecidableEq, Inhabited

/-- `recordFile` inside `initFiles`.  Also appends the
`(fileId, depsBefore)` occurrence to the instrumentation list `occs`
(purely observational; `calcInputFiles` ignores it). -/
def recordFile (files : List (FId × JsFile)) (occs : List (FId × List FId))
    (fileId : FId) (path : String) (compileMode : CompileMode)
    (moduleId : MId) (depsBefore : List FId) :
    Except JsErr (List (FId × JsFile) × List (FId × List FId)) :=
  match mget files fileId with
  | none =>
    let files' := mset files fileId
      ⟨path, compileMode, deepClone depsBefore, []⟩
    .ok (mupd files' fileId (fun f =>
        { f with neededInModules := sadd f.neededInModules moduleId }),
      occs ++ [(fileId, depsBefore)])
  | some f =>
    let files' := mupd files fileId (fun f =>
      { f with inferredDeps := intersectSets f.inferredDeps depsBefore })
    if f.compileMode ≠ compileMode then .error (.mixedModes path)
    else .ok (mupd files' fileId (fun f =>
        { f with neededInModules := sadd f.neededInModules moduleId }),
      occs ++ [(fileId, depsBefore)])

/-- State of the `initFiles` pass: the `fileDeps` map, the `files` map
and the instrumentation list of recorded occurrences. -/
structure InitFilesState where
  fileDeps : List (MId × FDeps)
  files : List (FId × JsFile)
  occs : List (FId × List FId)
deriving Inhabited

/-- The body of the `sortedModuleIds.forEach` loop of
`ModuleManager.prototype.initFiles`.  Looking up the spec of a module
name absent from `jsModules` (the virtual base module) reads
`undefined.dontCompileInputFiles` in JS, a `TypeError`. -/
def initFilesModule (po : ProjectOptions) (tcd : List (String × List String))
    (ms : List (MId × JsModule)) (pathToId : List (String × Nat))
    (st : InitFilesState) (moduleId : MId) : Except JsErr InitFilesState := do
  let moduleName := ((mget ms moduleId).getD default).name
  match mget po.jsModules moduleName with
  | none => throw .typeError
  | some moduleSpec => do
    let mdeps := ((mget ms moduleId).getD default).moduleDeps
    let unc0 : List FId := mdeps.foldl (fun acc depModule =>
      addSetValues ((mget st.fileDeps depModule).getD default).uncompiled acc) []
    let st1 ← moduleSpec.dontCompileInputFiles.foldlM
      (fun (acc : List FId × List (FId × JsFile) × List (FId × List FId)) path => do
        let fileId := mget pathToId path
        let (files, occs) ← recordFile acc.2.1 acc.2.2 fileId path
          CompileMode.uncompiled moduleId acc.1
        pure (sadd acc.1 fileId, files, occs))
      (unc0, st.files, st.occs)
    let unc := st1.1
    let uan0 : List FId := mdeps.foldl (fun acc depModule =>
      addSetValues
        ((mget st.fileDeps depModule).getD default).uncompiledAndNonNamespaced acc)
      (deepClone unc)
    let st2 ← moduleSpec.nonClosureNamespacedInputFiles.foldlM
      (fun (acc : List FId × List (FId × JsFile) × List (FId × List FId)) path => do
        let fileId := mget pathToId path
        let (files, occs) ← recordFile acc.2.1 acc.2.2 fileId path
          CompileMode.nonNamespaced moduleId acc.1
        pure (sadd acc.1 fileId, files, occs))
      (uan0, st1.2.1, st1.2.2)
    let uan := st2.1
    let st3 ← ((mget tcd moduleName).getD []).foldlM
      (fun (acc : List FId × List (FId × JsFile) × List (FId × List FId)) path => do
        let fileId := mget pathToId path
        let (files, occs) ← recordFile acc.2.1 acc.2.2 fileId path
          CompileMode.closure moduleId acc.1
        pure (sadd acc.1 fileId, files, occs))
      (deepClone uan, st2.2.1, st2.2.2)
    pure ⟨mset st.fileDeps moduleId ⟨unc, uan⟩, st3.2.1, st3.2.2⟩

/-- `ModuleManager.prototype.initFiles`: one pass over the modules in
dependency order, returning the `files` map together with the recorded
occurrences. -/
def initFiles (po : ProjectOptions) (tcd : List (String × List String))
    (ms : List (MId × JsModule)) (sortedModuleIds : List MId)
    (pathToId : List (String × Nat)) :
    Except JsErr (List (FId × JsFile) × List (FId × List FId)) := do
  let st ← sortedModuleIds.foldlM (initFilesModule po tcd ms pathToId) ⟨[], [], []⟩
  pure (st.files, st.occs)

/-- `ModuleManager.prototype.getSortedFileIds`. -/
def getSortedFileIds (files : List (FId × JsFile)) : Except JsErr (List FId) :=
  let depGraph := files.map (fun p => (p.1, p.2.inferredDeps))
  match topSortNodes depGraph with
  | .ok sorted => .ok sorted
  | .error remaining =>
    .error (JsErr.fileCycle
      (remaining.map (fun fileId => ((mget files fileId).getD default).path)))

/-! ## js-module-manager.js: choosing a module for each file -/

/-- The UTF-16 code unit of a module ID string (`'@'` is 64, `'A' + n`
is `65 + n`). -/
def midCode : MId → Nat
  | .vbase => 64
  | .reg n => 65 + n

/-- Stable insertion maintaining `le`-sorted order (equal elements stay
behind existing ones, as in a stable JS sort). -/
def insertSortedBy (le : α → α → Bool) (x : α) : List α → List α
  | [] => [x]
  | y :: ys => if le y x then y :: insertSortedBy le x ys else x :: y :: ys

/-- Stable sort by `le` (insertion sort). -/
def sortBy (le : α → α → Bool) (l : List α) : List α :=
  l.foldl (fun acc x => insertSortedBy le x acc) []

/-- `ModuleManager.serializeModuleSet`: the set's keys sorted (by code
unit) and joined with ':'.  Since every module ID is one character
distinct from ':', the joined string is in bijection with the sorted ID
list, which is what we use as the memoization key. -/
def serializeModuleSet (moduleSet : List MId) : List MId :=
  sortBy (fun a b => decide (midCode a ≤ midCode b)) moduleSet

/-- JS `Number.prototype.toString` on the (non-negative, integral)
transitive-dep counts: decimal notation. -/
def jsNumStr (n : Nat) : String := Nat.repr n

/-- The module ID as the string JS holds (`'@'` or `'A' + n`). -/
def midStr : MId → String
  | .vbase => "@"
  | .reg n => String.mk [Char.ofNat (65 + n)]

/-- `String([numDeps, moduleId])`: JS stringifies an array by joining
its elements with ','. -/
def pairStr (p : Nat × MId) : String := jsNumStr p.1 ++ "," ++ midStr p.2

/-- Lexicographic comparison of UTF-16 code-unit sequences (the JS `<`
on strings). -/
def codeUnitsLt : List Char → List Char → Bool
  | [], [] => false
  | [], _ :: _ => true
  | _ :: _, [] => false
  | a :: as, b :: bs =>
    if a.toNat < b.toNat then true
    else if b.toNat < a.toNat then false
    else codeUnitsLt as bs

/-- The order imposed by the default (comparator-less) JS
`Array.prototype.sort`: elements compared as strings. -/
def jsDefaultSortLe (a b : Nat × MId) : Bool :=
  ! codeUnitsLt (pairStr b).data (pairStr a).data

/-- `ModuleManager.prototype.chooseLowestModules`.  Note that
`depCountModulePairs.sort()` is the default JS sort, which compares the
stringified pairs lexicographically — not numerically.
`underscore.last([])` is `undefined`, so an empty module set throws a
`TypeError` on `undefined[0]`. -/
def chooseLowestModules (ms : List (MId × JsModule)) (moduleSet : List MId) :
    Except JsErr (List MId) :=
  let depCountModulePairs := moduleSet.map (fun moduleId =>
    (((mget ms moduleId).getD default).transitiveModuleDeps.length, moduleId))
  let sorted := sortBy jsDefaultSortLe depCountModulePairs
  match sorted.getLast? with
  | none => .error .typeError
  | some lastPair =>
    let maxDepth := lastPair.1
    .ok ((sorted.reverse.takeWhile (fun p => decide (¬ p.1 < maxDepth))).map
      Prod.snd)

/-- `ModuleManager.prototype.calcLcaModules`, threading the
`memoizedLcas` map. -/
def calcLcaModules (ms : List (MId × JsModule)) (files : List (FId × JsFile))
    (memo : List (List MId × List MId)) (fileId : FId) :
    Except JsErr (List MId × List (List MId × List MId)) :=
  let neededInModules := ((mget files fileId).getD default).neededInModules
  let key := serializeModuleSet neededInModules
  match mget memo key with
  | some v => .ok (v, memo)
  | none =>
    let commonModuleDeps : Option (List MId) :=
      neededInModules.foldl (fun acc moduleId =>
        let t := ((mget ms moduleId).getD default).transitiveModuleDeps
        match acc with
        | none => some t
        | some c => some (intersectSets c t)) none
    match chooseLowestModules ms (commonModuleDeps.getD []) with
    | .error e => .error e
    | .ok lcaModules => .ok (lcaModules, mset memo key lcaModules)

/-- The `numMovesRequired` iteratee of `chooseModuleFor`. -/
def numMovesRequired (files : List (FId × JsFile)) (fileId : FId)
    (moduleId : MId) : Nat :=
  (((mget files fileId).getD default).inferredDeps.filter (fun dep =>
    decide (moduleId ∉ ((mget files dep).getD default).neededInModules))).length

/-- `underscore.min(list, iteratee)`: the first element attaining the
strictly smallest value (`none` on an empty list, where underscore
yields `Infinity`). -/
def underscoreMin (l : List α) (f : α → Nat) : Option α :=
  (l.foldl (fun best x =>
    match best with
    | none => some (x, f x)
    | some (bx, bv) => if f x < bv then some (x, f x) else some (bx, bv))
    none).map Prod.fst

/-- `ModuleManager.prototype.chooseModuleFor`. -/
def chooseModuleFor (ms : List (MId × JsModule)) (files : List (FId × JsFile))
    (memo : List (List MId × List MId)) (fileId : FId) :
    Except JsErr (MId × List (List MId × List MId)) := do
  let (lcaModules, memo') ← calcLcaModules ms files memo fileId
  match lcaModules with
  | [x] => pure (x, memo')
  | _ =>
    match underscoreMin lcaModules (numMovesRequired files fileId) with
    | some m => pure (m, memo')
    | none => throw .typeError

/-! ## js-module-manager.js: calcInputs -/

/-- State of the placement loop of `calcInputs`.  `placements` is
instrumentation recording the `bestModuleId` chosen for each file in
processing order (purely observational). -/
structure PlaceState where
  files : List (FId × JsFile)
  memo : List (List MId × List MId)
  inputsByModule : List (MId × ModuleOutput)
  placements : List (FId × MId)
deriving Inhabited

/-- One iteration of the reverse-order placement loop of `calcInputs`. -/
def placeOne (ms : List (MId × JsModule)) (st : PlaceState) (fileId : FId) :
    Except JsErr PlaceState := do
  let file := (mget st.files fileId).getD default
  let (bestModuleId, memo') ← chooseModuleFor ms st.files st.memo fileId
  let inputsByModule :=
    if file.compileMode = CompileMode.uncompiled then
      mupd st.inputsByModule bestModuleId (fun r =>
        { r with dontCompileInputFiles := file.path :: r.dontCompileInputFiles })
    else
      mupd st.inputsByModule bestModuleId (fun r =>
        { r with compiledInputFiles := file.path :: r.compiledInputFiles })
  let files' :=
    if bestModuleId ∈ file.neededInModules then st.files
    else
      let files1 := mupd st.files fileId (fun f =>
        { f with neededInModules := sadd f.neededInModules bestModuleId })
      file.inferredDeps.foldl (fun fs inferredDep =>
        mupd fs inferredDep (fun f =>
          { f with neededInModules := sadd f.neededInModules bestModuleId }))
        files1
  pure ⟨files', memo', inputsByModule, st.placements ++ [(fileId, bestModuleId)]⟩

/-- `ModuleManager.prototype.calcInputs`: initialize each module's
output record, place every file in reverse dependency order, and return
the records in module dependency order (plus the final loop state). -/
def calcInputs (ms : List (MId × JsModule)) (sortedModuleIds : List MId)
    (files0 : List (FId × JsFile)) (sortedFileIds : List FId) :
    Except JsErr (List ModuleOutput × PlaceState) := do
  let inputsByModule0 := ms.foldl (fun acc p =>
    mset acc p.1 ⟨p.2.name, [], []⟩) []
  let st ← sortedFileIds.reverse.foldlM (placeOne ms)
    ⟨files0, [], inputsByModule0, []⟩
  pure (sortedModuleIds.map (fun moduleId =>
    (mget st.inputsByModule moduleId).getD default), st)

/-! ## js-module-manager.js: calcInputFiles -/

/-- Everything the pipeline builds, kept for the statements of the
claims (`output` is what `calcInputFiles` returns). -/
structure Solved where
  nameToId : List (String × MId)
  pathToId : List (String × Nat)
  modules : List (MId × JsModule)
  sortedModuleIds : List MId
  files0 : List (FId × JsFile)
  occurrences : List (FId × List FId)
  sortedFileIds : List FId
  filesFinal : List (FId × JsFile)
  placements : List (FId × MId)
  output : List ModuleOutput
deriving Inhabited

/-- The `ModuleManager` constructor followed by `calcInputs`, in source
order. -/
def solve (po : ProjectOptions) (tcd : List (String × List String)) :
    Except JsErr Solved := do
  let nameToId := indexModules po
  let pathToId := indexFiles po tcd
  let ms0 ← initModules po nameToId
  let sortedModuleIds ← getSortedModuleIds ms0
  let ms ← fillInTransitiveModuleDeps ms0 sortedModuleIds
  let (files0, occs) ← initFiles po tcd ms sortedModuleIds pathToId
  let sortedFileIds ← getSortedFileIds files0
  let (output, st) ← calcInputs ms sortedModuleIds files0 sortedFileIds
  pure ⟨nameToId, pathToId, ms, sortedModuleIds, files0, occs, sortedFileIds,
    st.files, st.placements, output⟩

/-- `calcInputFiles(projectOptions, transitiveClosureDeps)`. -/
def calcInputFiles (po : ProjectOptions) (tcd : List (String × List String)) :
    Except JsErr (List ModuleOutput) :=
  (solve po tcd).map (·.output)

/-- The payload of a successful `Except` (used to state claims about
runs that return normally). -/
def getOk {ε β : Type} [Inhabited β] : Except ε β → β
  | .ok b => b
  | .error _ => default

/-! ## Claim C7: correctness of TopologicalSort -/

/-- C7: For every adjacency graph given to `topSortNodes` (well-formed:
distinct nodes, every edge pointing at a node): on success the result is
a permutation of the nodes in which every node appears after all nodes
in its outgoing set; on failure the carried remaining nodes form a
non-empty trapped subset in which every node keeps an outgoing edge (no
node with an empty outgoing set remains); and failure happens if and
only if the graph contains a cycle. -/
theorem C7_topSortNodes_spec {α : Type} [DecidableEq α]
    (g : List (α × List α)) (hnd : (keysOf g).Nodup) (hcl : ClosedGraph g) :
    (∀ l, topSortNodes g = .ok l →
      l.Perm (keysOf g) ∧
      (∀ x y, x ∈ l → y ∈ outOf g x → l.indexOf y < l.indexOf x)) ∧
    (∀ r, topSortNodes g = .error r →
      r ≠ [] ∧ r ⊆ keysOf g ∧ (∀ x ∈ r, ∃ y ∈ r, y ∈ outOf g x)) ∧
    ((∃ r, topSortNodes g = .error r) ↔ HasCycle g) := by
  refine ⟨?_, ?_, ?_, ?_⟩
  · intro l hok
    obtain ⟨hperm, _, _, _⟩ := topSortGo_ok g.length g (le_refl _) hnd l hok
    exact ⟨hperm, fun x y hx hy => topSortNodes_ok_indexOf hnd hok hx hy⟩
  · intro r herr
    exact topSortGo_error g.length g r (le_refl _) hnd hcl herr
  · rintro ⟨r, herr⟩
    exact hasCycle_of_topSortNodes_error hnd hcl herr
  · intro hcyc
    cases hts : topSortNodes g with
    | ok l => exact absurd hcyc (not_hasCycle_of_topSortNodes_ok hnd hts)
    | error r => exact ⟨r, rfl⟩

/-- Witness for C7 at the concrete two-node cycle
`{0: {1}, 1: {0}}` (closed, duplicate-free): the theorem's
cycle-direction applies and the sort indeed fails. -/
theorem C7_witness : HasCycle [((0 : Nat), [1]), (1, [0])] :=
  (C7_topSortNodes_spec [((0 : Nat), [1]), (1, [0])]
    (by decide) (by decide)).2.2.mp ⟨[0, 1], by decide⟩

/-! ## Claim C3: chooseLowestModules and the default JS sort -/

/-- An eleven-module chain `m0 ← m1 ← … ← m10` whose transitive
ancestor-set sizes are 1, 2, …, 11, with a single Closure file needed
only in the deepest module `m10`. -/
def chainProject : ProjectOptions := ⟨[
  ("m0", ⟨[], [], []⟩),
  ("m1", ⟨["m0"], [], []⟩),
  ("m2", ⟨["m1"], [], []⟩),
  ("m3", ⟨["m2"], [], []⟩),
  ("m4", ⟨["m3"], [], []⟩),
  ("m5", ⟨["m4"], [], []⟩),
  ("m6", ⟨["m5"], [], []⟩),
  ("m7", ⟨["m6"], [], []⟩),
  ("m8", ⟨["m7"], [], []⟩),
  ("m9", ⟨["m8"], [], []⟩),
  ("m10", ⟨["m9"], [], []⟩)]⟩

def chainDeps : List (String × List String) := [("m10", ["f.js"])]

/-- C3 (code bug): on the common-ancestor set computed for a file with
`neededIn = {m10}` — the transitive-ancestor set of `m10`, containing
`m10` itself with the maximum size 11 — `chooseLowestModules` returns
only `m8` (size 9).  The default (comparator-less) JS
`Array.prototype.sort` in the source compares the stringified
`[numDeps, moduleId]` pairs lexicographically, so `"9,I"` sorts after
`"10,J"` and `"11,K"`, contradicting the source's own comment
"Sort modules from fewest to most transitive module deps" as soon as a
dep count reaches 10; end to end, `calcInputFiles` emits `f.js` in `m8`
instead of `m10`. -/
theorem C3_chooseLowestModules_bug_eval :
    (chooseLowestModules (getOk (solve chainProject chainDeps)).modules
      ((mget (getOk (solve chainProject chainDeps)).modules
        (MId.reg 10)).getD default).transitiveModuleDeps = .ok [MId.reg 8]) ∧
    MId.reg 10 ∈ ((mget (getOk (solve chainProject chainDeps)).modules
      (MId.reg 10)).getD default).transitiveModuleDeps ∧
    ((mget (getOk (solve chainProject chainDeps)).modules
      (MId.reg 10)).getD default).transitiveModuleDeps.length = 11 ∧
    ((mget (getOk (solve chainProject chainDeps)).modules
      (MId.reg 8)).getD default).transitiveModuleDeps.length = 9 ∧
    (getOk (calcInputFiles chainProject chainDeps)).map
      (fun o => (o.name, o.compiledInputFiles)) =
      [("m0", []), ("m1", []), ("m2", []), ("m3", []), ("m4", []),
       ("m5", []), ("m6", []), ("m7", []), ("m8", ["f.js"]),
       ("m9", []), ("m10", [])] := by
  decide

/-! ## Claim C4: virtual base module injection -/

/-- C4 (counterexample): with zero declared modules the virtual root IS
injected (`modules` becomes the single virtual entry) and
`calcInputFiles` fails with the TypeError from looking up the spec of
`"virtual_base_module"` — not a valid empty output. -/
theorem C4_counterexample :
    initModules ⟨[]⟩ (indexModules ⟨[]⟩) =
      .ok [(MId.vbase, ⟨VIRTUAL_BASE_MODULE, [], [], false⟩)] ∧
    (mget (maybeAddVirtualBaseModule []) MId.vbase).isSome = true ∧
    calcInputFiles ⟨[]⟩ [] = .error JsErr.typeError := by
  decide

theorem mget_fold_mupd_not_mem {α β : Type} [DecidableEq α]
    (l : List α) (f : β → β) (m : List (α × β)) (k : α) (hk : k ∉ l) :
    mget (l.foldl (fun acc x => mupd acc x f) m) k = mget m k := by
  induction l generalizing m with
  | nil => rfl
  | cons x xs ih =>
    have hx : x ≠ k := fun hh => hk (hh ▸ List.mem_cons_self _ _)
    have hks : k ∉ xs := fun hh => hk (List.mem_cons_of_mem _ hh)
    rw [List.foldl_cons, ih _ hks, mget_mupd_ne _ _ _ _ hx]

theorem mget_fold_mupd_mem {α β : Type} [DecidableEq α]
    (l : List α) (f : β → β) (m : List (α × β)) (k : α)
    (hnd : l.Nodup) (hk : k ∈ l) :
    mget (l.foldl (fun acc x => mupd acc x f) m) k = (mget m k).map f := by
  induction l generalizing m with
  | nil => cases hk
  | cons x xs ih =>
    rw [List.nodup_cons] at hnd
    rcases List.mem_cons.mp hk with rfl | hk'
    · rw [List.foldl_cons, mget_fold_mupd_not_mem xs f _ k hnd.1,
        mget_mupd_self]
    · have hx : x ≠ k := by
        intro hh
        subst hh
        exact hnd.1 hk'
      rw [List.foldl_cons, ih _ hnd.2 hk', mget_mupd_ne _ _ _ _ hx]

/-- Pointwise specification of `maybeAddVirtualBaseModule` on a map of
distinct module IDs not containing the virtual ID. -/
theorem maybeAddVirtualBaseModule_spec (ms : List (MId × JsModule))
    (hnd : (keysOf ms).Nodup) (hnv : mget ms MId.vbase = none) :
    ((mget (maybeAddVirtualBaseModule ms) MId.vbase).isSome ↔
      ((ms.filter (fun p => p.2.isRoot)).map Prod.fst).length ≠ 1) ∧
    (((ms.filter (fun p => p.2.isRoot)).map Prod.fst).length ≠ 1 →
      mget (maybeAddVirtualBaseModule ms) MId.vbase =
        some ⟨VIRTUAL_BASE_MODULE, [], [], false⟩ ∧
      (∀ r ∈ (ms.filter (fun p => p.2.isRoot)).map Prod.fst,
        ∃ m, mget ms r = some m ∧
          mget (maybeAddVirtualBaseModule ms) r =
            some { m with moduleDeps := sadd m.moduleDeps MId.vbase }) ∧
      (∀ k, k ≠ MId.vbase → k ∉ (ms.filter (fun p => p.2.isRoot)).map Prod.fst →
        mget (maybeAddVirtualBaseModule ms) k = mget ms k)) ∧
    (((ms.filter (fun p => p.2.isRoot)).map Prod.fst).length = 1 →
      maybeAddVirtualBaseModule ms = ms) := by
  set rootIds := (ms.filter (fun p => p.2.isRoot)).map Prod.fst with hroot
  have hrnd : rootIds.Nodup := by
    rw [hroot]
    have hsub : ((ms.filter (fun p => p.2.isRoot)).map Prod.fst).Sublist
        (ms.map Prod.fst) := (List.filter_sublist ms).map Prod.fst
    exact hsub.nodup hnd
  have hrnv : MId.vbase ∉ rootIds := by
    intro hmem
    rw [hroot] at hmem
    rcases List.mem_map.mp hmem with ⟨p, hp, hpv⟩
    have : MId.vbase ∈ keysOf ms := by
      rw [← hpv]
      exact List.mem_map_of_mem Prod.fst (List.mem_of_mem_filter hp)
    rw [mem_keysOf_iff_isSome, hnv] at this
    cases this
  by_cases hone : rootIds.length = 1
  · refine ⟨?_, ?_, ?_⟩
    · rw [maybeAddVirtualBaseModule, ← hroot, if_pos (by simp [hone]), hnv]
      simp [hone]
    · intro hne
      exact absurd hone hne
    · intro _
      rw [maybeAddVirtualBaseModule, ← hroot, if_pos (by simp [hone])]
  · have hms' : maybeAddVirtualBaseModule ms = rootIds.foldl
        (fun acc rootModuleId => mupd acc rootModuleId (fun m =>
          { m with moduleDeps := sadd m.moduleDeps MId.vbase }))
        (mset ms MId.vbase ⟨VIRTUAL_BASE_MODULE, [], [], false⟩) := by
      rw [maybeAddVirtualBaseModule, ← hroot, if_neg (by simp [hone])]
    refine ⟨?_, ?_, ?_⟩
    · rw [hms', mget_fold_mupd_not_mem _ _ _ _ hrnv, mget_mset_self]
      simp [hone]
    · intro _
      refine ⟨?_, ?_, ?_⟩
      · rw [hms', mget_fold_mupd_not_mem _ _ _ _ hrnv, mget_mset_self]
      · intro r hr
        have hrv : MId.vbase ≠ r := fun hh => hrnv (hh ▸ hr)
        have hsome : (mget ms r).isSome := by
          rw [← mem_keysOf_iff_isSome]
          rw [hroot] at hr
          rcases List.mem_map.mp hr with ⟨p, hp, hpr⟩
          rw [← hpr]
          exact List.mem_map_of_mem Prod.fst (List.mem_of_mem_filter hp)
        cases hm : mget ms r with
        | none => rw [hm] at hsome; cases hsome
        | some m =>
          refine ⟨m, rfl, ?_⟩
          rw [hms', mget_fold_mupd_mem _ _ _ _ hrnd hr,
            mget_mset_ne _ _ _ _ hrv, hm]
          rfl
      · intro k hkv hkr
        rw [hms', mget_fold_mupd_not_mem _ _ _ _ hkr,
          mget_mset_ne _ _ _ _ (Ne.symm hkv)]
    · intro hone'
      exact absurd hone' hone

/-- C4 (amended): the virtual base module (named
`"virtual_base_module"`, no outgoing edges, not marked root, gaining an
incoming direct-dep edge from every prior root) is synthesized if and
only if the number of root modules differs from one — so also when zero
roots (in particular zero modules) exist; in the zero-module case the
ensuing solve fails with a TypeError instead of producing an empty
output (see `C4_counterexample`). -/
theorem C4_virtual_base_module_amended (ms : List (MId × JsModule))
    (hnd : (keysOf ms).Nodup) (hnv : mget ms MId.vbase = none) :
    ((mget (maybeAddVirtualBaseModule ms) MId.vbase).isSome ↔
      ((ms.filter (fun p => p.2.isRoot)).map Prod.fst).length ≠ 1) ∧
    (((ms.filter (fun p => p.2.isRoot)).map Prod.fst).length ≠ 1 →
      mget (maybeAddVirtualBaseModule ms) MId.vbase =
        some ⟨VIRTUAL_BASE_MODULE, [], [], false⟩ ∧
      (∀ r ∈ (ms.filter (fun p => p.2.isRoot)).map Prod.fst,
        ∃ m, mget ms r = some m ∧
          mget (maybeAddVirtualBaseModule ms) r =
            some { m with moduleDeps := sadd m.moduleDeps MId.vbase }) ∧
      (∀ k, k ≠ MId.vbase → k ∉ (ms.filter (fun p => p.2.isRoot)).map Prod.fst →
        mget (maybeAddVirtualBaseModule ms) k = mget ms k)) ∧
    (((ms.filter (fun p => p.2.isRoot)).map Prod.fst).length = 1 →
      maybeAddVirtualBaseModule ms = ms) :=
  maybeAddVirtualBaseModule_spec ms hnd hnv

/-- Witness for C4's amended statement: a concrete two-root module map
(the hypotheses hold and the virtual module is indeed synthesized). -/
theorem C4_witness :
    (mget (maybeAddVirtualBaseModule
      [(MId.reg 0, ⟨"r1", [], [], true⟩), (MId.reg 1, ⟨"r2", [], [], true⟩)])
      MId.vbase).isSome = true :=
  (C4_virtual_base_module_amended
    [(MId.reg 0, ⟨"r1", [], [], true⟩), (MId.reg 1, ⟨"r2", [], [], true⟩)]
    (by decide) (by decide)).1.mpr (by decide)

/-! ## Generic fold and map helpers -/

section FoldHelpers

variable {α : Type} [DecidableEq α] {β σ ε : Type}

theorem mset_not_mem_eq_append (m : List (α × β)) (k : α) (v : β)
    (h : k ∉ keysOf m) : mset m k v = m ++ [(k, v)] := by
  induction m with
  | nil => rfl
  | cons p rest ih =>
    obtain ⟨k', v'⟩ := p
    rw [keysOf_cons] at h
    have hk : k' ≠ k := fun hh => h (hh ▸ List.mem_cons_self _ _)
    have hrest : k ∉ keysOf rest := fun hh => h (List.mem_cons_of_mem _ hh)
    rw [mset, if_neg hk, ih hrest, List.cons_append]

theorem mupd_append_last (m : List (α × β)) (k : α) (v : β) (f : β → β)
    (h : k ∉ keysOf m) : mupd (m ++ [(k, v)]) k f = m ++ [(k, f v)] := by
  induction m with
  | nil => simp [mupd]
  | cons p rest ih =>
    obtain ⟨k', v'⟩ := p
    rw [keysOf_cons] at h
    have hk : k' ≠ k := fun hh => h (hh ▸ List.mem_cons_self _ _)
    have hrest : k ∉ keysOf rest := fun hh => h (List.mem_cons_of_mem _ hh)
    rw [List.cons_append, mupd, if_neg hk, ih hrest, List.cons_append]

theorem mupd_mupd_same (m : List (α × β)) (k : α) (f g : β → β) :
    mupd (mupd m k f) k g = mupd m k (fun v => g (f v)) := by
  induction m with
  | nil => rfl
  | cons p rest ih =>
    obtain ⟨k', v'⟩ := p
    by_cases hk : k' = k
    · simp [mupd, hk]
    · simp [mupd, hk, ih]

theorem mget_append_left (m₁ m₂ : List (α × β)) (k : α)
    (h : k ∈ keysOf m₁) : mget (m₁ ++ m₂) k = mget m₁ k := by
  induction m₁ with
  | nil => simp [keysOf_nil] at h
  | cons p rest ih =>
    obtain ⟨k', v'⟩ := p
    by_cases hk : k' = k
    · simp [mget_cons, hk]
    · rw [keysOf_cons] at h
      rcases List.mem_cons.mp h with hh | hh
      · exact absurd hh.symm hk
      · rw [List.cons_append, mget_cons, if_neg hk, mget_cons, if_neg hk,
          ih hh]

theorem mget_append_right (m₁ m₂ : List (α × β)) (k : α)
    (h : k ∉ keysOf m₁) : mget (m₁ ++ m₂) k = mget m₂ k := by
  induction m₁ with
  | nil => rfl
  | cons p rest ih =>
    obtain ⟨k', v'⟩ := p
    rw [keysOf_cons] at h
    have hk : k' ≠ k := fun hh => h (hh ▸ List.mem_cons_self _ _)
    have hrest : k ∉ keysOf rest := fun hh => h (List.mem_cons_of_mem _ hh)
    rw [List.cons_append, mget_cons, if_neg hk, ih hrest]

/-- Invariant preservation along a `foldlM` in the `Except` monad. -/
theorem foldlM_except_inv (f : σ → β → Except ε σ) (P : σ → Prop)
    (l : List β) (s₀ s : σ) (h0 : P s₀)
    (hstep : ∀ st b s', b ∈ l → P st → f st b = .ok s' → P s')
    (h : l.foldlM f s₀ = .ok s) : P s := by
  induction l generalizing s₀ with
  | nil =>
    simp only [List.foldlM_nil] at h
    cases h
    exact h0
  | cons b bs ih =>
    rw [List.foldlM_cons] at h
    cases hfb : f s₀ b with
    | error e =>
      rw [hfb] at h
      dsimp only [Bind.bind, Except.bind] at h
      cases h
    | ok s₁ =>
      rw [hfb] at h
      dsimp only [Bind.bind, Except.bind] at h
      exact ih s₁ (hstep s₀ b s₁ (List.mem_cons_self _ _) h0 hfb)
        (fun st b' s' hb' => hstep st b' s' (List.mem_cons_of_mem _ hb'))
        h

/-- A transitive relation holding across every successful `foldlM` step
holds between the start and end states. -/
theorem foldlM_except_rel (f : σ → β → Except ε σ) (R : σ → σ → Prop)
    (hrefl : ∀ x, R x x) (htrans : ∀ x y z, R x y → R y z → R x z)
    (l : List β) (s₀ s : σ)
    (hstep : ∀ st b s', b ∈ l → f st b = .ok s' → R st s')
    (h : l.foldlM f s₀ = .ok s) : R s₀ s := by
  induction l generalizing s₀ with
  | nil =>
    simp only [List.foldlM_nil] at h
    cases h
    exact hrefl s
  | cons b bs ih =>
    rw [List.foldlM_cons] at h
    cases hfb : f s₀ b with
    | error e =>
      rw [hfb] at h
      dsimp only [Bind.bind, Except.bind] at h
      cases h
    | ok s₁ =>
      rw [hfb] at h
      dsimp only [Bind.bind, Except.bind] at h
      exact htrans _ _ _ (hstep s₀ b s₁ (List.mem_cons_self _ _) hfb)
        (ih s₁ (fun st b' s' hb' => hstep st b' s' (List.mem_cons_of_mem _ hb')) h)

/-- Membership in a fold-of-intersections. -/
theorem mem_foldl_intersectSets (ds : List (List α)) (d0 : List α) (x : α) :
    x ∈ ds.foldl intersectSets d0 ↔ x ∈ d0 ∧ ∀ d ∈ ds, x ∈ d := by
  induction ds generalizing d0 with
  | nil => simp
  | cons d ds ih =>
    rw [List.foldl_cons, ih]
    constructor
    · rintro ⟨hx, hall⟩
      rw [mem_intersectSets] at hx
      exact ⟨hx.1, fun d' hd' => by
        rcases List.mem_cons.mp hd' with rfl | hd'
        · exact hx.2
        · exact hall d' hd'⟩
    · rintro ⟨hx, hall⟩
      exact ⟨mem_intersectSets.mpr ⟨hx, hall d (List.mem_cons_self _ _)⟩,
        fun d' hd' => hall d' (List.mem_cons_of_mem _ hd')⟩

end FoldHelpers

/-! ## Facts about the module phase -/

section ModulePhase

/-- Per-element post-condition of a `foldlM`: each element establishes
`Q` at its own step and every later step preserves it. -/
theorem foldlM_except_elem {σ β ε : Type} (f : σ → β → Except ε σ)
    (Q : β → σ → Prop)
    (l : List β) (s₀ s : σ)
    (hstep : ∀ st b s', b ∈ l → f st b = .ok s' → Q b s')
    (hmono : ∀ st b b' s', b ∈ l → b' ∈ l → Q b st → f st b' = .ok s' → Q b s')
    (h : l.foldlM f s₀ = .ok s) : ∀ b ∈ l, Q b s := by
  induction l generalizing s₀ with
  | nil => intro b hb; cases hb
  | cons c cs ih =>
    rw [List.foldlM_cons] at h
    cases hfc : f s₀ c with
    | error e =>
      rw [hfc] at h
      dsimp only [Bind.bind, Except.bind] at h
      cases h
    | ok s₁ =>
      rw [hfc] at h
      dsimp only [Bind.bind, Except.bind] at h
      intro b hb
      rcases List.mem_cons.mp hb with rfl | hb'
      · -- established at own step, preserved through the rest
        have hq1 : Q b s₁ := hstep s₀ b s₁ (List.mem_cons_self _ _) hfc
        exact foldlM_except_inv f (Q b) cs s₁ s hq1
          (fun st b' s' hb' hq hok =>
            hmono st b b' s' (List.mem_cons_self _ _)
              (List.mem_cons_of_mem _ hb') hq hok) h
      · exact ih s₁
          (fun st b' s' hb'' => hstep st b' s' (List.mem_cons_of_mem _ hb''))
          (fun st b' b'' s' hb'' hb''' =>
            hmono st b' b'' s' (List.mem_cons_of_mem _ hb'')
              (List.mem_cons_of_mem _ hb''')) h b hb'

/-- The resolved-dep accumulation underlying `addDepsLoop`. -/
def depIdsFrom (nameToId : List (String × MId)) (start : List MId)
    (deps : List String) : List MId :=
  deps.foldl (fun acc depName =>
    match mget nameToId depName with
    | some depId => sadd acc depId
    | none => acc) start

theorem mem_depIdsFrom {nameToId : List (String × MId)} {start : List MId}
    {deps : List String} {x : MId} :
    x ∈ depIdsFrom nameToId start deps ↔
      x ∈ start ∨ ∃ d ∈ deps, mget nameToId d = some x := by
  induction deps generalizing start with
  | nil => simp [depIdsFrom]
  | cons d ds ih =>
    simp only [depIdsFrom, List.foldl_cons] at ih ⊢
    cases hd : mget nameToId d with
    | none =>
      rw [ih]
      constructor
      · rintro (hx | hx)
        · exact Or.inl hx
        · exact Or.inr (by
            obtain ⟨d', hd', hx⟩ := hx
            exact ⟨d', List.mem_cons_of_mem _ hd', hx⟩)
      · rintro (hx | ⟨d', hd', hx⟩)
        · exact Or.inl hx
        · rcases List.mem_cons.mp hd' with rfl | hd''
          · rw [hd] at hx; cases hx
          · exact Or.inr ⟨d', hd'', hx⟩
    | some depId =>
      rw [ih]
      constructor
      · rintro (hx | hx)
        · rcases mem_sadd.mp hx with hx | rfl
          · exact Or.inl hx
          · exact Or.inr ⟨d, List.mem_cons_self _ _, hd⟩
        · obtain ⟨d', hd', hx⟩ := hx
          exact Or.inr ⟨d', List.mem_cons_of_mem _ hd', hx⟩
      · rintro (hx | ⟨d', hd', hx⟩)
        · exact Or.inl (mem_sadd.mpr (Or.inl hx))
        · rcases List.mem_cons.mp hd' with rfl | hd''
          · rw [hd] at hx
            cases hx
            exact Or.inl (mem_sadd.mpr (Or.inr rfl))
          · exact Or.inr ⟨d', hd'', hx⟩

/-- Pointwise behaviour of `addDepsLoop` on a successful run. -/
theorem addDepsLoop_ok {nameToId : List (String × MId)} {parentName : String}
    {moduleId : MId} (deps : List String) :
    ∀ (ms r : List (MId × JsModule)),
    addDepsLoop nameToId parentName moduleId deps ms = .ok r →
    (∀ d ∈ deps, (mget nameToId d).isSome) ∧
    keysOf r = keysOf ms ∧
    (∀ k, k ≠ moduleId → mget r k = mget ms k) ∧
    mget r moduleId = (mget ms moduleId).map (fun m =>
      { m with moduleDeps := depIdsFrom nameToId m.moduleDeps deps }) := by
  induction deps with
  | nil =>
    intro ms r h
    simp only [addDepsLoop, List.foldlM_nil] at h
    cases h
    refine ⟨by simp, rfl, fun k _ => rfl, ?_⟩
    cases hm : mget ms moduleId with
    | none => simp
    | some m => simp [depIdsFrom]
  | cons d ds ih =>
    intro ms r h
    simp only [addDepsLoop, List.foldlM_cons] at h
    cases hd : mget nameToId d with
    | none =>
      rw [hd] at h
      dsimp only [Bind.bind, Except.bind, throw, throwThe,
        MonadExceptOf.throw] at h
      cases h
    | some depId =>
      rw [hd] at h
      dsimp only [Bind.bind, Except.bind, pure, Except.pure] at h
      have hih := ih _ _ h
      refine ⟨?_, ?_, ?_, ?_⟩
      · intro d' hd'
        rcases List.mem_cons.mp hd' with rfl | hd''
        · simp [hd]
        · exact hih.1 d' hd''
      · rw [hih.2.1, keysOf_mupd]
      · intro k hk
        rw [hih.2.2.1 k hk, mget_mupd_ne _ _ _ _ (Ne.symm hk)]
      · rw [hih.2.2.2, mget_mupd_self]
        cases hm : mget ms moduleId with
        | none => simp
        | some m =>
          simp only [hm, Option.map_some', depIdsFrom, List.foldl_cons]
          rw [hd]

/-- The module record an `initModules` iteration leaves for its pair. -/
def builtModule (nameToId : List (String × MId)) (p : String × ModuleSpec) :
    JsModule :=
  ⟨p.1, depIdsFrom nameToId [] p.2.alwaysLoadedAfterModules, [],
    p.2.alwaysLoadedAfterModules.length == 0⟩

/-- Pointwise behaviour of one `initModules` iteration. -/
theorem initModulesStep_ok {nameToId : List (String × MId)}
    {ms r : List (MId × JsModule)} {p : String × ModuleSpec}
    (h : initModulesStep nameToId ms p = .ok r) :
    (∀ d ∈ p.2.alwaysLoadedAfterModules, (mget nameToId d).isSome) ∧
    mget r ((mget nameToId p.1).getD (MId.reg 0)) =
      some (builtModule nameToId p) ∧
    (∀ k, k ≠ (mget nameToId p.1).getD (MId.reg 0) → mget r k = mget ms k) ∧
    keysOf r = keysOf (mset ms ((mget nameToId p.1).getD (MId.reg 0))
      ⟨p.1, [], [], false⟩) := by
  unfold initModulesStep at h
  set moduleId := (mget nameToId p.1).getD (MId.reg 0) with hmid
  dsimp only at h
  cases hadd : addDepsLoop nameToId p.1 moduleId p.2.alwaysLoadedAfterModules
      (mset ms moduleId ⟨p.1, [], [], false⟩) with
  | error e =>
    rw [hadd] at h
    dsimp only [Bind.bind, Except.bind] at h
    cases h
  | ok ms2 =>
    rw [hadd] at h
    dsimp only [Bind.bind, Except.bind, pure, Except.pure] at h
    cases h
    obtain ⟨hres, hkeys, hother, hself⟩ := addDepsLoop_ok _ _ _ hadd
    refine ⟨hres, ?_, ?_, ?_⟩
    · rw [mget_mupd_self, hself, mget_mset_self]
      simp [builtModule]
    · intro k hk
      rw [mget_mupd_ne _ _ _ _ (Ne.symm hk), hother k hk,
        mget_mset_ne _ _ _ _ (Ne.symm hk)]
    · rw [keysOf_mupd, hkeys]

end ModulePhase

section ModulePhase2

/-- Invariant preservation along a pure `foldl`. -/
theorem foldl_inv {σ β : Type} (f : σ → β → σ) (P : σ → Prop)
    (l : List β) (s₀ : σ) (h0 : P s₀)
    (hstep : ∀ st b, b ∈ l → P st → P (f st b)) : P (l.foldl f s₀) := by
  induction l generalizing s₀ with
  | nil => exact h0
  | cons b bs ih =>
    rw [List.foldl_cons]
    exact ih (f s₀ b) (hstep s₀ b (List.mem_cons_self _ _) h0)
      (fun st b' hb' => hstep st b' (List.mem_cons_of_mem _ hb'))

/-- Per-element post-condition along a pure `foldl`. -/
theorem foldl_elem {σ β : Type} (f : σ → β → σ) (Q : β → σ → Prop)
    (l : List β) (s₀ : σ)
    (hstep : ∀ st b, b ∈ l → Q b (f st b))
    (hmono : ∀ st b b', b ∈ l → b' ∈ l → Q b st → Q b (f st b')) :
    ∀ b ∈ l, Q b (l.foldl f s₀) := by
  induction l generalizing s₀ with
  | nil => intro b hb; cases hb
  | cons c cs ih =>
    intro b hb
    rw [List.foldl_cons]
    rcases List.mem_cons.mp hb with rfl | hb'
    · have h1 : Q b (f s₀ b) := hstep s₀ b (List.mem_cons_self _ _)
      exact foldl_inv f (Q b) cs (f s₀ b) h1 (fun st b' hb' hq =>
        hmono st b b' (List.mem_cons_self _ _) (List.mem_cons_of_mem _ hb') hq)
    · exact ih (f s₀ c)
        (fun st b' hb'' => hstep st b' (List.mem_cons_of_mem _ hb''))
        (fun st b' b'' hb'' hb''' => hmono st b' b''
          (List.mem_cons_of_mem _ hb'') (List.mem_cons_of_mem _ hb''')) b hb'

/-- The values of a JS object map. -/
def valsOf {α β : Type} (m : List (α × β)) : List β := m.map Prod.snd

theorem mem_valsOf_mset {α β : Type} [DecidableEq α]
    {m : List (α × β)} {k : α} {v x : β}
    (h : x ∈ valsOf (mset m k v)) : x ∈ valsOf m ∨ x = v := by
  induction m with
  | nil =>
    simp [mset, valsOf] at h
    exact Or.inr h
  | cons p rest ih =>
    obtain ⟨k', v'⟩ := p
    by_cases hk : k' = k
    · simp only [mset, if_pos hk, valsOf, List.map_cons] at h
      rcases List.mem_cons.mp h with rfl | h'
      · exact Or.inr rfl
      · exact Or.inl (by simp [valsOf]; right; simpa [valsOf] using h')
    · simp only [mset, if_neg hk, valsOf, List.map_cons] at h
      rcases List.mem_cons.mp h with rfl | h'
      · exact Or.inl (by simp [valsOf])
      · rcases ih (by simpa [valsOf] using h') with h'' | h''
        · exact Or.inl (by simp [valsOf] at h'' ⊢; exact Or.inr h'')
        · exact Or.inr h''

/-- The running invariant of the `indexModules` fold: distinct keys,
distinct values, values all below the counter. -/
def IdxMInv (st : List (String × MId) × Nat) : Prop :=
  (keysOf st.1).Nodup ∧ (valsOf st.1).Nodup ∧
  ∀ q ∈ st.1, ∃ j, j < st.2 ∧ q.2 = MId.reg j

theorem valsOf_mset_nodup {m : List (String × MId)} {k : String} {n : Nat}
    (hv : (valsOf m).Nodup) (hlt : ∀ q ∈ m, ∃ j, j < n ∧ q.2 = MId.reg j) :
    (valsOf (mset m k (MId.reg n))).Nodup := by
  induction m with
  | nil => simp [mset, valsOf]
  | cons p rest ih =>
    obtain ⟨k', v'⟩ := p
    simp only [valsOf, List.map_cons, List.nodup_cons] at hv
    by_cases hk : k' = k
    · simp only [mset, if_pos hk, valsOf, List.map_cons, List.nodup_cons]
      refine ⟨?_, hv.2⟩
      intro hmem
      rcases List.mem_map.mp hmem with ⟨q, hq, hqe⟩
      obtain ⟨j, hj, hje⟩ := hlt q (List.mem_cons_of_mem _ hq)
      rw [hje] at hqe
      cases hqe
      exact Nat.lt_irrefl _ hj
    · simp only [mset, if_neg hk, valsOf, List.map_cons, List.nodup_cons]
      refine ⟨?_, ih hv.2 (fun q hq => hlt q (List.mem_cons_of_mem _ hq))⟩
      intro hmem
      rcases mem_valsOf_mset (by simpa [valsOf] using hmem) with h' | h'
      · exact hv.1 (by simpa [valsOf] using h')
      · obtain ⟨j, hj, hje⟩ := hlt (k', v') (List.mem_cons_self _ _)
        dsimp only at hje
        rw [hje] at h'
        cases h'
        exact Nat.lt_irrefl _ hj

theorem indexModules_inv (po : ProjectOptions) :
    IdxMInv (po.jsModules.foldl
      (fun acc p => (mset acc.1 p.1 (MId.reg acc.2), acc.2 + 1))
      (([] : List (String × MId)), 0)) := by
  apply foldl_inv
    (fun (acc : List (String × MId) × Nat) (p : String × ModuleSpec) =>
      (mset acc.1 p.1 (MId.reg acc.2), acc.2 + 1)) IdxMInv
  · exact ⟨List.nodup_nil, List.nodup_nil, by simp⟩
  · rintro ⟨m, n⟩ p _ ⟨hk, hv, hlt⟩
    refine ⟨nodup_keysOf_mset _ _ _ hk, valsOf_mset_nodup hv hlt, ?_⟩
    intro q hq
    dsimp only at hq
    -- membership in mset: either an old entry (value unchanged) or the new value
    have : q.2 ∈ valsOf (mset m p.1 (MId.reg n)) :=
      List.mem_map_of_mem Prod.snd hq
    rcases mem_valsOf_mset this with h' | h'
    · rcases List.mem_map.mp h' with ⟨q', hq', hqe⟩
      obtain ⟨j, hj, hje⟩ := hlt q' hq'
      exact ⟨j, Nat.lt_succ_of_lt hj, hqe ▸ hje⟩
    · exact ⟨n, Nat.lt_succ_self n, h'⟩

theorem indexModules_nodup_keys (po : ProjectOptions) :
    (keysOf (indexModules po)).Nodup := (indexModules_inv po).1

/-- Value injectivity of `indexModules`: two names mapped to the same
module ID are equal. -/
theorem indexModules_val_inj (po : ProjectOptions) {n₁ n₂ : String} {v : MId}
    (h₁ : mget (indexModules po) n₁ = some v)
    (h₂ : mget (indexModules po) n₂ = some v) : n₁ = n₂ := by
  obtain ⟨hk, hv0, _⟩ := indexModules_inv po
  have hv : (valsOf (indexModules po)).Nodup := hv0
  have hm₁ := mem_of_mget_eq_some _ _ _ h₁
  have hm₂ := mem_of_mget_eq_some _ _ _ h₂
  by_contra hne
  -- two distinct entries with the same value contradict value Nodup
  rcases List.mem_iff_append.mp hm₁ with ⟨l1, l2, hsplit⟩
  rw [hsplit] at hm₂ hv
  have hm₂' : (n₂, v) ∈ l1 ++ l2 := by
    rcases List.mem_append.mp hm₂ with h' | h'
    · exact List.mem_append.mpr (Or.inl h')
    · rcases List.mem_cons.mp h' with h'' | h''
      · cases h''; exact absurd rfl hne
      · exact List.mem_append.mpr (Or.inr h'')
  simp only [valsOf, List.map_append, List.map_cons] at hv
  have := (List.nodup_append.mp hv)
  rcases List.mem_append.mp hm₂' with h' | h'
  · exact this.2.2 (List.mem_map_of_mem Prod.snd h')
      (List.mem_cons_self _ _)
  · have h2 := this.2.1
    rw [List.nodup_cons] at h2
    exact h2.1 (List.mem_map_of_mem Prod.snd h')

/-- Every declared module name is a key of `indexModules`. -/
theorem indexModules_names_present (po : ProjectOptions) :
    ∀ p ∈ po.jsModules, p.1 ∈ keysOf (indexModules po) := by
  intro p hp
  unfold indexModules
  have := foldl_elem
    (fun (acc : List (String × MId) × Nat) (p : String × ModuleSpec) =>
      (mset acc.1 p.1 (MId.reg acc.2), acc.2 + 1))
    (fun (p : String × ModuleSpec)
      (st : List (String × MId) × Nat) => p.1 ∈ keysOf st.1)
    po.jsModules (([] : List (String × MId)), 0)
    (fun st b _ => by
      dsimp only
      rw [mem_keysOf_iff_isSome, mget_mset_self]
      rfl)
    (fun st b b' _ _ hq => by
      dsimp only at hq ⊢
      rw [mem_keysOf_iff_isSome] at hq ⊢
      by_cases hbe : b'.1 = b.1
      · rw [hbe, mget_mset_self]; rfl
      · rwa [mget_mset_ne _ _ _ _ hbe])
  exact this p hp

/-- Every key of `indexModules` is a declared module name. -/
theorem indexModules_keys_declared (po : ProjectOptions) :
    ∀ k ∈ keysOf (indexModules po), ∃ p ∈ po.jsModules, p.1 = k := by
  unfold indexModules
  have := foldl_inv
    (fun (acc : List (String × MId) × Nat) (p : String × ModuleSpec) =>
      (mset acc.1 p.1 (MId.reg acc.2), acc.2 + 1))
    (fun (st : List (String × MId) × Nat) =>
      ∀ k ∈ keysOf st.1, ∃ p ∈ po.jsModules, p.1 = k)
    po.jsModules (([] : List (String × MId)), 0)
    (by simp [keysOf])
    (fun st b hb hq => by
      intro k hk
      dsimp only at hk
      by_cases hkb : k = b.1
      · exact ⟨b, hb, hkb.symm⟩
      · apply hq
        rw [mem_keysOf_iff_isSome] at hk ⊢
        rwa [mget_mset_ne _ _ _ _ (fun hh => hkb hh.symm)] at hk)
  exact this

end ModulePhase2

section ModulePhase3

/-- Invariant carried through the `initModules` loop. -/
def ModInv (nameToId : List (String × MId)) (ms : List (MId × JsModule)) :
    Prop :=
  (keysOf ms).Nodup ∧
  (∀ q ∈ ms, q.2.transitiveModuleDeps = []) ∧
  (∀ q ∈ ms, q.2.isRoot = true ↔ q.2.moduleDeps = []) ∧
  (∀ q ∈ ms, ∀ x ∈ q.2.moduleDeps, ∃ name, mget nameToId name = some x)

theorem builtModule_deps_closed {nameToId : List (String × MId)}
    {p : String × ModuleSpec} :
    ∀ x ∈ (builtModule nameToId p).moduleDeps, ∃ name,
      mget nameToId name = some x := by
  intro x hx
  rcases mem_depIdsFrom.mp hx with hx | ⟨d, _, hd⟩
  · cases hx
  · exact ⟨d, hd⟩

theorem builtModule_isRoot_iff {nameToId : List (String × MId)}
    {p : String × ModuleSpec}
    (hres : ∀ d ∈ p.2.alwaysLoadedAfterModules, (mget nameToId d).isSome) :
    (builtModule nameToId p).isRoot = true ↔
      (builtModule nameToId p).moduleDeps = [] := by
  cases hdecl : p.2.alwaysLoadedAfterModules with
  | nil => simp [builtModule, hdecl, depIdsFrom]
  | cons d ds =>
    have hd : (mget nameToId d).isSome :=
      hres d (by rw [hdecl]; exact List.mem_cons_self _ _)
    cases hmd : mget nameToId d with
    | none => rw [hmd] at hd; cases hd
    | some depId =>
      have hne : depIdsFrom nameToId [] (d :: ds) ≠ [] := by
        intro hh
        have hmm : depId ∈ depIdsFrom nameToId [] (d :: ds) :=
          mem_depIdsFrom.mpr (Or.inr ⟨d, List.mem_cons_self _ _, hmd⟩)
        rw [hh] at hmm
        cases hmm
      simp [builtModule, hdecl, hne]

theorem initModulesLoop_inv {po : ProjectOptions}
    {nameToId : List (String × MId)} {r : List (MId × JsModule)}
    (h : initModulesLoop po nameToId = .ok r) : ModInv nameToId r := by
  apply foldlM_except_inv (initModulesStep nameToId) (ModInv nameToId)
    po.jsModules [] r
  · exact ⟨List.nodup_nil, by simp, by simp, by simp⟩
  · intro st b s' _ hinv hok
    obtain ⟨hres, hself, hother, hkeys⟩ := initModulesStep_ok hok
    obtain ⟨hnd, htr, hrt, hcl⟩ := hinv
    have hnd' : (keysOf s').Nodup := by
      rw [hkeys]
      exact nodup_keysOf_mset _ _ _ hnd
    refine ⟨hnd', ?_, ?_, ?_⟩ <;> intro q hq
    · have hq' : mget s' q.1 = some q.2 :=
        mget_eq_some_of_mem_nodup _ _ _ hnd' hq
      by_cases hk : q.1 = (mget nameToId b.1).getD (MId.reg 0)
      · rw [hk, hself] at hq'
        rw [← Option.some.inj hq']
        rfl
      · rw [hother _ hk] at hq'
        exact htr _ (mem_of_mget_eq_some _ _ _ hq')
    · have hq' : mget s' q.1 = some q.2 :=
        mget_eq_some_of_mem_nodup _ _ _ hnd' hq
      by_cases hk : q.1 = (mget nameToId b.1).getD (MId.reg 0)
      · rw [hk, hself] at hq'
        rw [← Option.some.inj hq']
        exact builtModule_isRoot_iff hres
      · rw [hother _ hk] at hq'
        exact hrt _ (mem_of_mget_eq_some _ _ _ hq')
    · have hq' : mget s' q.1 = some q.2 :=
        mget_eq_some_of_mem_nodup _ _ _ hnd' hq
      by_cases hk : q.1 = (mget nameToId b.1).getD (MId.reg 0)
      · rw [hk, hself] at hq'
        rw [← Option.some.inj hq']
        exact builtModule_deps_closed
      · rw [hother _ hk] at hq'
        exact hcl _ (mem_of_mget_eq_some _ _ _ hq')
  · exact h

/-- After the loop, every declared module pair left a record carrying
its name at its assigned ID. -/
theorem initModulesLoop_elem {po : ProjectOptions} {r : List (MId × JsModule)}
    (h : initModulesLoop po (indexModules po) = .ok r) :
    ∀ p ∈ po.jsModules, ∃ m,
      mget r ((mget (indexModules po) p.1).getD (MId.reg 0)) = some m ∧
      m.name = p.1 := by
  apply foldlM_except_elem (initModulesStep (indexModules po))
    (fun (p : String × ModuleSpec) (ms : List (MId × JsModule)) => ∃ m,
      mget ms ((mget (indexModules po) p.1).getD (MId.reg 0)) = some m ∧
      m.name = p.1)
    po.jsModules [] r
  · intro st b s' _ hok
    obtain ⟨_, hself, _, _⟩ := initModulesStep_ok hok
    exact ⟨builtModule (indexModules po) b, hself, rfl⟩
  · intro st b b' s' hb hb' hq hok
    obtain ⟨_, hself, hother, _⟩ := initModulesStep_ok hok
    by_cases hk : ((mget (indexModules po) b.1).getD (MId.reg 0)) =
        ((mget (indexModules po) b'.1).getD (MId.reg 0))
    · -- same assigned ID forces the same name
      have hsb : (mget (indexModules po) b.1).isSome := by
        rw [← mem_keysOf_iff_isSome]
        exact indexModules_names_present po b hb
      have hsb' : (mget (indexModules po) b'.1).isSome := by
        rw [← mem_keysOf_iff_isSome]
        exact indexModules_names_present po b' hb'
      cases hvb : mget (indexModules po) b.1 with
      | none => rw [hvb] at hsb; cases hsb
      | some v =>
        cases hvb' : mget (indexModules po) b'.1 with
        | none => rw [hvb'] at hsb'; cases hsb'
        | some v' =>
          rw [hvb, hvb'] at hk
          simp only [Option.getD_some] at hk
          have hbeq : b.1 = b'.1 :=
            indexModules_val_inj po hvb (hk ▸ hvb')
          refine ⟨builtModule (indexModules po) b', ?_, hbeq.symm⟩
          rw [Option.getD_some, hk]
          rw [hvb', Option.getD_some] at hself
          exact hself
    · obtain ⟨m, hm, hname⟩ := hq
      refine ⟨m, ?_, hname⟩
      rw [hother _ hk]
      exact hm
  · exact h

/-- Deps recorded by the loop point at existing module records. -/
theorem initModulesLoop_closed {po : ProjectOptions}
    {r : List (MId × JsModule)}
    (h : initModulesLoop po (indexModules po) = .ok r) :
    ∀ q ∈ r, ∀ x ∈ q.2.moduleDeps, x ∈ keysOf r := by
  intro q hq x hx
  obtain ⟨name, hname⟩ := (initModulesLoop_inv h).2.2.2 q hq x hx
  have hmem : name ∈ keysOf (indexModules po) := by
    rw [mem_keysOf_iff_isSome, hname]
    rfl
  obtain ⟨p, hp, hpn⟩ := indexModules_keys_declared po name hmem
  obtain ⟨m, hm, _⟩ := initModulesLoop_elem h p hp
  rw [hpn, hname, Option.getD_some] at hm
  rw [mem_keysOf_iff_isSome, hm]
  rfl

end ModulePhase3

section ModulePhase4

/-- The direct deps recorded for a module ID (empty when absent). -/
def depsOf (ms : List (MId × JsModule)) (k : MId) : List MId :=
  ((mget ms k).getD default).moduleDeps

/-- The transitive-ancestor set recorded for a module ID. -/
def transOf (ms : List (MId × JsModule)) (k : MId) : List MId :=
  ((mget ms k).getD default).transitiveModuleDeps

/-- The name recorded for a module ID. -/
def nameOf (ms : List (MId × JsModule)) (k : MId) : String :=
  ((mget ms k).getD default).name

theorem mget_map_snd {α β γ : Type} [DecidableEq α]
    (m : List (α × β)) (f : β → γ) (k : α) :
    mget (m.map (fun p => (p.1, f p.2))) k = (mget m k).map f := by
  induction m with
  | nil => rfl
  | cons p rest ih =>
    obtain ⟨k', v'⟩ := p
    by_cases hk : k' = k
    · simp [mget_cons, hk]
    · simp only [List.map_cons, mget_cons, if_neg hk]
      exact ih

theorem keysOf_map_snd {α β γ : Type} (m : List (α × β)) (f : β → γ) :
    keysOf (m.map (fun p => (p.1, f p.2))) = keysOf m := by
  induction m with
  | nil => rfl
  | cons p rest ih =>
    simp only [List.map_cons, keysOf_cons] at ih ⊢
    simp [keysOf, ih]

theorem outOf_graphOf (ms : List (MId × JsModule)) (k : MId) :
    outOf (ms.map (fun p => (p.1, p.2.moduleDeps))) k = depsOf ms k := by
  rw [outOf, mget_map_snd, depsOf]
  cases mget ms k with
  | none => rfl
  | some m => rfl

/-- Facts delivered by a successful `getSortedModuleIds`. -/
theorem getSortedModuleIds_ok_facts {ms0 : List (MId × JsModule)}
    {sorted : List MId} (hnd : (keysOf ms0).Nodup)
    (hcl : ∀ q ∈ ms0, ∀ x ∈ q.2.moduleDeps, x ∈ keysOf ms0)
    (h : getSortedModuleIds ms0 = .ok sorted) :
    sorted.Perm (keysOf ms0) ∧ sorted.Nodup ∧
    (∀ mid ∈ sorted, ∀ d ∈ depsOf ms0 mid, d ∈ sorted) ∧
    (∀ mid ∈ sorted, ∀ d ∈ depsOf ms0 mid,
      sorted.indexOf d < sorted.indexOf mid) := by
  unfold getSortedModuleIds at h
  dsimp only at h
  have hknd : (keysOf (ms0.map (fun p => (p.1, p.2.moduleDeps)))).Nodup := by
    rw [keysOf_map_snd]
    exact hnd
  cases htop : topSortNodes (ms0.map (fun p => (p.1, p.2.moduleDeps))) with
  | error e =>
    rw [htop] at h
    cases h
  | ok l =>
    rw [htop] at h
    cases h
    obtain ⟨hperm, _, hsub, _⟩ :=
      topSortGo_ok _ _ (le_refl _) hknd _ htop
    rw [keysOf_map_snd] at hperm
    refine ⟨hperm, hperm.nodup_iff.mpr hnd, ?_, ?_⟩
    · intro mid hmid d hd
      have : d ∈ outOf (ms0.map (fun p => (p.1, p.2.moduleDeps))) mid := by
        rw [outOf_graphOf]
        exact hd
      exact hsub mid hmid this
    · intro mid hmid d hd
      have : d ∈ outOf (ms0.map (fun p => (p.1, p.2.moduleDeps))) mid := by
        rw [outOf_graphOf]
        exact hd
      exact topSortNodes_ok_indexOf hknd htop hmid this

/-- The first module a successful sort emits has no outgoing deps. -/
theorem topSortNodes_ok_head {α : Type} [DecidableEq α]
    {g : List (α × List α)} {x : α} {t : List α}
    (hnd : (keysOf g).Nodup) (h : topSortNodes g = .ok (x :: t)) :
    outOf g x = [] := by
  cases g with
  | nil =>
    simp only [topSortNodes, topSortGo] at h
    cases h
  | cons p g' =>
    have hge : ¬ (p :: g').isEmpty = true := by simp
    rw [topSortNodes, List.length_cons] at h
    cases hch : chooseNodeWithNoOutgoingEdges (p :: g') with
    | none =>
      rw [topSortGo_succ_none hge hch] at h
      cases h
    | some n =>
      rw [topSortGo_succ_some hge hch] at h
      cases hrec : topSortGo g'.length (removeNode (p :: g') n) with
      | error e =>
        rw [hrec] at h
        cases h
      | ok rest =>
        rw [hrec] at h
        have hmap : Except.map (fun rest => n :: rest)
            ((Except.ok rest : Except (List α) (List α))) =
            Except.ok (n :: rest) := rfl
        rw [hmap] at h
        have hx : n = x := by
          have := h
          injection this with h1
          injection h1 with h2 _
        rw [← hx]
        exact (chooseNoOut_some hnd hch).2

/-- Membership in the root-ID list used by `maybeAddVirtualBaseModule`. -/
theorem mem_rootIds {r : List (MId × JsModule)} {k : MId}
    (hnd : (keysOf r).Nodup) :
    (k ∈ (r.filter (fun p => p.2.isRoot)).map Prod.fst ↔
      ∃ m, mget r k = some m ∧ m.isRoot = true) := by
  constructor
  · intro hk
    rcases List.mem_map.mp hk with ⟨q, hq, hqk⟩
    have hqr : q ∈ r := List.mem_of_mem_filter hq
    have hroot : q.2.isRoot = true := by
      have := List.of_mem_filter hq
      simpa using this
    refine ⟨q.2, ?_, hroot⟩
    rw [← hqk]
    exact mget_eq_some_of_mem_nodup _ _ _ hnd (by simpa using hqr)
  · rintro ⟨m, hm, hroot⟩
    have : (k, m) ∈ r := mem_of_mget_eq_some _ _ _ hm
    apply List.mem_map.mpr
    refine ⟨(k, m), ?_, rfl⟩
    apply List.mem_filter.mpr
    exact ⟨this, by simpa using hroot⟩

end ModulePhase4

section FillTrans

/-- Name, direct deps, and root flag agree pointwise (only the
transitive sets may differ). -/
def structEq (a b : List (MId × JsModule)) : Prop :=
  ∀ k, (mget a k).map (fun m => (m.name, m.moduleDeps, m.isRoot)) =
    (mget b k).map (fun m => (m.name, m.moduleDeps, m.isRoot))

theorem structEq_depsOf {a b : List (MId × JsModule)} (h : structEq a b)
    (k : MId) : depsOf a k = depsOf b k := by
  have hk := h k
  unfold depsOf
  cases ha : mget a k with
  | none =>
    rw [ha] at hk
    cases hb : mget b k with
    | none => rfl
    | some m => rw [hb] at hk; cases hk
  | some m =>
    rw [ha] at hk
    cases hb : mget b k with
    | none => rw [hb] at hk; cases hk
    | some m' =>
      rw [hb] at hk
      simp only [Option.map_some', Option.some.injEq, Option.getD_some] at hk ⊢
      have : m.moduleDeps = m'.moduleDeps := congrArg (fun t => t.2.1) hk
      exact this

theorem structEq_nameOf {a b : List (MId × JsModule)} (h : structEq a b)
    (k : MId) : nameOf a k = nameOf b k := by
  have hk := h k
  unfold nameOf
  cases ha : mget a k with
  | none =>
    rw [ha] at hk
    cases hb : mget b k with
    | none => rfl
    | some m => rw [hb] at hk; cases hk
  | some m =>
    rw [ha] at hk
    cases hb : mget b k with
    | none => rw [hb] at hk; cases hk
    | some m' =>
      rw [hb] at hk
      simp only [Option.map_some', Option.some.injEq, Option.getD_some] at hk ⊢
      exact congrArg (fun t => t.1) hk

theorem mem_foldl_addSetValues (l : List MId) (g : MId → List MId)
    (start : List MId) (x : MId) :
    x ∈ l.foldl (fun acc d => addSetValues (g d) acc) start ↔
      x ∈ start ∨ ∃ d ∈ l, x ∈ g d := by
  induction l generalizing start with
  | nil => simp
  | cons d ds ih =>
    rw [List.foldl_cons, ih]
    constructor
    · rintro (hx | ⟨d', hd', hx⟩)
      · rcases mem_addSetValues.mp hx with hx | hx
        · exact Or.inr ⟨d, List.mem_cons_self _ _, hx⟩
        · exact Or.inl hx
      · exact Or.inr ⟨d', List.mem_cons_of_mem _ hd', hx⟩
    · rintro (hx | ⟨d', hd', hx⟩)
      · exact Or.inl (mem_addSetValues.mpr (Or.inr hx))
      · rcases List.mem_cons.mp hd' with rfl | hd''
        · exact Or.inl (mem_addSetValues.mpr (Or.inl hx))
        · exact Or.inr ⟨d', hd'', hx⟩

/-- All transitive sets of the pre-fill map are empty. -/
theorem transOf_all_nil {ms0 : List (MId × JsModule)}
    (htrans0 : ∀ q ∈ ms0, q.2.transitiveModuleDeps = []) (k : MId) :
    transOf ms0 k = [] := by
  unfold transOf
  cases hm : mget ms0 k with
  | none => rfl
  | some m =>
    simp only [Option.getD_some]
    exact htrans0 (k, m) (mem_of_mget_eq_some _ _ _ hm)

/-- The accumulator built for one module inside the fill loop:
start from its own transitive set and union in each direct dep's
transitive set. -/
def transAcc (ms : List (MId × JsModule)) (moduleId : MId) : List MId :=
  (depsOf ms moduleId).foldl
    (fun acc directDep => addSetValues (transOf ms directDep) acc)
    (transOf ms moduleId)

/-- One step of the fold in `fillInTransDepsLoop`. -/
def stepFill (ms : List (MId × JsModule)) (moduleId : MId) :
    List (MId × JsModule) :=
  mupd ms moduleId
    (fun mm => { mm with
      transitiveModuleDeps := sadd (transAcc ms moduleId) moduleId })

theorem fillInTransDepsLoop_cons (cur : List (MId × JsModule)) (mid : MId)
    (rest : List MId) :
    fillInTransDepsLoop cur (mid :: rest) =
      fillInTransDepsLoop (stepFill cur mid) rest := rfl

/-- The generalized induction for `fillInTransDepsLoop`: walking the
remaining part of the sorted module list while the processed prefix
already carries correct transitive sets. -/
theorem fillLoop_go (ms0 : List (MId × JsModule)) (sorted : List MId)
    (hnd : (keysOf ms0).Nodup) (hsnd : sorted.Nodup)
    (htrans0 : ∀ q ∈ ms0, q.2.transitiveModuleDeps = [])
    (hsub : ∀ mid ∈ sorted, mid ∈ keysOf ms0)
    (htopo : ∀ mid ∈ sorted, ∀ d ∈ depsOf ms0 mid,
      sorted.indexOf d < sorted.indexOf mid) :
    ∀ (rest done : List MId) (cur : List (MId × JsModule)),
    sorted = done ++ rest →
    keysOf cur = keysOf ms0 →
    structEq cur ms0 →
    (∀ mid, mid ∉ done → transOf cur mid = transOf ms0 mid) →
    (∀ mid ∈ done, mid ∈ transOf cur mid) →
    (∀ mid, ∀ x ∈ transOf cur mid,
      x = mid ∨ (x ∈ done ∧ sorted.indexOf x < sorted.indexOf mid)) →
    (keysOf (fillInTransDepsLoop cur rest) = keysOf ms0 ∧
     structEq (fillInTransDepsLoop cur rest) ms0 ∧
     (∀ mid ∈ done ++ rest, mid ∈ transOf (fillInTransDepsLoop cur rest) mid) ∧
     (∀ mid, ∀ x ∈ transOf (fillInTransDepsLoop cur rest) mid,
       x = mid ∨ (x ∈ done ++ rest ∧
         sorted.indexOf x < sorted.indexOf mid))) := by
  intro rest
  induction rest with
  | nil =>
    intro done cur hs hkeys hstruct hun hself hprop
    refine ⟨hkeys, hstruct, ?_, ?_⟩
    · intro mid hmid
      rw [List.append_nil] at hmid
      exact hself mid hmid
    · intro mid x hx
      rcases hprop mid x hx with h | ⟨h1, h2⟩
      · exact Or.inl h
      · exact Or.inr ⟨List.mem_append.mpr (Or.inl h1), h2⟩
  | cons mid rest' ih =>
    intro done cur hs hkeys hstruct hun hself hprop
    have hmid_sorted : mid ∈ sorted := by
      rw [hs]
      exact List.mem_append.mpr (Or.inr (List.mem_cons_self _ _))
    have hmid_not_done : mid ∉ done := by
      intro hmem
      rw [hs] at hsnd
      obtain ⟨_, _, hdisj⟩ := List.nodup_append.mp hsnd
      exact hdisj hmem (List.mem_cons_self _ _)
    have hmid_keys : mid ∈ keysOf ms0 := hsub mid hmid_sorted
    have hmid_cur : (mget cur mid).isSome := by
      rw [← mem_keysOf_iff_isSome, hkeys]
      exact hmid_keys
    have hidx_mid : sorted.indexOf mid = done.length := by
      rw [hs, List.indexOf_append_of_not_mem hmid_not_done,
        List.indexOf_cons_self, Nat.add_zero]
    -- unfold one step of the fold
    rw [fillInTransDepsLoop_cons]
    have hmdeps : depsOf cur mid = depsOf ms0 mid :=
      structEq_depsOf hstruct mid
    have hmtrans : transOf cur mid = [] := by
      rw [hun mid hmid_not_done]
      exact transOf_all_nil htrans0 mid
    have hmem_t : ∀ x, x ∈ transAcc cur mid →
        ∃ d ∈ depsOf ms0 mid, x ∈ transOf cur d := by
      intro x hx
      unfold transAcc at hx
      rcases (mem_foldl_addSetValues (depsOf cur mid)
          (fun d => transOf cur d) (transOf cur mid) x).mp hx with
        hx | ⟨d, hd, hx⟩
      · rw [hmtrans] at hx
        cases hx
      · rw [hmdeps] at hd
        exact ⟨d, hd, hx⟩
    -- transfer of the recorded sets across the update
    have htrans_cur' : ∀ k, k ≠ mid →
        transOf (stepFill cur mid) k = transOf cur k := by
      intro k hk
      unfold transOf stepFill
      rw [mget_mupd_ne _ _ _ _ (Ne.symm hk)]
    have htrans_cur'_mid :
        transOf (stepFill cur mid) mid = sadd (transAcc cur mid) mid := by
      unfold transOf stepFill
      rw [mget_mupd_self]
      cases hmm : mget cur mid with
      | none => rw [hmm] at hmid_cur; cases hmid_cur
      | some mv => rfl
    -- direct deps of the processed module lie in the done prefix
    have hdep_done : ∀ d ∈ depsOf ms0 mid, d ∈ done := by
      intro d hd
      have hlt := htopo mid hmid_sorted d hd
      rw [hidx_mid] at hlt
      by_contra hdm
      have hidx : sorted.indexOf d = done.length + (mid :: rest').indexOf d := by
        rw [hs]
        exact List.indexOf_append_of_not_mem hdm
      rw [hidx] at hlt
      exact Nat.not_lt.mpr (Nat.le_add_right _ _) hlt
    -- apply the induction hypothesis
    have happ : sorted = (done ++ [mid]) ++ rest' := by
      rw [hs, List.append_assoc, List.singleton_append]
    have hll : done ++ mid :: rest' = (done ++ [mid]) ++ rest' := by
      rw [List.append_assoc, List.singleton_append]
    rw [hll]
    refine ih (done ++ [mid]) (stepFill cur mid) happ ?_ ?_ ?_ ?_ ?_
    · unfold stepFill
      rw [keysOf_mupd, hkeys]
    · intro k
      by_cases hk : k = mid
      · unfold stepFill
        rw [hk, mget_mupd_self]
        have hstx := hstruct mid
        cases hmm : mget cur mid with
        | none => rw [hmm] at hmid_cur; cases hmid_cur
        | some mv =>
          rw [hmm] at hstx
          simp only [Option.map_some'] at hstx ⊢
          exact hstx
      · unfold stepFill
        rw [mget_mupd_ne _ _ _ _ (Ne.symm hk)]
        exact hstruct k
    · intro k hk
      have hkm : k ≠ mid := by
        intro hh
        exact hk (hh ▸ List.mem_append.mpr (Or.inr (List.mem_cons_self _ _)))
      have hkd : k ∉ done :=
        fun hh => hk (List.mem_append.mpr (Or.inl hh))
      rw [htrans_cur' k hkm]
      exact hun k hkd
    · intro k hk
      rcases List.mem_append.mp hk with hkd | hkm
      · rw [htrans_cur' k (by
          intro hh
          exact hmid_not_done (hh ▸ hkd))]
        exact hself k hkd
      · rw [List.mem_singleton] at hkm
        rw [hkm, htrans_cur'_mid]
        exact self_mem_sadd
    · intro k x hx
      rcases eq_or_ne k mid with heq | hkm
      · rw [heq] at hx ⊢
        rw [htrans_cur'_mid] at hx
        rcases mem_sadd.mp hx with hx | rfl
        · obtain ⟨d, hd, hxd⟩ := hmem_t x hx
          have hd_done : d ∈ done := hdep_done d hd
          have hdlt : sorted.indexOf d < sorted.indexOf mid :=
            htopo mid hmid_sorted d hd
          rcases hprop d x hxd with rfl | ⟨hx1, hx2⟩
          · exact Or.inr ⟨List.mem_append.mpr (Or.inl hd_done), hdlt⟩
          · exact Or.inr ⟨List.mem_append.mpr (Or.inl hx1),
              Nat.lt_trans hx2 hdlt⟩
        · exact Or.inl rfl
      · rw [htrans_cur' k hkm] at hx
        rcases hprop k x hx with h | ⟨h1, h2⟩
        · exact Or.inl h
        · exact Or.inr ⟨List.mem_append.mpr (Or.inl h1), h2⟩

end FillTrans

section StageDecomp

/-- Decomposition of a successful `solve` run into its pipeline stages. -/
theorem solve_ok {po : ProjectOptions} {tcd : List (String × List String)}
    {s : Solved} (h : solve po tcd = .ok s) :
    ∃ ms0 st,
      initModules po (indexModules po) = .ok ms0 ∧
      getSortedModuleIds ms0 = .ok s.sortedModuleIds ∧
      fillInTransitiveModuleDeps ms0 s.sortedModuleIds = .ok s.modules ∧
      initFiles po tcd s.modules s.sortedModuleIds (indexFiles po tcd) =
        .ok (s.files0, s.occurrences) ∧
      getSortedFileIds s.files0 = .ok s.sortedFileIds ∧
      calcInputs s.modules s.sortedModuleIds s.files0 s.sortedFileIds =
        .ok (s.output, st) ∧
      st.files = s.filesFinal ∧ st.placements = s.placements ∧
      s.nameToId = indexModules po ∧ s.pathToId = indexFiles po tcd := by
  unfold solve at h
  dsimp only at h
  cases h0 : initModules po (indexModules po) with
  | error e => rw [h0] at h; dsimp only [Bind.bind, Except.bind] at h; cases h
  | ok ms0 =>
  rw [h0] at h
  dsimp only [Bind.bind, Except.bind] at h
  cases h1 : getSortedModuleIds ms0 with
  | error e => rw [h1] at h; dsimp only [Bind.bind, Except.bind] at h; cases h
  | ok sortedM =>
  rw [h1] at h
  dsimp only [Bind.bind, Except.bind] at h
  cases h2 : fillInTransitiveModuleDeps ms0 sortedM with
  | error e => rw [h2] at h; dsimp only [Bind.bind, Except.bind] at h; cases h
  | ok ms =>
  rw [h2] at h
  dsimp only [Bind.bind, Except.bind] at h
  cases h3 : initFiles po tcd ms sortedM (indexFiles po tcd) with
  | error e => rw [h3] at h; dsimp only [Bind.bind, Except.bind] at h; cases h
  | ok fo =>
  rw [h3] at h
  obtain ⟨files0, occs⟩ := fo
  dsimp only [Bind.bind, Except.bind] at h
  cases h4 : getSortedFileIds files0 with
  | error e => rw [h4] at h; dsimp only [Bind.bind, Except.bind] at h; cases h
  | ok sortedF =>
  rw [h4] at h
  dsimp only [Bind.bind, Except.bind] at h
  cases h5 : calcInputs ms sortedM files0 sortedF with
  | error e => rw [h5] at h; dsimp only [Bind.bind, Except.bind] at h; cases h
  | ok ost =>
  rw [h5] at h
  obtain ⟨output, st⟩ := ost
  dsimp only [Bind.bind, Except.bind, Pure.pure, Except.pure] at h
  cases h
  exact ⟨ms0, st, rfl, h1, h2, h3, h4, h5, rfl, rfl, rfl, rfl⟩

/-- All facts of the fill loop, started from the initial map. -/
theorem fillInTransDepsLoop_facts (ms0 : List (MId × JsModule))
    (sorted : List MId) (hnd : (keysOf ms0).Nodup) (hsnd : sorted.Nodup)
    (htrans0 : ∀ q ∈ ms0, q.2.transitiveModuleDeps = [])
    (hsub : ∀ mid ∈ sorted, mid ∈ keysOf ms0)
    (htopo : ∀ mid ∈ sorted, ∀ d ∈ depsOf ms0 mid,
      sorted.indexOf d < sorted.indexOf mid) :
    keysOf (fillInTransDepsLoop ms0 sorted) = keysOf ms0 ∧
    structEq (fillInTransDepsLoop ms0 sorted) ms0 ∧
    (∀ mid ∈ sorted, mid ∈ transOf (fillInTransDepsLoop ms0 sorted) mid) ∧
    (∀ mid, ∀ x ∈ transOf (fillInTransDepsLoop ms0 sorted) mid,
      x = mid ∨ (x ∈ sorted ∧ sorted.indexOf x < sorted.indexOf mid)) :=
  fillLoop_go ms0 sorted hnd hsnd htrans0 hsub htopo sorted [] ms0 rfl rfl
    (fun _ => rfl) (fun _ _ => rfl)
    (fun _ hk => absurd hk (List.not_mem_nil _))
    (fun mid x hx => absurd (transOf_all_nil htrans0 mid ▸ hx)
      (List.not_mem_nil x))

/-- A successful `fillInTransitiveModuleDeps` returns exactly the result
of the fill loop (it only adds the multiple-roots check). -/
theorem fillInTransitiveModuleDeps_ok {ms : List (MId × JsModule)}
    {sorted : List MId} {res : List (MId × JsModule)}
    (h : fillInTransitiveModuleDeps ms sorted = .ok res) :
    res = fillInTransDepsLoop ms sorted := by
  unfold fillInTransitiveModuleDeps at h
  dsimp only at h
  cases hf : (fillInTransDepsLoop ms sorted).find?
      (fun p =>
        decide (1 < (rootNamesIn (fillInTransDepsLoop ms sorted) p.2).length))
      with
  | some p => rw [hf] at h; cases h
  | none => rw [hf] at h; exact (Except.ok.inj h).symm

end StageDecomp

section ModuleStage

theorem sadd_ne_nil {α : Type} [DecidableEq α] {s : List α} {k : α} :
    sadd s k ≠ [] := by
  unfold sadd
  by_cases h : k ∈ s
  · rw [if_pos h]
    intro hh
    rw [hh] at h
    cases h
  · rw [if_neg h]
    simp

theorem indexModules_vals_reg (po : ProjectOptions) :
    ∀ q ∈ indexModules po, ∃ j, q.2 = MId.reg j := by
  intro q hq
  obtain ⟨_, _, hlt⟩ := indexModules_inv po
  obtain ⟨j, _, hj⟩ := hlt q hq
  exact ⟨j, hj⟩

theorem getD_indexModules_ne_vbase (po : ProjectOptions) (name : String) :
    (mget (indexModules po) name).getD (MId.reg 0) ≠ MId.vbase := by
  cases hm : mget (indexModules po) name with
  | none => exact fun hh => MId.noConfusion hh
  | some v =>
    obtain ⟨j, hj⟩ :=
      indexModules_vals_reg po (name, v) (mem_of_mget_eq_some _ _ _ hm)
    dsimp only at hj
    rw [Option.getD_some, hj]
    exact fun hh => MId.noConfusion hh

/-- The module-building loop never creates the virtual-base key. -/
theorem initModulesLoop_no_vbase {po : ProjectOptions}
    {r : List (MId × JsModule)}
    (h : initModulesLoop po (indexModules po) = .ok r) :
    mget r MId.vbase = none := by
  apply foldlM_except_inv (initModulesStep (indexModules po))
    (fun s => mget s MId.vbase = none) po.jsModules [] r rfl _ h
  intro st b s' _ hP hok
  obtain ⟨_, _, hother, _⟩ := initModulesStep_ok hok
  rw [hother MId.vbase (getD_indexModules_ne_vbase po b.1).symm]
  exact hP

theorem keysOf_foldl_vb (rids : List MId) (acc : List (MId × JsModule)) :
    keysOf (rids.foldl (fun a r => mupd a r (fun m =>
      { m with moduleDeps := sadd m.moduleDeps MId.vbase })) acc) =
    keysOf acc := by
  induction rids generalizing acc with
  | nil => rfl
  | cons r rs ih => rw [List.foldl_cons, ih, keysOf_mupd]

theorem mget_foldl_vb (rids : List MId) (acc : List (MId × JsModule))
    (k : MId) (hrnd : rids.Nodup) :
    mget (rids.foldl (fun a r => mupd a r (fun m =>
      { m with moduleDeps := sadd m.moduleDeps MId.vbase })) acc) k =
    if k ∈ rids then
      (mget acc k).map (fun m =>
        { m with moduleDeps := sadd m.moduleDeps MId.vbase })
    else mget acc k := by
  induction rids generalizing acc with
  | nil => simp
  | cons r rs ih =>
    have hnr : r ∉ rs := (List.nodup_cons.mp hrnd).1
    have hnd' : rs.Nodup := (List.nodup_cons.mp hrnd).2
    rw [List.foldl_cons, ih _ hnd']
    by_cases hk : k ∈ rs
    · rw [if_pos hk, if_pos (List.mem_cons_of_mem _ hk),
        mget_mupd_ne _ _ _ _ (fun hh => hnr (by rw [hh]; exact hk))]
    · by_cases hkr : k = r
      · rw [if_neg hk, if_pos (by rw [hkr]; exact List.mem_cons_self _ _),
          hkr, mget_mupd_self]
      · rw [if_neg hk, if_neg (by
            intro hh
            rcases List.mem_cons.mp hh with hh | hh
            · exact hkr hh
            · exact hk hh),
          mget_mupd_ne _ _ _ _ (fun hh => hkr hh.symm)]

/-- The structural facts preserved or created by
`maybeAddVirtualBaseModule`. -/
theorem maybeAddVirtualBaseModule_facts (ms : List (MId × JsModule))
    (hnd : (keysOf ms).Nodup) (hnv : mget ms MId.vbase = none)
    (htr : ∀ q ∈ ms, q.2.transitiveModuleDeps = [])
    (hrt : ∀ q ∈ ms, q.2.isRoot = true ↔ q.2.moduleDeps = [])
    (hcl : ∀ q ∈ ms, ∀ x ∈ q.2.moduleDeps, x ∈ keysOf ms) :
    (keysOf (maybeAddVirtualBaseModule ms)).Nodup ∧
    (∀ q ∈ maybeAddVirtualBaseModule ms, q.2.transitiveModuleDeps = []) ∧
    (∀ q ∈ maybeAddVirtualBaseModule ms, ∀ x ∈ q.2.moduleDeps,
      x ∈ keysOf (maybeAddVirtualBaseModule ms)) ∧
    ((mget (maybeAddVirtualBaseModule ms) MId.vbase).isSome →
      mget (maybeAddVirtualBaseModule ms) MId.vbase =
        some ⟨VIRTUAL_BASE_MODULE, [], [], false⟩ ∧
      ∀ q ∈ maybeAddVirtualBaseModule ms, q.1 ≠ MId.vbase →
        q.2.moduleDeps ≠ []) := by
  by_cases hone : (ms.filter (fun p => p.2.isRoot)).length = 1
  · have hres : maybeAddVirtualBaseModule ms = ms := by
      unfold maybeAddVirtualBaseModule
      simp [hone]
    rw [hres]
    refine ⟨hnd, htr, hcl, ?_⟩
    intro hsome
    rw [hnv] at hsome
    cases hsome
  · have hres : maybeAddVirtualBaseModule ms =
        ((ms.filter (fun p => p.2.isRoot)).map Prod.fst).foldl
          (fun a r => mupd a r (fun m =>
            { m with moduleDeps := sadd m.moduleDeps MId.vbase }))
          (mset ms MId.vbase ⟨VIRTUAL_BASE_MODULE, [], [], false⟩) := by
      unfold maybeAddVirtualBaseModule
      simp [hone]
    have hvmem : MId.vbase ∉ keysOf ms := by
      rw [mem_keysOf_iff_isSome, hnv]
      simp
    have hrnd : ((ms.filter (fun p => p.2.isRoot)).map Prod.fst).Nodup := by
      have hsub : ((ms.filter (fun p => p.2.isRoot)).map Prod.fst).Sublist
          (ms.map Prod.fst) := (List.filter_sublist ms).map Prod.fst
      exact hsub.nodup hnd
    have hvnr : MId.vbase ∉ (ms.filter (fun p => p.2.isRoot)).map Prod.fst := by
      intro hmem
      obtain ⟨m, hm, _⟩ := (mem_rootIds hnd).mp hmem
      rw [hnv] at hm
      cases hm
    have hkeys : keysOf (maybeAddVirtualBaseModule ms) =
        keysOf ms ++ [MId.vbase] := by
      rw [hres, keysOf_foldl_vb, keysOf_mset_not_mem _ _ _ hvmem]
    have hget : ∀ k, mget (maybeAddVirtualBaseModule ms) k =
        if k ∈ (ms.filter (fun p => p.2.isRoot)).map Prod.fst then
          (mget (mset ms MId.vbase ⟨VIRTUAL_BASE_MODULE, [], [], false⟩)
            k).map (fun m =>
              { m with moduleDeps := sadd m.moduleDeps MId.vbase })
        else mget (mset ms MId.vbase ⟨VIRTUAL_BASE_MODULE, [], [], false⟩) k := by
      intro k
      rw [hres, mget_foldl_vb _ _ _ hrnd]
    have hnd' : (keysOf (maybeAddVirtualBaseModule ms)).Nodup := by
      rw [hres, keysOf_foldl_vb]
      exact nodup_keysOf_mset _ _ _ hnd
    have hvb : mget (maybeAddVirtualBaseModule ms) MId.vbase =
        some ⟨VIRTUAL_BASE_MODULE, [], [], false⟩ := by
      rw [hget, if_neg hvnr, mget_mset_self]
    -- characterization of every binding of the result
    have hchar : ∀ k m, mget (maybeAddVirtualBaseModule ms) k = some m →
        (k = MId.vbase ∧ m = ⟨VIRTUAL_BASE_MODULE, [], [], false⟩) ∨
        (∃ v, mget ms k = some v ∧
          (m = v ∨ m = { v with moduleDeps := sadd v.moduleDeps MId.vbase })) := by
      intro k m hm
      by_cases hkv : k = MId.vbase
      · rw [hkv, hvb] at hm
        exact Or.inl ⟨hkv, (Option.some.inj hm).symm⟩
      · rw [hget k] at hm
        by_cases hkr : k ∈ (ms.filter (fun p => p.2.isRoot)).map Prod.fst
        · rw [if_pos hkr, mget_mset_ne _ _ _ _ (fun hh => hkv hh.symm)] at hm
          cases hv : mget ms k with
          | none => rw [hv] at hm; cases hm
          | some v =>
            rw [hv] at hm
            exact Or.inr ⟨v, rfl, Or.inr (Option.some.inj hm).symm⟩
        · rw [if_neg hkr, mget_mset_ne _ _ _ _ (fun hh => hkv hh.symm)] at hm
          exact Or.inr ⟨m, hm, Or.inl rfl⟩
    refine ⟨hnd', ?_, ?_, ?_⟩
    · intro q hq
      have hm : mget (maybeAddVirtualBaseModule ms) q.1 = some q.2 :=
        mget_eq_some_of_mem_nodup _ _ _ hnd' hq
      rcases hchar q.1 q.2 hm with ⟨_, hbase⟩ | ⟨v, hv, hvm⟩
      · rw [hbase]
      · have hvt : v.transitiveModuleDeps = [] :=
          htr (q.1, v) (mem_of_mget_eq_some _ _ _ hv)
        rcases hvm with hvm | hvm
        · rw [hvm]; exact hvt
        · rw [hvm]; exact hvt
    · intro q hq x hx
      have hm : mget (maybeAddVirtualBaseModule ms) q.1 = some q.2 :=
        mget_eq_some_of_mem_nodup _ _ _ hnd' hq
      rw [hkeys]
      rcases hchar q.1 q.2 hm with ⟨_, hbase⟩ | ⟨v, hv, hvm⟩
      · rw [hbase] at hx
        cases hx
      · have hvc : ∀ y ∈ v.moduleDeps, y ∈ keysOf ms :=
          hcl (q.1, v) (mem_of_mget_eq_some _ _ _ hv)
        rcases hvm with hvm | hvm
        · rw [hvm] at hx
          exact List.mem_append.mpr (Or.inl (hvc x hx))
        · rw [hvm] at hx
          rcases mem_sadd.mp hx with hx | rfl
          · exact List.mem_append.mpr (Or.inl (hvc x hx))
          · exact List.mem_append.mpr (Or.inr (List.mem_singleton.mpr rfl))
    · intro _
      refine ⟨hvb, ?_⟩
      intro q hq hqv
      have hm : mget (maybeAddVirtualBaseModule ms) q.1 = some q.2 :=
        mget_eq_some_of_mem_nodup _ _ _ hnd' hq
      rcases hchar q.1 q.2 hm with ⟨hkv, _⟩ | ⟨v, hv, hvm⟩
      · exact absurd hkv hqv
      · rcases hvm with hvm | hvm
        · -- an untouched module: not a root, so its deps are non-empty
          have hknr : q.1 ∉ (ms.filter (fun p => p.2.isRoot)).map Prod.fst := by
            intro hkr
            have hgq := hget q.1
            rw [if_pos hkr,
              mget_mset_ne _ _ _ _ (fun hh => hqv hh.symm), hv] at hgq
            rw [hgq] at hm
            have heq := Option.some.inj hm
            rw [hvm] at heq
            have hdeps : sadd v.moduleDeps MId.vbase = v.moduleDeps :=
              congrArg JsModule.moduleDeps heq
            have hvmem' : MId.vbase ∈ v.moduleDeps := hdeps ▸ self_mem_sadd
            have := hcl (q.1, v) (mem_of_mget_eq_some _ _ _ hv) _ hvmem'
            exact hvmem this
          intro hdnil
          apply hknr
          apply (mem_rootIds hnd).mpr
          refine ⟨v, hv, ?_⟩
          apply (hrt (q.1, v) (mem_of_mget_eq_some _ _ _ hv)).mpr
          rw [hvm] at hdnil
          exact hdnil
        · rw [hvm]
          exact sadd_ne_nil

/-- The combined facts about the module map produced by `initModules`. -/
theorem initModules_ok_facts {po : ProjectOptions}
    {ms : List (MId × JsModule)}
    (h : initModules po (indexModules po) = .ok ms) :
    (keysOf ms).Nodup ∧
    (∀ q ∈ ms, q.2.transitiveModuleDeps = []) ∧
    (∀ q ∈ ms, ∀ x ∈ q.2.moduleDeps, x ∈ keysOf ms) ∧
    ((mget ms MId.vbase).isSome →
      mget ms MId.vbase = some ⟨VIRTUAL_BASE_MODULE, [], [], false⟩ ∧
      ∀ q ∈ ms, q.1 ≠ MId.vbase → q.2.moduleDeps ≠ []) := by
  unfold initModules at h
  cases hl : initModulesLoop po (indexModules po) with
  | error e =>
    rw [hl] at h
    dsimp only [Bind.bind, Except.bind] at h
    cases h
  | ok r =>
    rw [hl] at h
    dsimp only [Bind.bind, Except.bind, Pure.pure, Except.pure] at h
    cases h
    obtain ⟨hnd, htr, hrt, _⟩ := initModulesLoop_inv hl
    exact maybeAddVirtualBaseModule_facts r hnd
      (initModulesLoop_no_vbase hl) htr hrt (initModulesLoop_closed hl)

end ModuleStage

section ModuleStage2

theorem getSortedModuleIds_ok_topSort {ms0 : List (MId × JsModule)}
    {sorted : List MId} (h : getSortedModuleIds ms0 = .ok sorted) :
    topSortNodes (ms0.map (fun p => (p.1, p.2.moduleDeps))) = .ok sorted := by
  unfold getSortedModuleIds at h
  dsimp only at h
  cases htop : topSortNodes (ms0.map (fun p => (p.1, p.2.moduleDeps))) with
  | ok l =>
    rw [htop] at h
    cases h
    rfl
  | error e =>
    rw [htop] at h
    cases h

/-- `maybeAddVirtualBaseModule` never changes the name recorded at a
non-virtual key. -/
theorem maybeAddVirtualBaseModule_name (ms : List (MId × JsModule)) :
    ∀ k, k ≠ MId.vbase →
      (mget (maybeAddVirtualBaseModule ms) k).map JsModule.name =
        (mget ms k).map JsModule.name := by
  intro k hk
  by_cases hone : (ms.filter (fun p => p.2.isRoot)).length = 1
  · have hres : maybeAddVirtualBaseModule ms = ms := by
      unfold maybeAddVirtualBaseModule
      simp [hone]
    rw [hres]
  · have hres : maybeAddVirtualBaseModule ms =
        ((ms.filter (fun p => p.2.isRoot)).map Prod.fst).foldl
          (fun a r => mupd a r (fun m =>
            { m with moduleDeps := sadd m.moduleDeps MId.vbase }))
          (mset ms MId.vbase ⟨VIRTUAL_BASE_MODULE, [], [], false⟩) := by
      unfold maybeAddVirtualBaseModule
      simp [hone]
    rw [hres]
    -- fold over updates that never touch the name
    have hstep : ∀ (rids : List MId) (acc : List (MId × JsModule)),
        (mget (rids.foldl (fun a r => mupd a r (fun m =>
          { m with moduleDeps := sadd m.moduleDeps MId.vbase })) acc) k).map
            JsModule.name = (mget acc k).map JsModule.name := by
      intro rids
      induction rids with
      | nil => intro acc; rfl
      | cons r rs ih =>
        intro acc
        rw [List.foldl_cons, ih]
        by_cases hkr : k = r
        · rw [hkr, mget_mupd_self]
          cases mget acc r with
          | none => rfl
          | some v => rfl
        · rw [mget_mupd_ne _ _ _ _ (fun hh => hkr hh.symm)]
    rw [hstep, mget_mset_ne _ _ _ _ (fun hh => hk hh.symm)]

/-- Facts about the module map and sorted module order available after
the three module-stage calls succeed. -/
theorem moduleStage_facts {po : ProjectOptions} {ms0 ms : List (MId × JsModule)}
    {sorted : List MId}
    (h0 : initModules po (indexModules po) = .ok ms0)
    (h1 : getSortedModuleIds ms0 = .ok sorted)
    (h2 : fillInTransitiveModuleDeps ms0 sorted = .ok ms) :
    keysOf ms = keysOf ms0 ∧
    (keysOf ms).Nodup ∧
    sorted.Perm (keysOf ms) ∧
    sorted.Nodup ∧
    structEq ms ms0 ∧
    (∀ mid ∈ sorted, mid ∈ transOf ms mid) ∧
    (∀ mid, ∀ x ∈ transOf ms mid,
      x = mid ∨ (x ∈ sorted ∧ sorted.indexOf x < sorted.indexOf mid)) ∧
    ((mget ms MId.vbase).isSome → ∃ rest, sorted = MId.vbase :: rest) := by
  obtain ⟨hnd0, htr0, hcl0, hvb0⟩ := initModules_ok_facts h0
  obtain ⟨hperm, hsnd, _, htopo⟩ := getSortedModuleIds_ok_facts hnd0 hcl0 h1
  have hres : ms = fillInTransDepsLoop ms0 sorted :=
    fillInTransitiveModuleDeps_ok h2
  obtain ⟨hkeys, hstruct, hself, hprop⟩ :=
    fillInTransDepsLoop_facts ms0 sorted hnd0 hsnd htr0
      (fun mid hm => hperm.subset hm) htopo
  subst hres
  refine ⟨hkeys, ?_, ?_, hsnd, hstruct, hself, hprop, ?_⟩
  · rw [hkeys]
    exact hnd0
  · rw [hkeys]
    exact hperm
  · intro hvs
    have hvs0 : (mget ms0 MId.vbase).isSome := by
      rw [← mem_keysOf_iff_isSome, ← hkeys, mem_keysOf_iff_isSome]
      exact hvs
    obtain ⟨hvb, hothers⟩ := hvb0 hvs0
    have hvmem : MId.vbase ∈ sorted := by
      apply hperm.mem_iff.mpr
      rw [mem_keysOf_iff_isSome]
      exact hvs0
    cases hsort : sorted with
    | nil =>
      rw [hsort] at hvmem
      cases hvmem
    | cons x rest =>
      have htop := getSortedModuleIds_ok_topSort h1
      rw [hsort] at htop
      have hknd : (keysOf (ms0.map (fun p => (p.1, p.2.moduleDeps)))).Nodup := by
        rw [keysOf_map_snd]
        exact hnd0
      have hhead : outOf (ms0.map (fun p => (p.1, p.2.moduleDeps))) x = [] :=
        topSortNodes_ok_head hknd htop
      rw [outOf_graphOf] at hhead
      by_cases hxv : x = MId.vbase
      · exact ⟨rest, by rw [hxv]⟩
      · exfalso
        have hxk : x ∈ keysOf ms0 := by
          apply hperm.subset
          rw [hsort]
          exact List.mem_cons_self _ _
        rw [mem_keysOf_iff_isSome] at hxk
        cases hxm : mget ms0 x with
        | none => rw [hxm] at hxk; cases hxk
        | some m =>
          have hq : (x, m) ∈ ms0 := mem_of_mget_eq_some _ _ _ hxm
          apply hothers (x, m) hq hxv
          rw [depsOf, hxm, Option.getD_some] at hhead
          exact hhead

/-- Every declared module is represented in the sorted order by a module
entry carrying its name, whose spec lookup returns its own spec
(requires distinct declared module names). -/
theorem declared_module_in_sorted {po : ProjectOptions}
    {ms0 ms : List (MId × JsModule)} {sorted : List MId}
    (hnames : (po.jsModules.map Prod.fst).Nodup)
    (h0 : initModules po (indexModules po) = .ok ms0)
    (h1 : getSortedModuleIds ms0 = .ok sorted)
    (h2 : fillInTransitiveModuleDeps ms0 sorted = .ok ms) :
    ∀ p ∈ po.jsModules, ∃ mid ∈ sorted,
      nameOf ms mid = p.1 ∧
      mget po.jsModules (nameOf ms mid) = some p.2 := by
  intro p hp
  obtain ⟨hkeys, _, hperm, _, hstruct, _, _, _⟩ := moduleStage_facts h0 h1 h2
  -- decompose initModules into the loop and the virtual-base pass
  have hl : ∃ r, initModulesLoop po (indexModules po) = .ok r ∧
      ms0 = maybeAddVirtualBaseModule r := by
    unfold initModules at h0
    cases hl : initModulesLoop po (indexModules po) with
    | error e =>
      rw [hl] at h0
      dsimp only [Bind.bind, Except.bind] at h0
      cases h0
    | ok r =>
      rw [hl] at h0
      dsimp only [Bind.bind, Except.bind, Pure.pure, Except.pure] at h0
      cases h0
      exact ⟨r, rfl, rfl⟩
  obtain ⟨r, hl, hms0⟩ := hl
  obtain ⟨m, hm, hmn⟩ := initModulesLoop_elem hl p hp
  set mid := (mget (indexModules po) p.1).getD (MId.reg 0) with hmid
  have hmv : mid ≠ MId.vbase := getD_indexModules_ne_vbase po p.1
  have hname0 : (mget ms0 mid).map JsModule.name = some p.1 := by
    rw [hms0, maybeAddVirtualBaseModule_name r mid hmv, hm,
      Option.map_some', hmn]
  have hmemk : mid ∈ keysOf ms0 := by
    rw [mem_keysOf_iff_isSome]
    cases hg : mget ms0 mid with
    | none => rw [hg] at hname0; cases hname0
    | some v => rfl
  have hmems : mid ∈ sorted := by
    apply hperm.mem_iff.mpr
    rw [hkeys]
    exact hmemk
  have hnm : nameOf ms mid = p.1 := by
    rw [structEq_nameOf hstruct mid]
    show ((mget ms0 mid).getD default).name = p.1
    cases hg : mget ms0 mid with
    | none => rw [hg] at hname0; cases hname0
    | some v =>
      rw [hg, Option.map_some'] at hname0
      rw [Option.getD_some]
      exact Option.some.inj hname0
  refine ⟨mid, hmems, hnm, ?_⟩
  rw [hnm]
  exact mget_eq_some_of_mem_nodup _ _ _ hnames hp

end ModuleStage2

section FilePhase1

/-- The depsBefore lists recorded for a file ID, in recording order. -/
def occsOf (occs : List (FId × List FId)) (fid : FId) : List (List FId) :=
  (occs.filter (fun q => decide (q.1 = fid))).map Prod.snd

theorem occsOf_append_self (occs : List (FId × List FId)) (fid : FId)
    (db : List FId) :
    occsOf (occs ++ [(fid, db)]) fid = occsOf occs fid ++ [db] := by
  simp [occsOf, List.filter_append]

theorem occsOf_append_ne (occs : List (FId × List FId)) (fid fid' : FId)
    (db : List FId) (h : fid' ≠ fid) :
    occsOf (occs ++ [(fid', db)]) fid = occsOf occs fid := by
  simp [occsOf, List.filter_append, h]

/-- Case analysis of a successful `recordFile` call. -/
theorem recordFile_ok {files : List (FId × JsFile)}
    {occs : List (FId × List FId)} {fid : FId} {path : String}
    {c : CompileMode} {mid : MId} {db : List FId}
    {files' : List (FId × JsFile)} {occs' : List (FId × List FId)}
    (h : recordFile files occs fid path c mid db = .ok (files', occs')) :
    occs' = occs ++ [(fid, db)] ∧
    ((mget files fid = none ∧
      files' = files ++ [(fid, ⟨path, c, db, [mid]⟩)]) ∨
     (∃ f, mget files fid = some f ∧ f.compileMode = c ∧
      files' = mupd files fid (fun f =>
        { f with inferredDeps := intersectSets f.inferredDeps db,
                 neededInModules := sadd f.neededInModules mid }))) := by
  unfold recordFile at h
  cases hf : mget files fid with
  | none =>
    rw [hf] at h
    dsimp only at h
    have hmem : fid ∉ keysOf files := by
      rw [mem_keysOf_iff_isSome, hf]
      simp
    have hAB := Except.ok.inj h
    have h1 : files' = mupd (mset files fid ⟨path, c, deepClone db, []⟩) fid
        (fun f => { f with neededInModules := sadd f.neededInModules mid }) :=
      (congrArg Prod.fst hAB).symm
    have h2 : occs' = occs ++ [(fid, db)] := (congrArg Prod.snd hAB).symm
    refine ⟨h2, Or.inl ⟨rfl, ?_⟩⟩
    rw [h1, mset_not_mem_eq_append _ _ _ hmem, mupd_append_last _ _ _ _ hmem]
    simp [deepClone, sadd]
  | some f =>
    rw [hf] at h
    dsimp only at h
    by_cases hc : f.compileMode = c
    · rw [if_neg (by simpa using hc)] at h
      have hAB := Except.ok.inj h
      have h1 : files' = mupd (mupd files fid (fun f =>
          { f with inferredDeps := intersectSets f.inferredDeps db })) fid
          (fun f => { f with neededInModules := sadd f.neededInModules mid }) :=
        (congrArg Prod.fst hAB).symm
      have h2 : occs' = occs ++ [(fid, db)] := (congrArg Prod.snd hAB).symm
      refine ⟨h2, Or.inr ⟨f, rfl, hc, ?_⟩⟩
      rw [h1, mupd_mupd_same]
    · rw [if_pos (by simpa using hc)] at h
      cases h

/-- A failing `recordFile` call is always the mixed-compile-mode throw:
the file was seen before under a different mode. -/
theorem recordFile_error {files : List (FId × JsFile)}
    {occs : List (FId × List FId)} {fid : FId} {path : String}
    {c : CompileMode} {mid : MId} {db : List FId} {e : JsErr}
    (h : recordFile files occs fid path c mid db = .error e) :
    ∃ f, mget files fid = some f ∧ f.compileMode ≠ c ∧
      e = .mixedModes path := by
  unfold recordFile at h
  cases hf : mget files fid with
  | none =>
    rw [hf] at h
    dsimp only at h
    cases h
  | some f =>
    rw [hf] at h
    dsimp only at h
    by_cases hc : f.compileMode = c
    · rw [if_neg (by simpa using hc)] at h
      cases h
    · rw [if_pos (by simpa using hc)] at h
      exact ⟨f, rfl, hc, (Except.error.inj h).symm⟩

/-- The step of each of the three per-module path loops of `initFiles`
(the loops differ only in the compile mode and the seed set). -/
def recStep (pathToId : List (String × Nat)) (c : CompileMode) (mid : MId)
    (acc : List FId × List (FId × JsFile) × List (FId × List FId))
    (path : String) :
    Except JsErr (List FId × List (FId × JsFile) × List (FId × List FId)) := do
  let fileId := mget pathToId path
  let (files, occs) ← recordFile acc.2.1 acc.2.2 fileId path c mid acc.1
  pure (sadd acc.1 fileId, files, occs)

theorem recStep_ok {pathToId : List (String × Nat)} {c : CompileMode}
    {mid : MId} {acc acc' : List FId × List (FId × JsFile) ×
      List (FId × List FId)} {path : String}
    (h : recStep pathToId c mid acc path = .ok acc') :
    ∃ files' occs',
      recordFile acc.2.1 acc.2.2 (mget pathToId path) path c mid acc.1 =
        .ok (files', occs') ∧
      acc' = (sadd acc.1 (mget pathToId path), files', occs') := by
  unfold recStep at h
  dsimp only at h
  cases hr : recordFile acc.2.1 acc.2.2 (mget pathToId path) path c mid acc.1
      with
  | error e =>
    rw [hr] at h
    dsimp only [Bind.bind, Except.bind] at h
    cases h
  | ok fo =>
    rw [hr] at h
    obtain ⟨files', occs'⟩ := fo
    dsimp only [Bind.bind, Except.bind, Pure.pure, Except.pure] at h
    exact ⟨files', occs', rfl, (Except.ok.inj h).symm⟩

theorem recStep_error {pathToId : List (String × Nat)} {c : CompileMode}
    {mid : MId} {acc : List FId × List (FId × JsFile) ×
      List (FId × List FId)} {path : String} {e : JsErr}
    (h : recStep pathToId c mid acc path = .error e) :
    recordFile acc.2.1 acc.2.2 (mget pathToId path) path c mid acc.1 =
      .error e := by
  unfold recStep at h
  dsimp only at h
  cases hr : recordFile acc.2.1 acc.2.2 (mget pathToId path) path c mid acc.1
      with
  | error e' =>
    rw [hr] at h
    dsimp only [Bind.bind, Except.bind] at h
    rw [Except.error.inj h]
  | ok fo =>
    rw [hr] at h
    obtain ⟨files', occs'⟩ := fo
    dsimp only [Bind.bind, Except.bind, Pure.pure, Except.pure] at h
    cases h

end FilePhase1

section FilePhase2

/-- The path/compile-mode pairs a project declares (dontCompile files as
Uncompiled, non-Closure-namespaced files as NonNamespaced, transitive
Closure deps as Closure). -/
def declaredOccurs (po : ProjectOptions) (tcd : List (String × List String))
    (path : String) (c : CompileMode) : Prop :=
  ∃ p ∈ po.jsModules,
    (c = CompileMode.uncompiled ∧ path ∈ p.2.dontCompileInputFiles) ∨
    (c = CompileMode.nonNamespaced ∧
      path ∈ p.2.nonClosureNamespacedInputFiles) ∨
    (c = CompileMode.closure ∧ path ∈ (mget tcd p.1).getD [])

instance declaredOccursDec (po : ProjectOptions)
    (tcd : List (String × List String)) (path : String) (c : CompileMode) :
    Decidable (declaredOccurs po tcd path c) := by
  unfold declaredOccurs
  infer_instance

/-- Some declared path occurs under two distinct compile modes. -/
def MixedProject (po : ProjectOptions)
    (tcd : List (String × List String)) : Prop :=
  ∃ path c₁ c₂, c₁ ≠ c₂ ∧
    declaredOccurs po tcd path c₁ ∧ declaredOccurs po tcd path c₂

/-- Generic key-injectivity of an association list with duplicate-free
values. -/
theorem mget_val_inj {α β : Type} [DecidableEq α]
    {m : List (α × β)} (hv : (valsOf m).Nodup) {k₁ k₂ : α} {v : β}
    (h₁ : mget m k₁ = some v) (h₂ : mget m k₂ = some v) : k₁ = k₂ := by
  have hm₁ := mem_of_mget_eq_some _ _ _ h₁
  have hm₂ := mem_of_mget_eq_some _ _ _ h₂
  by_contra hne
  rcases List.mem_iff_append.mp hm₁ with ⟨l1, l2, hsplit⟩
  rw [hsplit] at hm₂ hv
  have hm₂' : (k₂, v) ∈ l1 ++ l2 := by
    rcases List.mem_append.mp hm₂ with h' | h'
    · exact List.mem_append.mpr (Or.inl h')
    · rcases List.mem_cons.mp h' with h'' | h''
      · exact absurd (congrArg Prod.fst h'').symm hne
      · exact List.mem_append.mpr (Or.inr h'')
  have hveq : valsOf (l1 ++ (k₁, v) :: l2) = valsOf l1 ++ v :: valsOf l2 := by
    simp [valsOf]
  rw [hveq] at hv
  obtain ⟨hv1, hv2, hdisj⟩ := List.nodup_append.mp hv
  rcases List.mem_append.mp hm₂' with h' | h'
  · exact hdisj (List.mem_map_of_mem Prod.snd h') (List.mem_cons_self _ _)
  · exact (List.nodup_cons.mp hv2).1 (List.mem_map_of_mem Prod.snd h')

/-- Invariant of the file-interning fold. -/
def IdxFInv (st : List (String × Nat) × Nat) : Prop :=
  (keysOf st.1).Nodup ∧ (valsOf st.1).Nodup ∧ ∀ q ∈ st.1, q.2 < st.2

theorem maybeAddFile_inv {st : List (String × Nat) × Nat} {path : String}
    (h : IdxFInv st) : IdxFInv (maybeAddFile st path) := by
  obtain ⟨hk, hv, hlt⟩ := h
  unfold maybeAddFile
  by_cases hp : (mget st.1 path).isSome
  · rw [if_pos hp]
    exact ⟨hk, hv, fun q hq => hlt q hq⟩
  · rw [if_neg hp]
    have hmem : path ∉ keysOf st.1 := by
      rw [mem_keysOf_iff_isSome]
      exact hp
    rw [mset_not_mem_eq_append _ _ _ hmem]
    refine ⟨?_, ?_, ?_⟩
    · dsimp only
      rw [show keysOf (st.1 ++ [(path, st.2)]) = keysOf st.1 ++ [path] by
        simp [keysOf]]
      rw [List.nodup_append]
      refine ⟨hk, List.nodup_singleton _, ?_⟩
      intro a ha hb
      rw [List.mem_singleton] at hb
      subst hb
      exact hmem ha
    · dsimp only
      rw [show valsOf (st.1 ++ [(path, st.2)]) = valsOf st.1 ++ [st.2] by
        simp [valsOf]]
      rw [List.nodup_append]
      refine ⟨hv, List.nodup_singleton _, ?_⟩
      intro a ha hb
      rw [List.mem_singleton] at hb
      subst hb
      rcases List.mem_map.mp ha with ⟨q, hq, hqv⟩
      exact absurd (hqv ▸ hlt q hq) (lt_irrefl _)
    · intro q hq
      dsimp only at hq ⊢
      rcases List.mem_append.mp hq with hq | hq
      · exact Nat.lt_succ_of_lt (hlt q hq)
      · rw [List.mem_singleton] at hq
        subst hq
        exact Nat.lt_succ_self _

theorem foldl_maybeAddFile_inv (l : List String)
    {st : List (String × Nat) × Nat} (h : IdxFInv st) :
    IdxFInv (l.foldl maybeAddFile st) :=
  foldl_inv maybeAddFile IdxFInv l st h
    (fun st' _ _ h' => maybeAddFile_inv h')

theorem indexFiles_inv (po : ProjectOptions)
    (tcd : List (String × List String)) :
    IdxFInv (po.jsModules.foldl (fun st p =>
      p.2.dontCompileInputFiles.foldl maybeAddFile
        (p.2.nonClosureNamespacedInputFiles.foldl maybeAddFile
          (((mget tcd p.1).getD []).foldl maybeAddFile st))) ([], 0)) := by
  refine foldl_inv _ IdxFInv po.jsModules
    (([] : List (String × Nat)), 0) ?_ ?_
  · show IdxFInv ([], 0)
    exact ⟨List.nodup_nil, List.nodup_nil, by simp⟩
  · intro st p _ h
    exact foldl_maybeAddFile_inv _
      (foldl_maybeAddFile_inv _ (foldl_maybeAddFile_inv _ h))

/-- `indexFiles` in foldl-of-steps form. -/
theorem indexFiles_eq (po : ProjectOptions)
    (tcd : List (String × List String)) :
    indexFiles po tcd = (po.jsModules.foldl (fun st p =>
      p.2.dontCompileInputFiles.foldl maybeAddFile
        (p.2.nonClosureNamespacedInputFiles.foldl maybeAddFile
          (((mget tcd p.1).getD []).foldl maybeAddFile st))) ([], 0)).1 := rfl

/-- Distinct declared paths receive distinct file IDs. -/
theorem indexFiles_val_inj (po : ProjectOptions)
    (tcd : List (String × List String)) {p₁ p₂ : String} {n : Nat}
    (h₁ : mget (indexFiles po tcd) p₁ = some n)
    (h₂ : mget (indexFiles po tcd) p₂ = some n) : p₁ = p₂ := by
  have hv : (valsOf (indexFiles po tcd)).Nodup := by
    rw [indexFiles_eq]
    exact (indexFiles_inv po tcd).2.1
  exact mget_val_inj hv h₁ h₂

theorem indexFiles_keys_nodup (po : ProjectOptions)
    (tcd : List (String × List String)) :
    (keysOf (indexFiles po tcd)).Nodup := by
  rw [indexFiles_eq]
  exact (indexFiles_inv po tcd).1

theorem maybeAddFile_keys_mono {st : List (String × Nat) × Nat}
    {path p : String} (h : p ∈ keysOf st.1) :
    p ∈ keysOf (maybeAddFile st path).1 := by
  unfold maybeAddFile
  by_cases hp : (mget st.1 path).isSome
  · rw [if_pos hp]
    exact h
  · rw [if_neg hp]
    have hmem : path ∉ keysOf st.1 := by
      rw [mem_keysOf_iff_isSome]
      exact hp
    dsimp only
    rw [mset_not_mem_eq_append _ _ _ hmem,
      show keysOf (st.1 ++ [(path, st.2)]) = keysOf st.1 ++ [path] by
        simp [keysOf]]
    exact List.mem_append.mpr (Or.inl h)

theorem maybeAddFile_mem_self (st : List (String × Nat) × Nat)
    (path : String) : path ∈ keysOf (maybeAddFile st path).1 := by
  unfold maybeAddFile
  by_cases hp : (mget st.1 path).isSome
  · rw [if_pos hp, mem_keysOf_iff_isSome]
    exact hp
  · rw [if_neg hp]
    have hmem : path ∉ keysOf st.1 := by
      rw [mem_keysOf_iff_isSome]
      exact hp
    dsimp only
    rw [mset_not_mem_eq_append _ _ _ hmem,
      show keysOf (st.1 ++ [(path, st.2)]) = keysOf st.1 ++ [path] by
        simp [keysOf]]
    exact List.mem_append.mpr (Or.inr (List.mem_singleton.mpr rfl))

theorem foldl_maybeAddFile_keys_mono (l : List String)
    {st : List (String × Nat) × Nat} {p : String} (h : p ∈ keysOf st.1) :
    p ∈ keysOf ((l.foldl maybeAddFile st)).1 := by
  induction l generalizing st with
  | nil => exact h
  | cons x xs ih => exact ih (maybeAddFile_keys_mono h)

theorem foldl_maybeAddFile_mem (l : List String)
    {st : List (String × Nat) × Nat} {p : String} (h : p ∈ l) :
    p ∈ keysOf ((l.foldl maybeAddFile st)).1 := by
  induction l generalizing st with
  | nil => cases h
  | cons x xs ih =>
    rcases List.mem_cons.mp h with rfl | h'
    · exact foldl_maybeAddFile_keys_mono xs (maybeAddFile_mem_self st p)
    · exact ih h'

/-- Every declared input path is interned by `indexFiles`. -/
theorem declared_path_interned (po : ProjectOptions)
    (tcd : List (String × List String)) (path : String) (c : CompileMode)
    (h : declaredOccurs po tcd path c) :
    path ∈ keysOf (indexFiles po tcd) := by
  obtain ⟨p, hp, hocc⟩ := h
  rw [indexFiles_eq]
  have := foldl_elem (fun st p =>
      p.2.dontCompileInputFiles.foldl maybeAddFile
        (p.2.nonClosureNamespacedInputFiles.foldl maybeAddFile
          (((mget tcd p.1).getD []).foldl maybeAddFile st)))
    (fun (p : String × ModuleSpec) (st : List (String × Nat) × Nat) =>
      ∀ pa, (pa ∈ p.2.dontCompileInputFiles ∨
        pa ∈ p.2.nonClosureNamespacedInputFiles ∨
        pa ∈ (mget tcd p.1).getD []) → pa ∈ keysOf st.1)
    po.jsModules ([], 0) ?_ ?_ p hp path ?_
  · exact this
  · intro st b _ pa hpa
    rcases hpa with hpa | hpa | hpa
    · exact foldl_maybeAddFile_mem _ hpa
    · exact foldl_maybeAddFile_keys_mono _ (foldl_maybeAddFile_mem _ hpa)
    · exact foldl_maybeAddFile_keys_mono _
        (foldl_maybeAddFile_keys_mono _ (foldl_maybeAddFile_mem _ hpa))
  · intro st b b' _ _ hq pa hpa
    exact foldl_maybeAddFile_keys_mono _
      (foldl_maybeAddFile_keys_mono _
        (foldl_maybeAddFile_keys_mono _ (hq pa hpa)))
  · rcases hocc with ⟨_, hm⟩ | ⟨_, hm⟩ | ⟨_, hm⟩
    · exact Or.inl hm
    · exact Or.inr (Or.inl hm)
    · exact Or.inr (Or.inr hm)

end FilePhase2

section FilePhase3

theorem mem_mset {α β : Type} [DecidableEq α] {m : List (α × β)} {k : α}
    {v : β} {q : α × β} (h : q ∈ mset m k v) : q = (k, v) ∨ q ∈ m := by
  induction m with
  | nil =>
    simp only [mset] at h
    rcases List.mem_singleton.mp h with rfl
    exact Or.inl rfl
  | cons p rest ih =>
    obtain ⟨k', v'⟩ := p
    by_cases hk : k' = k
    · rw [mset, if_pos hk] at h
      rcases List.mem_cons.mp h with rfl | h'
      · exact Or.inl rfl
      · exact Or.inr (List.mem_cons_of_mem _ h')
    · rw [mset, if_neg hk] at h
      rcases List.mem_cons.mp h with rfl | h'
      · exact Or.inr (List.mem_cons_self _ _)
      · rcases ih h' with h'' | h''
        · exact Or.inl h''
        · exact Or.inr (List.mem_cons_of_mem _ h'')

theorem mget_append_single_ne {α β : Type} [DecidableEq α]
    (m : List (α × β)) (k k₀ : α) (v : β) (h : k₀ ≠ k) :
    mget (m ++ [(k, v)]) k₀ = mget m k₀ := by
  by_cases hm : k₀ ∈ keysOf m
  · exact mget_append_left _ _ _ hm
  · rw [mget_append_right _ _ _ hm, mget_eq_none_of_not_mem _ _ hm,
      mget_cons, if_neg (fun hh => h hh.symm)]
    rfl

theorem mem_foldl_addSetValuesG {α β : Type} [DecidableEq β]
    (l : List α) (g : α → List β) (start : List β) (x : β) :
    x ∈ l.foldl (fun acc d => addSetValues (g d) acc) start ↔
      x ∈ start ∨ ∃ d ∈ l, x ∈ g d := by
  induction l generalizing start with
  | nil => simp
  | cons d ds ih =>
    rw [List.foldl_cons, ih]
    constructor
    · rintro (hx | ⟨d', hd', hx⟩)
      · rcases mem_addSetValues.mp hx with hx | hx
        · exact Or.inr ⟨d, List.mem_cons_self _ _, hx⟩
        · exact Or.inl hx
      · exact Or.inr ⟨d', List.mem_cons_of_mem _ hd', hx⟩
    · rintro (hx | ⟨d', hd', hx⟩)
      · exact Or.inl (mem_addSetValues.mpr (Or.inr hx))
      · rcases List.mem_cons.mp hd' with rfl | hd''
        · exact Or.inl (mem_addSetValues.mpr (Or.inl hx))
        · exact Or.inr ⟨d', hd'', hx⟩

/-- Structural invariant of the `files` map during `initFiles`: distinct
keys; each entry is keyed by the interned ID of the path it stores,
carries a declared path/mode pair, a non-empty `neededIn` set of sorted
module IDs, and inferred deps that are recorded file IDs other than
itself. -/
def IFiles (po : ProjectOptions) (tcd : List (String × List String))
    (sorted : List MId) (pathToId : List (String × Nat))
    (files : List (FId × JsFile)) : Prop :=
  (keysOf files).Nodup ∧
  ∀ q ∈ files,
    mget pathToId q.2.path = q.1 ∧
    declaredOccurs po tcd q.2.path q.2.compileMode ∧
    q.2.neededInModules ≠ [] ∧
    (∀ mm ∈ q.2.neededInModules, mm ∈ sorted) ∧
    (∀ d ∈ q.2.inferredDeps, d ∈ keysOf files) ∧
    q.1 ∉ q.2.inferredDeps

/-- The recorded occurrences determine each file's inferred deps: the
first occurrence seeds them, later ones are intersected in. -/
def OccInv (files : List (FId × JsFile))
    (occs : List (FId × List FId)) : Prop :=
  ∀ fid, (mget files fid = none → occsOf occs fid = []) ∧
    ∀ f, mget files fid = some f → ∃ d0 ds, occsOf occs fid = d0 :: ds ∧
      f.inferredDeps = ds.foldl intersectSets d0

/-- A successful `recordFile` call preserves the two `initFiles`
invariants, grows the key set monotonically, never changes the stored
path or mode of an existing entry, and leaves the called file recorded
under the called mode and module. -/
theorem recordFile_inv {po : ProjectOptions}
    {tcd : List (String × List String)} {sorted : List MId}
    {pathToId : List (String × Nat)}
    {files : List (FId × JsFile)} {occs : List (FId × List FId)}
    {path : String} {c : CompileMode} {mid : MId} {db : List FId}
    {files' : List (FId × JsFile)} {occs' : List (FId × List FId)}
    (hIF : IFiles po tcd sorted pathToId files) (hOcc : OccInv files occs)
    (hdecl : declaredOccurs po tcd path c)
    (hmid : mid ∈ sorted)
    (hdb : ∀ d ∈ db, d ∈ keysOf files)
    (h : recordFile files occs (mget pathToId path) path c mid db =
      .ok (files', occs')) :
    IFiles po tcd sorted pathToId files' ∧ OccInv files' occs' ∧
    (∀ d ∈ keysOf files, d ∈ keysOf files') ∧
    (∀ fid₀ f₀, mget files fid₀ = some f₀ → ∃ f₁,
      mget files' fid₀ = some f₁ ∧ f₁.path = f₀.path ∧
      f₁.compileMode = f₀.compileMode) ∧
    (∃ f₁, mget files' (mget pathToId path) = some f₁ ∧
      f₁.compileMode = c ∧ mid ∈ f₁.neededInModules) := by
  obtain ⟨hnd, hq⟩ := hIF
  obtain ⟨hoccs, hcases⟩ := recordFile_ok h
  set fid := mget pathToId path with hfid
  rcases hcases with ⟨hnone, hfiles'⟩ | ⟨f, hsome, hmode, hfiles'⟩
  · -- first sight: a fresh entry is appended
    have hnew : fid ∉ keysOf files := by
      rw [mem_keysOf_iff_isSome, hnone]
      simp
    have hkeys' : keysOf files' = keysOf files ++ [fid] := by
      rw [hfiles']
      simp [keysOf]
    have hget_ne : ∀ fid₀, fid₀ ≠ fid → mget files' fid₀ = mget files fid₀ := by
      intro fid₀ hne
      rw [hfiles']
      exact mget_append_single_ne _ _ _ _ hne
    have hget_self : mget files' fid = some ⟨path, c, db, [mid]⟩ := by
      rw [hfiles', mget_append_right _ _ _ hnew, mget_cons, if_pos rfl]
    refine ⟨⟨?_, ?_⟩, ?_, ?_, ?_, ?_⟩
    · rw [hkeys', List.nodup_append]
      refine ⟨hnd, List.nodup_singleton _, ?_⟩
      intro a ha hb
      rw [List.mem_singleton] at hb
      subst hb
      exact hnew ha
    · intro q hq'
      rw [hfiles'] at hq'
      rcases List.mem_append.mp hq' with hq' | hq'
      · obtain ⟨h1, h2, h3, h4, h5, h6⟩ := hq q hq'
        refine ⟨h1, h2, h3, h4, ?_, h6⟩
        intro d hd
        rw [hkeys']
        exact List.mem_append.mpr (Or.inl (h5 d hd))
      · rw [List.mem_singleton] at hq'
        subst hq'
        refine ⟨hfid.symm, hdecl, by simp, ?_, ?_, ?_⟩
        · intro mm hmm
          rw [List.mem_singleton] at hmm
          subst hmm
          exact hmid
        · intro d hd
          rw [hkeys']
          exact List.mem_append.mpr (Or.inl (hdb d hd))
        · intro hmem
          exact hnew (hdb _ hmem)
    · intro fid₀
      constructor
      · intro hn
        have hne : fid₀ ≠ fid := by
          intro hh
          rw [hh, hget_self] at hn
          cases hn
        rw [hget_ne fid₀ hne] at hn
        rw [hoccs, occsOf_append_ne _ _ _ _ (fun hh => hne hh.symm)]
        exact (hOcc fid₀).1 hn
      · intro f' hf'
        by_cases hne : fid₀ = fid
        · subst hne
          rw [hget_self] at hf'
          have hf'' := Option.some.inj hf'
          refine ⟨db, [], ?_, ?_⟩
          · rw [hoccs, occsOf_append_self,
              (hOcc fid).1 hnone]
            rfl
          · rw [← hf'']
            rfl
        · rw [hget_ne fid₀ hne] at hf'
          obtain ⟨d0, ds, hocc0, hinf⟩ := (hOcc fid₀).2 f' hf'
          refine ⟨d0, ds, ?_, hinf⟩
          rw [hoccs, occsOf_append_ne _ _ _ _ (fun hh => hne hh.symm)]
          exact hocc0
    · intro d hd
      rw [hkeys']
      exact List.mem_append.mpr (Or.inl hd)
    · intro fid₀ f₀ hf₀
      have hne : fid₀ ≠ fid := by
        intro hh
        rw [hh, hnone] at hf₀
        cases hf₀
      exact ⟨f₀, by rw [hget_ne fid₀ hne]; exact hf₀, rfl, rfl⟩
    · exact ⟨⟨path, c, db, [mid]⟩, hget_self, rfl, List.mem_singleton.mpr rfl⟩
  · -- seen before: the entry is updated in place
    have hmem : fid ∈ keysOf files := by
      rw [mem_keysOf_iff_isSome, hsome]
      rfl
    have hkeys' : keysOf files' = keysOf files := by
      rw [hfiles', keysOf_mupd]
    have hget_ne : ∀ fid₀, fid₀ ≠ fid → mget files' fid₀ = mget files fid₀ := by
      intro fid₀ hne
      rw [hfiles']
      exact mget_mupd_ne _ _ _ _ (fun hh => hne hh.symm)
    have hget_self : mget files' fid = some
        { f with inferredDeps := intersectSets f.inferredDeps db,
                 neededInModules := sadd f.neededInModules mid } := by
      rw [hfiles', mget_mupd_self, hsome]
      rfl
    obtain ⟨hp1, hp2, hp3, hp4, hp5, hp6⟩ :=
      hq (fid, f) (mem_of_mget_eq_some _ _ _ hsome)
    refine ⟨⟨?_, ?_⟩, ?_, ?_, ?_, ?_⟩
    · rw [hkeys']
      exact hnd
    · intro q hq'
      have hqget : mget files' q.1 = some q.2 := by
        apply mget_eq_some_of_mem_nodup _ _ _ _ hq'
        rw [hkeys']
        exact hnd
      by_cases hne : q.1 = fid
      · rw [hne, hget_self] at hqget
        have hq2 := Option.some.inj hqget
        rw [← hq2]
        refine ⟨by rw [hne]; exact hp1, hp2, ?_, ?_, ?_, ?_⟩
        · exact fun hh => sadd_ne_nil hh
        · intro mm hmm
          rcases mem_sadd.mp hmm with hmm | rfl
          · exact hp4 mm hmm
          · exact hmid
        · intro d hd
          rw [hkeys']
          exact hp5 d (List.mem_of_mem_filter hd)
        · intro hmem'
          rw [hne] at hmem'
          exact hp6 (List.mem_of_mem_filter hmem')
      · rw [hget_ne q.1 hne] at hqget
        obtain ⟨h1, h2, h3, h4, h5, h6⟩ :=
          hq (q.1, q.2) (mem_of_mget_eq_some _ _ _ hqget)
        refine ⟨h1, h2, h3, h4, ?_, h6⟩
        intro d hd
        rw [hkeys']
        exact h5 d hd
    · intro fid₀
      constructor
      · intro hn
        have hne : fid₀ ≠ fid := by
          intro hh
          rw [hh, hget_self] at hn
          cases hn
        rw [hget_ne fid₀ hne] at hn
        rw [hoccs, occsOf_append_ne _ _ _ _ (fun hh => hne hh.symm)]
        exact (hOcc fid₀).1 hn
      · intro f' hf'
        by_cases hne : fid₀ = fid
        · subst hne
          rw [hget_self] at hf'
          have hf'' := Option.some.inj hf'
          obtain ⟨d0, ds, hocc0, hinf⟩ := (hOcc fid).2 f hsome
          refine ⟨d0, ds ++ [db], ?_, ?_⟩
          · rw [hoccs, occsOf_append_self, hocc0]
            rfl
          · rw [← hf'']
            show intersectSets f.inferredDeps db = _
            rw [hinf, List.foldl_append]
            rfl
        · rw [hget_ne fid₀ hne] at hf'
          obtain ⟨d0, ds, hocc0, hinf⟩ := (hOcc fid₀).2 f' hf'
          refine ⟨d0, ds, ?_, hinf⟩
          rw [hoccs, occsOf_append_ne _ _ _ _ (fun hh => hne hh.symm)]
          exact hocc0
    · intro d hd
      rw [hkeys']
      exact hd
    · intro fid₀ f₀ hf₀
      by_cases hne : fid₀ = fid
      · subst hne
        rw [hsome] at hf₀
        have := Option.some.inj hf₀
        subst this
        exact ⟨_, hget_self, rfl, rfl⟩
      · exact ⟨f₀, by rw [hget_ne fid₀ hne]; exact hf₀, rfl, rfl⟩
    · refine ⟨_, hget_self, hmode, ?_⟩
      exact self_mem_sadd

end FilePhase3

section FilePhase4

/-- A state predicate preserved by every step survives a successful
`foldlM` (with an auxiliary invariant available at each step). -/
theorem foldlM_except_carry {σ β ε : Type} (f : σ → β → Except ε σ)
    (P : σ → Prop) (Qc : σ → Prop) (l : List β) (st s : σ)
    (hstep : ∀ st b s', b ∈ l → P st → f st b = .ok s' → P s')
    (hkeep : ∀ st b s', b ∈ l → P st → Qc st → f st b = .ok s' → Qc s')
    (hP : P st) (hQ : Qc st) (h : l.foldlM f st = .ok s) : Qc s := by
  induction l generalizing st with
  | nil =>
    simp only [List.foldlM_nil] at h
    cases h
    exact hQ
  | cons d ds ih =>
    rw [List.foldlM_cons] at h
    cases hd : f st d with
    | error e =>
      rw [hd] at h
      dsimp only [Bind.bind, Except.bind] at h
      cases h
    | ok s₂ =>
      rw [hd] at h
      dsimp only [Bind.bind, Except.bind] at h
      exact ih s₂
        (fun st' b s' hb hP' hok =>
          hstep st' b s' (List.mem_cons_of_mem _ hb) hP' hok)
        (fun st' b s' hb hP' hQ' hok =>
          hkeep st' b s' (List.mem_cons_of_mem _ hb) hP' hQ' hok)
        (hstep st d s₂ (List.mem_cons_self _ _) hP hd)
        (hkeep st d s₂ (List.mem_cons_self _ _) hP hQ hd)
        h

/-- Invariant + reachability of a successful `foldlM`: both an invariant
and a per-element postcondition survive to the end. -/
theorem foldlM_except_inv_elem {σ β ε : Type} (f : σ → β → Except ε σ)
    (P : σ → Prop) (Q : β → σ → Prop) (l : List β) (s₀ s : σ) (h0 : P s₀)
    (hstep : ∀ st b s', b ∈ l → P st → f st b = .ok s' → P s')
    (hestab : ∀ st b s', b ∈ l → P st → f st b = .ok s' → Q b s')
    (hmono : ∀ st b b' s', b ∈ l → b' ∈ l → P st → Q b st →
      f st b' = .ok s' → Q b s')
    (h : l.foldlM f s₀ = .ok s) : P s ∧ ∀ b ∈ l, Q b s := by
  induction l generalizing s₀ with
  | nil =>
    simp only [List.foldlM_nil] at h
    cases h
    exact ⟨h0, fun b hb => absurd hb (List.not_mem_nil b)⟩
  | cons c cs ih =>
    rw [List.foldlM_cons] at h
    cases hc : f s₀ c with
    | error e =>
      rw [hc] at h
      dsimp only [Bind.bind, Except.bind] at h
      cases h
    | ok s₁ =>
      rw [hc] at h
      dsimp only [Bind.bind, Except.bind] at h
      have hP₁ : P s₁ := hstep s₀ c s₁ (List.mem_cons_self _ _) h0 hc
      have hQ₁ : Q c s₁ := hestab s₀ c s₁ (List.mem_cons_self _ _) h0 hc
      obtain ⟨hPs, hQs⟩ := ih s₁ hP₁
        (fun st b s' hb hP hok =>
          hstep st b s' (List.mem_cons_of_mem _ hb) hP hok)
        (fun st b s' hb hP hok =>
          hestab st b s' (List.mem_cons_of_mem _ hb) hP hok)
        (fun st b b' s' hb hb' hP hQb hok =>
          hmono st b b' s' (List.mem_cons_of_mem _ hb)
            (List.mem_cons_of_mem _ hb') hP hQb hok)
        h
      refine ⟨hPs, ?_⟩
      have hQc : Q c s :=
        foldlM_except_carry f P (Q c) cs s₁ s
          (fun st b s' hb hP hok =>
            hstep st b s' (List.mem_cons_of_mem _ hb) hP hok)
          (fun st b s' hb hP hQb hok =>
            hmono st c b s' (List.mem_cons_self _ _)
              (List.mem_cons_of_mem _ hb) hP hQb hok)
          hP₁ hQ₁ h
      intro b hb
      rcases List.mem_cons.mp hb with rfl | hb'
      · exact hQc
      · exact hQs b hb'

/-- A failing `foldlM` fails at a reachable state: some element's step
errored from a state satisfying any invariant preserved by the prefix. -/
theorem foldlM_except_inv_error {σ β ε : Type} (f : σ → β → Except ε σ)
    (P : σ → Prop) (l : List β) (s₀ : σ) (e : ε) (h0 : P s₀)
    (hstep : ∀ st b s', b ∈ l → P st → f st b = .ok s' → P s')
    (h : l.foldlM f s₀ = .error e) :
    ∃ st b, b ∈ l ∧ P st ∧ f st b = .error e := by
  induction l generalizing s₀ with
  | nil =>
    simp only [List.foldlM_nil] at h
    cases h
  | cons c cs ih =>
    rw [List.foldlM_cons] at h
    cases hc : f s₀ c with
    | error e' =>
      rw [hc] at h
      dsimp only [Bind.bind, Except.bind] at h
      cases h
      exact ⟨s₀, c, List.mem_cons_self _ _, h0, hc⟩
    | ok s₁ =>
      rw [hc] at h
      dsimp only [Bind.bind, Except.bind] at h
      obtain ⟨st, b, hb, hP, herr⟩ := ih s₁
        (hstep s₀ c s₁ (List.mem_cons_self _ _) h0 hc)
        (fun st b s' hb hP hok =>
          hstep st b s' (List.mem_cons_of_mem _ hb) hP hok)
        h
      exact ⟨st, b, List.mem_cons_of_mem _ hb, hP, herr⟩

/-- The three path loops of one `initFiles` module iteration preserve
the invariants; keys grow and stored paths/modes are stable. -/
theorem recFold_inv {po : ProjectOptions} {tcd : List (String × List String)}
    {sorted : List MId} {pathToId : List (String × Nat)} {c : CompileMode}
    {mid : MId} (hmid : mid ∈ sorted) (paths : List String)
    (hdecl : ∀ path ∈ paths, declaredOccurs po tcd path c) :
    ∀ (acc acc' : List FId × List (FId × JsFile) × List (FId × List FId)),
    IFiles po tcd sorted pathToId acc.2.1 → OccInv acc.2.1 acc.2.2 →
    (∀ d ∈ acc.1, d ∈ keysOf acc.2.1) →
    paths.foldlM (recStep pathToId c mid) acc = .ok acc' →
    IFiles po tcd sorted pathToId acc'.2.1 ∧ OccInv acc'.2.1 acc'.2.2 ∧
    (∀ d ∈ acc'.1, d ∈ keysOf acc'.2.1) ∧
    (∀ d ∈ keysOf acc.2.1, d ∈ keysOf acc'.2.1) ∧
    (∀ fid₀ f₀, mget acc.2.1 fid₀ = some f₀ → ∃ f₁,
      mget acc'.2.1 fid₀ = some f₁ ∧ f₁.path = f₀.path ∧
      f₁.compileMode = f₀.compileMode) := by
  induction paths with
  | nil =>
    intro acc acc' hIF hOcc hdb h
    simp only [List.foldlM_nil] at h
    cases h
    exact ⟨hIF, hOcc, hdb, fun d hd => hd,
      fun fid₀ f₀ hf₀ => ⟨f₀, hf₀, rfl, rfl⟩⟩
  | cons p ps ih =>
    intro acc acc' hIF hOcc hdb h
    rw [List.foldlM_cons] at h
    cases hstep : recStep pathToId c mid acc p with
    | error e =>
      rw [hstep] at h
      dsimp only [Bind.bind, Except.bind] at h
      cases h
    | ok acc1 =>
      rw [hstep] at h
      dsimp only [Bind.bind, Except.bind] at h
      obtain ⟨files', occs', hrec, hacc1⟩ := recStep_ok hstep
      obtain ⟨hIF', hOcc', hmono, hstab, f₁, hf₁, _, _⟩ :=
        recordFile_inv hIF hOcc (hdecl p (List.mem_cons_self _ _)) hmid hdb
          hrec
      have hdb1 : ∀ d ∈ sadd acc.1 (mget pathToId p), d ∈ keysOf files' := by
        intro d hd
        rcases mem_sadd.mp hd with hd | rfl
        · exact hmono d (hdb d hd)
        · rw [mem_keysOf_iff_isSome, hf₁]
          rfl
      subst hacc1
      obtain ⟨ihIF, ihOcc, ihdb, ihmono, ihstab⟩ :=
        ih (fun path hp => hdecl path (List.mem_cons_of_mem _ hp))
          (sadd acc.1 (mget pathToId p), files', occs') acc'
          hIF' hOcc' hdb1 h
      refine ⟨ihIF, ihOcc, ihdb, ?_, ?_⟩
      · intro d hd
        exact ihmono d (hmono d hd)
      · intro fid₀ f₀ hf₀
        obtain ⟨fm, hfm, hfp, hfc⟩ := hstab fid₀ f₀ hf₀
        obtain ⟨fe, hfe, hep, hec⟩ := ihstab fid₀ fm hfm
        exact ⟨fe, hfe, by rw [hep, hfp], by rw [hec, hfc]⟩

end FilePhase4

section FilePhase5

/-- `initFilesModule` with the three loops written via `recStep`
(definitionally equal restatement used to factor proofs). -/
def initFilesModuleR (po : ProjectOptions) (tcd : List (String × List String))
    (ms : List (MId × JsModule)) (pathToId : List (String × Nat))
    (st : InitFilesState) (moduleId : MId) : Except JsErr InitFilesState :=
  match mget po.jsModules (((mget ms moduleId).getD default).name) with
  | none => throw .typeError
  | some moduleSpec => do
    let st1 ← moduleSpec.dontCompileInputFiles.foldlM
      (recStep pathToId CompileMode.uncompiled moduleId)
      (((mget ms moduleId).getD default).moduleDeps.foldl
        (fun acc depModule =>
          addSetValues ((mget st.fileDeps depModule).getD default).uncompiled
            acc) [],
        st.files, st.occs)
    let st2 ← moduleSpec.nonClosureNamespacedInputFiles.foldlM
      (recStep pathToId CompileMode.nonNamespaced moduleId)
      (((mget ms moduleId).getD default).moduleDeps.foldl
        (fun acc depModule =>
          addSetValues
            ((mget st.fileDeps depModule).getD
              default).uncompiledAndNonNamespaced acc)
        (deepClone st1.1),
        st1.2.1, st1.2.2)
    let st3 ← ((mget tcd (((mget ms moduleId).getD default).name)).getD
        []).foldlM
      (recStep pathToId CompileMode.closure moduleId)
      (deepClone st2.1, st2.2.1, st2.2.2)
    pure ⟨mset st.fileDeps moduleId ⟨st1.1, st2.1⟩, st3.2.1, st3.2.2⟩

theorem initFilesModule_eqR (po : ProjectOptions)
    (tcd : List (String × List String)) (ms : List (MId × JsModule))
    (pathToId : List (String × Nat)) (st : InitFilesState) (moduleId : MId) :
    initFilesModule po tcd ms pathToId st moduleId =
      initFilesModuleR po tcd ms pathToId st moduleId := rfl

/-- The per-module deps accumulators only hold recorded file IDs. -/
def FDInv (files : List (FId × JsFile))
    (fileDeps : List (MId × FDeps)) : Prop :=
  ∀ q ∈ fileDeps, (∀ d ∈ q.2.uncompiled, d ∈ keysOf files) ∧
    (∀ d ∈ q.2.uncompiledAndNonNamespaced, d ∈ keysOf files)

/-- One successful module iteration of `initFiles` preserves all the
invariants; keys grow and recorded paths/modes are stable. -/
theorem initFilesModule_ok {po : ProjectOptions}
    {tcd : List (String × List String)} {ms : List (MId × JsModule)}
    {pathToId : List (String × Nat)} {sorted : List MId}
    {st st' : InitFilesState} {mid : MId}
    (hmid : mid ∈ sorted)
    (hFD : FDInv st.files st.fileDeps)
    (hIF : IFiles po tcd sorted pathToId st.files)
    (hOcc : OccInv st.files st.occs)
    (h : initFilesModule po tcd ms pathToId st mid = .ok st') :
    FDInv st'.files st'.fileDeps ∧
    IFiles po tcd sorted pathToId st'.files ∧ OccInv st'.files st'.occs ∧
    (∀ d ∈ keysOf st.files, d ∈ keysOf st'.files) ∧
    (∀ fid₀ f₀, mget st.files fid₀ = some f₀ → ∃ f₁,
      mget st'.files fid₀ = some f₁ ∧ f₁.path = f₀.path ∧
      f₁.compileMode = f₀.compileMode) := by
  rw [initFilesModule_eqR] at h
  unfold initFilesModuleR at h
  cases hspec : mget po.jsModules (((mget ms mid).getD default).name) with
  | none =>
    rw [hspec] at h
    cases h
  | some moduleSpec =>
    rw [hspec] at h
    dsimp only at h
    have hsmem : ((((mget ms mid).getD default).name, moduleSpec) :
        String × ModuleSpec) ∈ po.jsModules :=
      mem_of_mget_eq_some _ _ _ hspec
    have hdecl1 : ∀ path ∈ moduleSpec.dontCompileInputFiles,
        declaredOccurs po tcd path CompileMode.uncompiled :=
      fun path hp => ⟨_, hsmem, Or.inl ⟨rfl, hp⟩⟩
    have hdecl2 : ∀ path ∈ moduleSpec.nonClosureNamespacedInputFiles,
        declaredOccurs po tcd path CompileMode.nonNamespaced :=
      fun path hp => ⟨_, hsmem, Or.inr (Or.inl ⟨rfl, hp⟩)⟩
    have hdecl3 : ∀ path ∈ (mget tcd
        (((mget ms mid).getD default).name)).getD [],
        declaredOccurs po tcd path CompileMode.closure :=
      fun path hp => ⟨_, hsmem, Or.inr (Or.inr ⟨rfl, hp⟩)⟩
    cases h1 : moduleSpec.dontCompileInputFiles.foldlM
        (recStep pathToId CompileMode.uncompiled mid)
        (((mget ms mid).getD default).moduleDeps.foldl
          (fun acc depModule =>
            addSetValues
              ((mget st.fileDeps depModule).getD default).uncompiled acc) [],
          st.files, st.occs) with
    | error e =>
      rw [h1] at h
      dsimp only [Bind.bind, Except.bind] at h
      cases h
    | ok st1 =>
    rw [h1] at h
    dsimp only [Bind.bind, Except.bind] at h
    have hseed1 : ∀ d ∈ (((mget ms mid).getD default).moduleDeps.foldl
        (fun acc depModule =>
          addSetValues
            ((mget st.fileDeps depModule).getD default).uncompiled acc) []),
        d ∈ keysOf st.files := by
      intro d hd
      rcases (mem_foldl_addSetValuesG _ _ _ _).mp hd with hd | ⟨dm, _, hd⟩
      · cases hd
      · cases hfd : mget st.fileDeps dm with
        | none =>
          rw [hfd] at hd
          cases hd
        | some fd =>
          rw [hfd] at hd
          exact (hFD (dm, fd) (mem_of_mget_eq_some _ _ _ hfd)).1 d hd
    obtain ⟨hIF1, hOcc1, hdb1, hmono1, hstab1⟩ :=
      recFold_inv hmid moduleSpec.dontCompileInputFiles hdecl1 _ st1
        hIF hOcc hseed1 h1
    cases h2 : moduleSpec.nonClosureNamespacedInputFiles.foldlM
        (recStep pathToId CompileMode.nonNamespaced mid)
        (((mget ms mid).getD default).moduleDeps.foldl
          (fun acc depModule =>
            addSetValues
              ((mget st.fileDeps depModule).getD
                default).uncompiledAndNonNamespaced acc)
          (deepClone st1.1),
          st1.2.1, st1.2.2) with
    | error e =>
      rw [h2] at h
      dsimp only [Bind.bind, Except.bind] at h
      cases h
    | ok st2 =>
    rw [h2] at h
    dsimp only [Bind.bind, Except.bind] at h
    have hseed2 : ∀ d ∈ (((mget ms mid).getD default).moduleDeps.foldl
        (fun acc depModule =>
          addSetValues
            ((mget st.fileDeps depModule).getD
              default).uncompiledAndNonNamespaced acc)
        (deepClone st1.1)),
        d ∈ keysOf st1.2.1 := by
      intro d hd
      rcases (mem_foldl_addSetValuesG _ _ _ _).mp hd with hd | ⟨dm, _, hd⟩
      · exact hdb1 d hd
      · cases hfd : mget st.fileDeps dm with
        | none =>
          rw [hfd] at hd
          cases hd
        | some fd =>
          rw [hfd] at hd
          exact hmono1 d
            ((hFD (dm, fd) (mem_of_mget_eq_some _ _ _ hfd)).2 d hd)
    obtain ⟨hIF2, hOcc2, hdb2, hmono2, hstab2⟩ :=
      recFold_inv hmid moduleSpec.nonClosureNamespacedInputFiles hdecl2
        (((mget ms mid).getD default).moduleDeps.foldl
          (fun acc depModule =>
            addSetValues
              ((mget st.fileDeps depModule).getD
                default).uncompiledAndNonNamespaced acc)
          (deepClone st1.1),
          st1.2.1, st1.2.2) st2
        hIF1 hOcc1 hseed2 h2
    cases h3 : ((mget tcd (((mget ms mid).getD default).name)).getD
        []).foldlM (recStep pathToId CompileMode.closure mid)
        (deepClone st2.1, st2.2.1, st2.2.2) with
    | error e =>
      rw [h3] at h
      dsimp only [Bind.bind, Except.bind] at h
      cases h
    | ok st3 =>
    rw [h3] at h
    dsimp only [Bind.bind, Except.bind, Pure.pure, Except.pure] at h
    cases h
    obtain ⟨hIF3, hOcc3, hdb3, hmono3, hstab3⟩ :=
      recFold_inv hmid _ hdecl3
        (deepClone st2.1, st2.2.1, st2.2.2) st3 hIF2 hOcc2
        (fun d hd => hdb2 d hd) h3
    refine ⟨?_, hIF3, hOcc3, ?_, ?_⟩
    · intro q hq
      dsimp only at hq
      rcases mem_mset hq with rfl | hq'
      · exact ⟨fun d hd => hmono3 d (hmono2 d (hdb1 d hd)),
          fun d hd => hmono3 d (hdb2 d hd)⟩
      · obtain ⟨hu, hn⟩ := hFD q hq'
        exact ⟨fun d hd => hmono3 d (hmono2 d (hmono1 d (hu d hd))),
          fun d hd => hmono3 d (hmono2 d (hmono1 d (hn d hd)))⟩
    · intro d hd
      exact hmono3 d (hmono2 d (hmono1 d hd))
    · intro fid₀ f₀ hf₀
      obtain ⟨g1, hg1, hg1p, hg1c⟩ := hstab1 fid₀ f₀ hf₀
      obtain ⟨g2, hg2, hg2p, hg2c⟩ := hstab2 fid₀ g1 hg1
      obtain ⟨g3, hg3, hg3p, hg3c⟩ := hstab3 fid₀ g2 hg2
      exact ⟨g3, hg3, by rw [hg3p, hg2p, hg1p], by rw [hg3c, hg2c, hg1c]⟩

/-- The structure of the state after a successful `initFiles` run. -/
theorem initFiles_ok_facts {po : ProjectOptions}
    {tcd : List (String × List String)} {ms : List (MId × JsModule)}
    {sorted : List MId} {pathToId : List (String × Nat)}
    {files0 : List (FId × JsFile)} {occs : List (FId × List FId)}
    (h : initFiles po tcd ms sorted pathToId = .ok (files0, occs)) :
    IFiles po tcd sorted pathToId files0 ∧ OccInv files0 occs := by
  unfold initFiles at h
  cases hst : sorted.foldlM (initFilesModule po tcd ms pathToId)
      ⟨[], [], []⟩ with
  | error e =>
    rw [hst] at h
    dsimp only [Bind.bind, Except.bind] at h
    cases h
  | ok st =>
    rw [hst] at h
    dsimp only [Bind.bind, Except.bind, Pure.pure, Except.pure] at h
    have hfiles : st.files = files0 := congrArg Prod.fst (Except.ok.inj h)
    have hoccs : st.occs = occs := congrArg Prod.snd (Except.ok.inj h)
    have hinv := foldlM_except_inv (initFilesModule po tcd ms pathToId)
      (fun st => FDInv st.files st.fileDeps ∧
        IFiles po tcd sorted pathToId st.files ∧ OccInv st.files st.occs)
      sorted ⟨[], [], []⟩ st
      ⟨fun q hq => absurd hq (List.not_mem_nil q),
        ⟨List.nodup_nil, fun q hq => absurd hq (List.not_mem_nil q)⟩,
        fun fid => ⟨fun _ => rfl, fun f hf => by cases hf⟩⟩
      (fun st₀ b s' hb hP hok => by
        obtain ⟨hFD', hIF', hOcc', _, _⟩ :=
          initFilesModule_ok hb hP.1 hP.2.1 hP.2.2 hok
        exact ⟨hFD', hIF', hOcc'⟩)
      hst
    obtain ⟨_, hIFs, hOccs⟩ := hinv
    rw [← hfiles, ← hoccs]
    exact ⟨hIFs, hOccs⟩

end FilePhase5

/-! ## Claim C5: inferred deps are the intersection of the observed
occurrence contexts -/

/-- C5: after order inference, every recorded file has at least one
observed occurrence; its inferred-predecessor set is the clone of the
`depsBefore` context of the first occurrence intersected with the
context of each later occurrence; equivalently, `g` is an inferred
predecessor of `f` iff `g` was seen before `f` at every observed
occurrence of `f` (in the staged processing order of `initFiles`). -/
theorem C5_inferred_deps_spec {po : ProjectOptions}
    {tcd : List (String × List String)} {s : Solved}
    (h : solve po tcd = .ok s) :
    ∀ fid f, mget s.files0 fid = some f →
      ∃ d0 ds, occsOf s.occurrences fid = d0 :: ds ∧
        f.inferredDeps = ds.foldl intersectSets (deepClone d0) ∧
        ∀ g, g ∈ f.inferredDeps ↔ ∀ db ∈ occsOf s.occurrences fid, g ∈ db := by
  intro fid f hf
  obtain ⟨ms0, st, h0, h1, h2, h3, h4, h5, _⟩ := solve_ok h
  obtain ⟨_, hOcc⟩ := initFiles_ok_facts h3
  obtain ⟨d0, ds, hocc, hinf⟩ := (hOcc fid).2 f hf
  refine ⟨d0, ds, hocc, hinf, ?_⟩
  intro g
  rw [hinf, mem_foldl_intersectSets, hocc]
  constructor
  · rintro ⟨hg0, hgds⟩ db hdb
    rcases List.mem_cons.mp hdb with rfl | hdb'
    · exact hg0
    · exact hgds db hdb'
  · intro hall
    exact ⟨hall d0 (List.mem_cons_self _ _),
      fun db hdb => hall db (List.mem_cons_of_mem _ hdb)⟩

/-- Witness for C5 on the eleven-module chain project: its single
Closure file (ID 0) has a first occurrence seeding its inferred deps. -/
theorem C5_witness :
    ∃ d0 ds,
      occsOf (getOk (solve chainProject chainDeps)).occurrences (some 0) =
        d0 :: ds ∧
      ((mget (getOk (solve chainProject chainDeps)).files0
        (some 0)).getD default).inferredDeps =
        ds.foldl intersectSets (deepClone d0) := by
  obtain ⟨d0, ds, h1, h2, _⟩ :=
    C5_inferred_deps_spec
      (show solve chainProject chainDeps =
        .ok (getOk (solve chainProject chainDeps)) from rfl)
      (some 0)
      ((mget (getOk (solve chainProject chainDeps)).files0
        (some 0)).getD default)
      (show _ = some _ from rfl)
  exact ⟨d0, ds, h1, h2⟩

section ErrorClassify

theorem getSortedFileIds_ok_topSort {files : List (FId × JsFile)}
    {sorted : List FId} (h : getSortedFileIds files = .ok sorted) :
    topSortNodes (files.map (fun p => (p.1, p.2.inferredDeps))) =
      .ok sorted := by
  unfold getSortedFileIds at h
  dsimp only at h
  cases htop : topSortNodes (files.map (fun p => (p.1, p.2.inferredDeps))) with
  | ok l =>
    rw [htop] at h
    cases h
    rfl
  | error e =>
    rw [htop] at h
    cases h

theorem getSortedFileIds_error {files : List (FId × JsFile)} {e : JsErr}
    (h : getSortedFileIds files = .error e) :
    ∃ paths, e = .fileCycle paths := by
  unfold getSortedFileIds at h
  dsimp only at h
  cases htop : topSortNodes (files.map (fun p => (p.1, p.2.inferredDeps))) with
  | ok l =>
    rw [htop] at h
    cases h
  | error r =>
    rw [htop] at h
    exact ⟨_, (Except.error.inj h).symm⟩

/-- `List.indexOf` on file IDs at the decidable-equality `BEq` instance
(the one produced by the topological-sort lemmas). -/
def fidIndex (l : List FId) (x : FId) : Nat :=
  @List.indexOf FId instBEqOfDecidableEq x l

/-- The order facts of a successful file sort. -/
theorem getSortedFileIds_ok_facts {files : List (FId × JsFile)}
    {sorted : List FId} (hnd : (keysOf files).Nodup)
    (h : getSortedFileIds files = .ok sorted) :
    sorted.Perm (keysOf files) ∧ sorted.Nodup ∧
    (∀ fid ∈ sorted, ∀ d ∈ ((mget files fid).getD default).inferredDeps,
      fidIndex sorted d < fidIndex sorted fid) := by
  have htop := getSortedFileIds_ok_topSort h
  have hknd : (keysOf (files.map (fun p => (p.1, p.2.inferredDeps)))).Nodup := by
    rw [keysOf_map_snd]
    exact hnd
  have htop' : topSortGo
      (files.map (fun p => (p.1, p.2.inferredDeps))).length
      (files.map (fun p => (p.1, p.2.inferredDeps))) = .ok sorted := htop
  obtain ⟨hperm, _, _, _⟩ :=
    topSortGo_ok (files.map (fun p => (p.1, p.2.inferredDeps))).length
      (files.map (fun p => (p.1, p.2.inferredDeps))) (le_refl _) hknd sorted
      htop'
  rw [keysOf_map_snd] at hperm
  refine ⟨hperm, hperm.nodup_iff.mpr hnd, ?_⟩
  intro fid hfid d hd
  have hout : d ∈ outOf (files.map (fun p => (p.1, p.2.inferredDeps))) fid := by
    rw [outOf, mget_map_snd]
    cases hm : mget files fid with
    | none =>
      have : fid ∈ keysOf files := hperm.subset hfid
      rw [mem_keysOf_iff_isSome, hm] at this
      cases this
    | some f =>
      rw [hm] at hd
      exact hd
  exact topSortNodes_ok_indexOf hknd htop hfid hout

theorem chooseLowestModules_error {ms : List (MId × JsModule)}
    {moduleSet : List MId} {e : JsErr}
    (h : chooseLowestModules ms moduleSet = .error e) : e = .typeError := by
  unfold chooseLowestModules at h
  dsimp only at h
  cases hl : (sortBy jsDefaultSortLe (moduleSet.map (fun moduleId =>
      (((mget ms moduleId).getD default).transitiveModuleDeps.length,
        moduleId)))).getLast? with
  | none =>
    rw [hl] at h
    exact (Except.error.inj h).symm
  | some lastPair =>
    rw [hl] at h
    cases h

theorem calcLcaModules_error {ms : List (MId × JsModule)}
    {files : List (FId × JsFile)} {memo : List (List MId × List MId)}
    {fid : FId} {e : JsErr}
    (h : calcLcaModules ms files memo fid = .error e) : e = .typeError := by
  unfold calcLcaModules at h
  dsimp only at h
  cases hm : mget memo (serializeModuleSet
      ((mget files fid).getD default).neededInModules) with
  | some v =>
    rw [hm] at h
    cases h
  | none =>
    rw [hm] at h
    cases hcl : chooseLowestModules ms
        ((((mget files fid).getD default).neededInModules.foldl
          (fun acc moduleId =>
            match acc with
            | none => some (((mget ms moduleId).getD
                default).transitiveModuleDeps)
            | some c => some (intersectSets c
                (((mget ms moduleId).getD default).transitiveModuleDeps)))
          none).getD []) with
    | error e' =>
      rw [hcl] at h
      rw [← Except.error.inj h]
      exact chooseLowestModules_error hcl
    | ok lca =>
      rw [hcl] at h
      cases h

theorem chooseModuleFor_error {ms : List (MId × JsModule)}
    {files : List (FId × JsFile)} {memo : List (List MId × List MId)}
    {fid : FId} {e : JsErr}
    (h : chooseModuleFor ms files memo fid = .error e) : e = .typeError := by
  unfold chooseModuleFor at h
  cases hl : calcLcaModules ms files memo fid with
  | error e' =>
    rw [hl] at h
    dsimp only [Bind.bind, Except.bind] at h
    rw [← Except.error.inj h]
    exact calcLcaModules_error hl
  | ok lm =>
    rw [hl] at h
    obtain ⟨lca, memo'⟩ := lm
    dsimp only [Bind.bind, Except.bind] at h
    cases lca with
    | nil =>
      dsimp only at h
      cases hmin : underscoreMin [] (numMovesRequired files fid) with
      | some m =>
        rw [hmin] at h
        dsimp only [Pure.pure, Except.pure] at h
        cases h
      | none =>
        rw [hmin] at h
        exact (Except.error.inj h).symm
    | cons x rest =>
      cases rest with
      | nil =>
        dsimp only [Pure.pure, Except.pure] at h
        cases h
      | cons y rest' =>
        dsimp only at h
        cases hmin : underscoreMin (x :: y :: rest')
            (numMovesRequired files fid) with
        | some m =>
          rw [hmin] at h
          dsimp only [Pure.pure, Except.pure] at h
          cases h
        | none =>
          rw [hmin] at h
          exact (Except.error.inj h).symm

theorem placeOne_error {ms : List (MId × JsModule)} {st : PlaceState}
    {fid : FId} {e : JsErr}
    (h : placeOne ms st fid = .error e) : e = .typeError := by
  unfold placeOne at h
  dsimp only at h
  cases hc : chooseModuleFor ms st.files st.memo fid with
  | error e' =>
    rw [hc] at h
    dsimp only [Bind.bind, Except.bind] at h
    rw [← Except.error.inj h]
    exact chooseModuleFor_error hc
  | ok bm =>
    rw [hc] at h
    obtain ⟨best, memo'⟩ := bm
    dsimp only [Bind.bind, Except.bind, Pure.pure, Except.pure] at h
    cases h

theorem calcInputs_error {ms : List (MId × JsModule)}
    {sortedModuleIds : List MId} {files0 : List (FId × JsFile)}
    {sortedFileIds : List FId} {e : JsErr}
    (h : calcInputs ms sortedModuleIds files0 sortedFileIds = .error e) :
    e = .typeError := by
  unfold calcInputs at h
  dsimp only at h
  cases hst : sortedFileIds.reverse.foldlM (placeOne ms)
      ⟨files0, [], ms.foldl (fun acc p =>
        mset acc p.1 ⟨p.2.name, [], []⟩) [], []⟩ with
  | ok st =>
    rw [hst] at h
    dsimp only [Bind.bind, Except.bind, Pure.pure, Except.pure] at h
    cases h
  | error e' =>
    rw [hst] at h
    dsimp only [Bind.bind, Except.bind] at h
    have he : e' = e := Except.error.inj h
    subst he
    obtain ⟨st', b, _, _, herr⟩ :=
      foldlM_except_inv_error (placeOne ms) (fun _ => True) _ _ _ trivial
        (fun _ _ _ _ _ _ => trivial) hst
    exact placeOne_error herr

end ErrorClassify

section FilePhase6

/-- The combined invariant threaded through each path loop. -/
def RecInv (po : ProjectOptions) (tcd : List (String × List String))
    (sorted : List MId) (pathToId : List (String × Nat))
    (acc : List FId × List (FId × JsFile) × List (FId × List FId)) : Prop :=
  IFiles po tcd sorted pathToId acc.2.1 ∧ OccInv acc.2.1 acc.2.2 ∧
  ∀ d ∈ acc.1, d ∈ keysOf acc.2.1

theorem recStep_pres {po : ProjectOptions} {tcd : List (String × List String)}
    {sorted : List MId} {pathToId : List (String × Nat)} {c : CompileMode}
    {mid : MId} {path : String}
    {acc acc' : List FId × List (FId × JsFile) × List (FId × List FId)}
    (hmid : mid ∈ sorted) (hdecl : declaredOccurs po tcd path c)
    (hP : RecInv po tcd sorted pathToId acc)
    (h : recStep pathToId c mid acc path = .ok acc') :
    RecInv po tcd sorted pathToId acc' ∧
    (∀ fid₀ f₀, mget acc.2.1 fid₀ = some f₀ → ∃ f₁,
      mget acc'.2.1 fid₀ = some f₁ ∧ f₁.path = f₀.path ∧
      f₁.compileMode = f₀.compileMode) := by
  obtain ⟨hIF, hOcc, hdb⟩ := hP
  obtain ⟨files', occs', hrec, hacc'⟩ := recStep_ok h
  obtain ⟨hIF', hOcc', hmono, hstab, f₁, hf₁, _, _⟩ :=
    recordFile_inv hIF hOcc hdecl hmid hdb hrec
  subst hacc'
  refine ⟨⟨hIF', hOcc', ?_⟩, hstab⟩
  intro d hd
  rcases mem_sadd.mp hd with hd | rfl
  · exact hmono d (hdb d hd)
  · rw [mem_keysOf_iff_isSome, hf₁]
    rfl

/-- After a successful `recordFile`, the file keyed by the called path
stores exactly that path and mode (uses that declared paths are interned
injectively). -/
theorem recordFile_path_mode {po : ProjectOptions}
    {tcd : List (String × List String)} {sorted : List MId}
    {pathToId : List (String × Nat)} {files : List (FId × JsFile)}
    {occs : List (FId × List FId)} {path : String} {c : CompileMode}
    {mid : MId} {db : List FId} {files' : List (FId × JsFile)}
    {occs' : List (FId × List FId)}
    (hIF : IFiles po tcd sorted pathToId files)
    (hdecl : declaredOccurs po tcd path c)
    (hintern : ∀ pa cc, declaredOccurs po tcd pa cc →
      (mget pathToId pa).isSome)
    (hinj : ∀ p₁ p₂ n, mget pathToId p₁ = some n →
      mget pathToId p₂ = some n → p₁ = p₂)
    (h : recordFile files occs (mget pathToId path) path c mid db =
      .ok (files', occs')) :
    ∃ f₁, mget files' (mget pathToId path) = some f₁ ∧ f₁.path = path ∧
      f₁.compileMode = c := by
  obtain ⟨_, hcases⟩ := recordFile_ok h
  rcases hcases with ⟨hnone, hfiles'⟩ | ⟨f, hsome, hmode, hfiles'⟩
  · have hnew : mget pathToId path ∉ keysOf files := by
      rw [mem_keysOf_iff_isSome, hnone]
      simp
    refine ⟨⟨path, c, db, [mid]⟩, ?_, rfl, rfl⟩
    rw [hfiles', mget_append_right _ _ _ hnew, mget_cons, if_pos rfl]
  · obtain ⟨_, hq⟩ := hIF
    obtain ⟨hq1, _, _⟩ := hq _ (mem_of_mget_eq_some _ _ _ hsome)
    have hps : (mget pathToId path).isSome := hintern path c hdecl
    obtain ⟨n, hn⟩ := Option.isSome_iff_exists.mp hps
    have hfp : f.path = path := by
      apply hinj f.path path n _ hn
      rw [hq1]
      exact hn
    refine ⟨({ f with
        inferredDeps := intersectSets f.inferredDeps db
        neededInModules := sadd f.neededInModules mid } : JsFile),
      ?_, hfp, hmode⟩
    rw [hfiles', mget_mupd_self, hsome]
    rfl

/-- A failing path loop reports a mixed-mode path: the same declared
path occurs under the loop mode and a different earlier mode. -/
theorem recFold_error {po : ProjectOptions}
    {tcd : List (String × List String)} {sorted : List MId}
    {pathToId : List (String × Nat)} {c : CompileMode} {mid : MId}
    (hmid : mid ∈ sorted) (paths : List String)
    (hdecl : ∀ path ∈ paths, declaredOccurs po tcd path c)
    (hintern : ∀ pa cc, declaredOccurs po tcd pa cc →
      (mget pathToId pa).isSome)
    (hinj : ∀ p₁ p₂ n, mget pathToId p₁ = some n →
      mget pathToId p₂ = some n → p₁ = p₂)
    {acc : List FId × List (FId × JsFile) × List (FId × List FId)}
    {e : JsErr} (h : paths.foldlM (recStep pathToId c mid) acc = .error e)
    (hP0 : RecInv po tcd sorted pathToId acc) :
    ∃ path c₁, c₁ ≠ c ∧ declaredOccurs po tcd path c₁ ∧
      declaredOccurs po tcd path c ∧ e = .mixedModes path := by
  obtain ⟨acc₁, path, hpmem, hPacc, herr⟩ :=
    foldlM_except_inv_error (recStep pathToId c mid)
      (RecInv po tcd sorted pathToId) paths acc e hP0
      (fun st b s' hb hP hok =>
        (recStep_pres hmid (hdecl b hb) hP hok).1) h
  have hrec := recStep_error herr
  obtain ⟨f, hsome, hmode, he⟩ := recordFile_error hrec
  obtain ⟨_, hq⟩ := hPacc.1
  obtain ⟨hq1, hq2, _⟩ := hq _ (mem_of_mget_eq_some _ _ _ hsome)
  have hps : (mget pathToId path).isSome :=
    hintern path c (hdecl path hpmem)
  cases hn : mget pathToId path with
  | none =>
    rw [hn] at hps
    cases hps
  | some n =>
    have hfp : f.path = path := by
      apply hinj f.path path n _ hn
      rw [hq1]
      exact hn
    refine ⟨path, f.compileMode, hmode, ?_, hdecl path hpmem, he⟩
    rw [← hfp]
    exact hq2

/-- A declared occurrence at a specific module name. -/
def specOccurs (po : ProjectOptions) (tcd : List (String × List String))
    (name path : String) (c : CompileMode) : Prop :=
  ∃ spec, mget po.jsModules name = some spec ∧
    ((c = CompileMode.uncompiled ∧ path ∈ spec.dontCompileInputFiles) ∨
     (c = CompileMode.nonNamespaced ∧
      path ∈ spec.nonClosureNamespacedInputFiles) ∨
     (c = CompileMode.closure ∧ path ∈ (mget tcd name).getD []))

/-- A failing `initFiles` module iteration whose spec lookup succeeds
reports a mixed-mode path. -/
theorem initFilesModule_error {po : ProjectOptions}
    {tcd : List (String × List String)} {ms : List (MId × JsModule)}
    {pathToId : List (String × Nat)} {sorted : List MId}
    {st : InitFilesState} {mid : MId} {e : JsErr}
    (hmid : mid ∈ sorted)
    (hFD : FDInv st.files st.fileDeps)
    (hIF : IFiles po tcd sorted pathToId st.files)
    (hOcc : OccInv st.files st.occs)
    (hspec : (mget po.jsModules (((mget ms mid).getD default).name)).isSome)
    (hintern : ∀ pa cc, declaredOccurs po tcd pa cc →
      (mget pathToId pa).isSome)
    (hinj : ∀ p₁ p₂ n, mget pathToId p₁ = some n →
      mget pathToId p₂ = some n → p₁ = p₂)
    (h : initFilesModule po tcd ms pathToId st mid = .error e) :
    ∃ path c₁ c₂, c₁ ≠ c₂ ∧ declaredOccurs po tcd path c₁ ∧
      declaredOccurs po tcd path c₂ ∧ e = .mixedModes path := by
  rw [initFilesModule_eqR] at h
  unfold initFilesModuleR at h
  cases hspec0 : mget po.jsModules (((mget ms mid).getD default).name) with
  | none =>
    rw [hspec0] at hspec
    cases hspec
  | some moduleSpec =>
    rw [hspec0] at h
    dsimp only at h
    have hsmem : ((((mget ms mid).getD default).name, moduleSpec) :
        String × ModuleSpec) ∈ po.jsModules :=
      mem_of_mget_eq_some _ _ _ hspec0
    have hdecl1 : ∀ path ∈ moduleSpec.dontCompileInputFiles,
        declaredOccurs po tcd path CompileMode.uncompiled :=
      fun path hp => ⟨_, hsmem, Or.inl ⟨rfl, hp⟩⟩
    have hdecl2 : ∀ path ∈ moduleSpec.nonClosureNamespacedInputFiles,
        declaredOccurs po tcd path CompileMode.nonNamespaced :=
      fun path hp => ⟨_, hsmem, Or.inr (Or.inl ⟨rfl, hp⟩)⟩
    have hdecl3 : ∀ path ∈ (mget tcd
        (((mget ms mid).getD default).name)).getD [],
        declaredOccurs po tcd path CompileMode.closure :=
      fun path hp => ⟨_, hsmem, Or.inr (Or.inr ⟨rfl, hp⟩)⟩
    have hseed1 : ∀ d ∈ (((mget ms mid).getD default).moduleDeps.foldl
        (fun acc depModule =>
          addSetValues
            ((mget st.fileDeps depModule).getD default).uncompiled acc) []),
        d ∈ keysOf st.files := by
      intro d hd
      rcases (mem_foldl_addSetValuesG _ _ _ _).mp hd with hd | ⟨dm, _, hd⟩
      · cases hd
      · cases hfd : mget st.fileDeps dm with
        | none =>
          rw [hfd] at hd
          cases hd
        | some fd =>
          rw [hfd] at hd
          exact (hFD (dm, fd) (mem_of_mget_eq_some _ _ _ hfd)).1 d hd
    cases h1 : moduleSpec.dontCompileInputFiles.foldlM
        (recStep pathToId CompileMode.uncompiled mid)
        (((mget ms mid).getD default).moduleDeps.foldl
          (fun acc depModule =>
            addSetValues
              ((mget st.fileDeps depModule).getD default).uncompiled acc) [],
          st.files, st.occs) with
    | error e1 =>
      rw [h1] at h
      dsimp only [Bind.bind, Except.bind] at h
      have he1 : e1 = e := Except.error.inj h
      subst he1
      obtain ⟨path, c₁, hne, hd1, hd2, he⟩ :=
        recFold_error hmid _ hdecl1 hintern hinj h1 ⟨hIF, hOcc, hseed1⟩
      exact ⟨path, c₁, _, hne, hd1, hd2, he⟩
    | ok st1 =>
    rw [h1] at h
    dsimp only [Bind.bind, Except.bind] at h
    obtain ⟨hIF1, hOcc1, hdb1, hmono1, hstab1⟩ :=
      recFold_inv hmid moduleSpec.dontCompileInputFiles hdecl1 _ st1
        hIF hOcc hseed1 h1
    have hseed2 : ∀ d ∈ (((mget ms mid).getD default).moduleDeps.foldl
        (fun acc depModule =>
          addSetValues
            ((mget st.fileDeps depModule).getD
              default).uncompiledAndNonNamespaced acc)
        (deepClone st1.1)),
        d ∈ keysOf st1.2.1 := by
      intro d hd
      rcases (mem_foldl_addSetValuesG _ _ _ _).mp hd with hd | ⟨dm, _, hd⟩
      · exact hdb1 d hd
      · cases hfd : mget st.fileDeps dm with
        | none =>
          rw [hfd] at hd
          cases hd
        | some fd =>
          rw [hfd] at hd
          exact hmono1 d
            ((hFD (dm, fd) (mem_of_mget_eq_some _ _ _ hfd)).2 d hd)
    cases h2 : moduleSpec.nonClosureNamespacedInputFiles.foldlM
        (recStep pathToId CompileMode.nonNamespaced mid)
        (((mget ms mid).getD default).moduleDeps.foldl
          (fun acc depModule =>
            addSetValues
              ((mget st.fileDeps depModule).getD
                default).uncompiledAndNonNamespaced acc)
          (deepClone st1.1),
          st1.2.1, st1.2.2) with
    | error e2 =>
      rw [h2] at h
      dsimp only [Bind.bind, Except.bind] at h
      have he2 : e2 = e := Except.error.inj h
      subst he2
      obtain ⟨path, c₁, hne, hd1, hd2, he⟩ :=
        recFold_error hmid _ hdecl2 hintern hinj h2 ⟨hIF1, hOcc1, hseed2⟩
      exact ⟨path, c₁, _, hne, hd1, hd2, he⟩
    | ok st2 =>
    rw [h2] at h
    dsimp only [Bind.bind, Except.bind] at h
    obtain ⟨hIF2, hOcc2, hdb2, hmono2, hstab2⟩ :=
      recFold_inv hmid moduleSpec.nonClosureNamespacedInputFiles hdecl2
        (((mget ms mid).getD default).moduleDeps.foldl
          (fun acc depModule =>
            addSetValues
              ((mget st.fileDeps depModule).getD
                default).uncompiledAndNonNamespaced acc)
          (deepClone st1.1),
          st1.2.1, st1.2.2) st2
        hIF1 hOcc1 hseed2 h2
    cases h3 : ((mget tcd (((mget ms mid).getD default).name)).getD
        []).foldlM (recStep pathToId CompileMode.closure mid)
        (deepClone st2.1, st2.2.1, st2.2.2) with
    | error e3 =>
      rw [h3] at h
      dsimp only [Bind.bind, Except.bind] at h
      have he3 : e3 = e := Except.error.inj h
      subst he3
      obtain ⟨path, c₁, hne, hd1, hd2, he⟩ :=
        recFold_error hmid _ hdecl3 hintern hinj h3
          ⟨hIF2, hOcc2, fun d hd => hdb2 d hd⟩
      exact ⟨path, c₁, _, hne, hd1, hd2, he⟩
    | ok st3 =>
      rw [h3] at h
      dsimp only [Bind.bind, Except.bind, Pure.pure, Except.pure] at h
      cases h

/-- A failing `initFiles` run over modules whose specs are all present
reports a mixed-mode path of the project. -/
theorem initFiles_error_classify {po : ProjectOptions}
    {tcd : List (String × List String)} {ms : List (MId × JsModule)}
    {sorted : List MId} {pathToId : List (String × Nat)} {e : JsErr}
    (hspecs : ∀ mid ∈ sorted,
      (mget po.jsModules (((mget ms mid).getD default).name)).isSome)
    (hintern : ∀ pa cc, declaredOccurs po tcd pa cc →
      (mget pathToId pa).isSome)
    (hinj : ∀ p₁ p₂ n, mget pathToId p₁ = some n →
      mget pathToId p₂ = some n → p₁ = p₂)
    (h : initFiles po tcd ms sorted pathToId = .error e) :
    ∃ path c₁ c₂, c₁ ≠ c₂ ∧ declaredOccurs po tcd path c₁ ∧
      declaredOccurs po tcd path c₂ ∧ e = .mixedModes path := by
  unfold initFiles at h
  cases hst : sorted.foldlM (initFilesModule po tcd ms pathToId)
      ⟨[], [], []⟩ with
  | ok st =>
    rw [hst] at h
    dsimp only [Bind.bind, Except.bind, Pure.pure, Except.pure] at h
    cases h
  | error e' =>
    rw [hst] at h
    dsimp only [Bind.bind, Except.bind] at h
    have he : e' = e := Except.error.inj h
    subst he
    obtain ⟨st', mid, hmid, hP, herr⟩ :=
      foldlM_except_inv_error (initFilesModule po tcd ms pathToId)
        (fun st => FDInv st.files st.fileDeps ∧
          IFiles po tcd sorted pathToId st.files ∧ OccInv st.files st.occs)
        sorted ⟨[], [], []⟩ e'
        ⟨fun q hq => absurd hq (List.not_mem_nil q),
          ⟨List.nodup_nil, fun q hq => absurd hq (List.not_mem_nil q)⟩,
          fun fid => ⟨fun _ => rfl, fun f hf => by cases hf⟩⟩
        (fun st₀ b s' hb hP hok => by
          obtain ⟨hFD', hIF', hOcc', _, _⟩ :=
            initFilesModule_ok hb hP.1 hP.2.1 hP.2.2 hok
          exact ⟨hFD', hIF', hOcc'⟩)
        hst
    exact initFilesModule_error hmid hP.1 hP.2.1 hP.2.2 (hspecs mid hmid)
      hintern hinj herr

end FilePhase6

section FilePhase7

/-- The per-element consequence of one path loop: every offered path
ends up recorded under its own path and the loop's mode. -/
theorem recFold_occ {po : ProjectOptions} {tcd : List (String × List String)}
    {sorted : List MId} {pathToId : List (String × Nat)} {c : CompileMode}
    {mid : MId} (hmid : mid ∈ sorted) (paths : List String)
    (hdecl : ∀ path ∈ paths, declaredOccurs po tcd path c)
    (hintern : ∀ pa cc, declaredOccurs po tcd pa cc →
      (mget pathToId pa).isSome)
    (hinj : ∀ p₁ p₂ n, mget pathToId p₁ = some n →
      mget pathToId p₂ = some n → p₁ = p₂)
    {acc acc' : List FId × List (FId × JsFile) × List (FId × List FId)}
    (h : paths.foldlM (recStep pathToId c mid) acc = .ok acc')
    (hP0 : RecInv po tcd sorted pathToId acc) :
    ∀ path ∈ paths, ∃ f, mget acc'.2.1 (mget pathToId path) = some f ∧
      f.path = path ∧ f.compileMode = c := by
  have := foldlM_except_inv_elem (recStep pathToId c mid)
    (RecInv po tcd sorted pathToId)
    (fun path acc => ∃ f, mget acc.2.1 (mget pathToId path) = some f ∧
      f.path = path ∧ f.compileMode = c)
    paths acc acc' hP0
    (fun st b s' hb hP hok =>
      (recStep_pres hmid (hdecl b hb) hP hok).1)
    (fun st b s' hb hP hok => by
      obtain ⟨files', occs', hrec, hacc'⟩ := recStep_ok hok
      obtain ⟨f₁, hf₁, hfp, hfc⟩ :=
        recordFile_path_mode hP.1 (hdecl b hb) hintern hinj hrec
      subst hacc'
      exact ⟨f₁, hf₁, hfp, hfc⟩)
    (fun st b b' s' hb hb' hP hQ hok => by
      obtain ⟨f₀, hf₀, hfp, hfc⟩ := hQ
      obtain ⟨_, hstab⟩ := recStep_pres hmid (hdecl b' hb') hP hok
      obtain ⟨f₁, hf₁, hp₁, hc₁⟩ := hstab _ f₀ hf₀
      exact ⟨f₁, hf₁, by rw [hp₁, hfp], by rw [hc₁, hfc]⟩)
    h
  exact this.2

/-- One successful module iteration records every occurrence of its
spec under the right path and mode. -/
theorem initFilesModule_occ {po : ProjectOptions}
    {tcd : List (String × List String)} {ms : List (MId × JsModule)}
    {pathToId : List (String × Nat)} {sorted : List MId}
    {st st' : InitFilesState} {mid : MId}
    (hmid : mid ∈ sorted)
    (hFD : FDInv st.files st.fileDeps)
    (hIF : IFiles po tcd sorted pathToId st.files)
    (hOcc : OccInv st.files st.occs)
    (hintern : ∀ pa cc, declaredOccurs po tcd pa cc →
      (mget pathToId pa).isSome)
    (hinj : ∀ p₁ p₂ n, mget pathToId p₁ = some n →
      mget pathToId p₂ = some n → p₁ = p₂)
    (h : initFilesModule po tcd ms pathToId st mid = .ok st') :
    ∀ path c, specOccurs po tcd (((mget ms mid).getD default).name) path c →
      ∃ f, mget st'.files (mget pathToId path) = some f ∧ f.path = path ∧
        f.compileMode = c := by
  rw [initFilesModule_eqR] at h
  unfold initFilesModuleR at h
  cases hspec0 : mget po.jsModules (((mget ms mid).getD default).name) with
  | none =>
    rw [hspec0] at h
    cases h
  | some moduleSpec =>
    rw [hspec0] at h
    dsimp only at h
    have hsmem : ((((mget ms mid).getD default).name, moduleSpec) :
        String × ModuleSpec) ∈ po.jsModules :=
      mem_of_mget_eq_some _ _ _ hspec0
    have hdecl1 : ∀ path ∈ moduleSpec.dontCompileInputFiles,
        declaredOccurs po tcd path CompileMode.uncompiled :=
      fun path hp => ⟨_, hsmem, Or.inl ⟨rfl, hp⟩⟩
    have hdecl2 : ∀ path ∈ moduleSpec.nonClosureNamespacedInputFiles,
        declaredOccurs po tcd path CompileMode.nonNamespaced :=
      fun path hp => ⟨_, hsmem, Or.inr (Or.inl ⟨rfl, hp⟩)⟩
    have hdecl3 : ∀ path ∈ (mget tcd
        (((mget ms mid).getD default).name)).getD [],
        declaredOccurs po tcd path CompileMode.closure :=
      fun path hp => ⟨_, hsmem, Or.inr (Or.inr ⟨rfl, hp⟩)⟩
    have hseed1 : ∀ d ∈ (((mget ms mid).getD default).moduleDeps.foldl
        (fun acc depModule =>
          addSetValues
            ((mget st.fileDeps depModule).getD default).uncompiled acc) []),
        d ∈ keysOf st.files := by
      intro d hd
      rcases (mem_foldl_addSetValuesG _ _ _ _).mp hd with hd | ⟨dm, _, hd⟩
      · cases hd
      · cases hfd : mget st.fileDeps dm with
        | none =>
          rw [hfd] at hd
          cases hd
        | some fd =>
          rw [hfd] at hd
          exact (hFD (dm, fd) (mem_of_mget_eq_some _ _ _ hfd)).1 d hd
    cases h1 : moduleSpec.dontCompileInputFiles.foldlM
        (recStep pathToId CompileMode.uncompiled mid)
        (((mget ms mid).getD default).moduleDeps.foldl
          (fun acc depModule =>
            addSetValues
              ((mget st.fileDeps depModule).getD default).uncompiled acc) [],
          st.files, st.occs) with
    | error e1 =>
      rw [h1] at h
      dsimp only [Bind.bind, Except.bind] at h
      cases h
    | ok st1 =>
    rw [h1] at h
    dsimp only [Bind.bind, Except.bind] at h
    obtain ⟨hIF1, hOcc1, hdb1, hmono1, hstab1⟩ :=
      recFold_inv hmid moduleSpec.dontCompileInputFiles hdecl1 _ st1
        hIF hOcc hseed1 h1
    have hocc1 := recFold_occ hmid moduleSpec.dontCompileInputFiles hdecl1
      hintern hinj h1 ⟨hIF, hOcc, hseed1⟩
    have hseed2 : ∀ d ∈ (((mget ms mid).getD default).moduleDeps.foldl
        (fun acc depModule =>
          addSetValues
            ((mget st.fileDeps depModule).getD
              default).uncompiledAndNonNamespaced acc)
        (deepClone st1.1)),
        d ∈ keysOf st1.2.1 := by
      intro d hd
      rcases (mem_foldl_addSetValuesG _ _ _ _).mp hd with hd | ⟨dm, _, hd⟩
      · exact hdb1 d hd
      · cases hfd : mget st.fileDeps dm with
        | none =>
          rw [hfd] at hd
          cases hd
        | some fd =>
          rw [hfd] at hd
          exact hmono1 d
            ((hFD (dm, fd) (mem_of_mget_eq_some _ _ _ hfd)).2 d hd)
    cases h2 : moduleSpec.nonClosureNamespacedInputFiles.foldlM
        (recStep pathToId CompileMode.nonNamespaced mid)
        (((mget ms mid).getD default).moduleDeps.foldl
          (fun acc depModule =>
            addSetValues
              ((mget st.fileDeps depModule).getD
                default).uncompiledAndNonNamespaced acc)
          (deepClone st1.1),
          st1.2.1, st1.2.2) with
    | error e2 =>
      rw [h2] at h
      dsimp only [Bind.bind, Except.bind] at h
      cases h
    | ok st2 =>
    rw [h2] at h
    dsimp only [Bind.bind, Except.bind] at h
    obtain ⟨hIF2, hOcc2, hdb2, hmono2, hstab2⟩ :=
      recFold_inv hmid moduleSpec.nonClosureNamespacedInputFiles hdecl2
        (((mget ms mid).getD default).moduleDeps.foldl
          (fun acc depModule =>
            addSetValues
              ((mget st.fileDeps depModule).getD
                default).uncompiledAndNonNamespaced acc)
          (deepClone st1.1),
          st1.2.1, st1.2.2) st2
        hIF1 hOcc1 hseed2 h2
    have hocc2 := recFold_occ hmid moduleSpec.nonClosureNamespacedInputFiles
      hdecl2 hintern hinj h2 ⟨hIF1, hOcc1, hseed2⟩
    cases h3 : ((mget tcd (((mget ms mid).getD default).name)).getD
        []).foldlM (recStep pathToId CompileMode.closure mid)
        (deepClone st2.1, st2.2.1, st2.2.2) with
    | error e3 =>
      rw [h3] at h
      dsimp only [Bind.bind, Except.bind] at h
      cases h
    | ok st3 =>
    rw [h3] at h
    dsimp only [Bind.bind, Except.bind, Pure.pure, Except.pure] at h
    cases h
    obtain ⟨hIF3, hOcc3, hdb3, hmono3, hstab3⟩ :=
      recFold_inv hmid _ hdecl3
        (deepClone st2.1, st2.2.1, st2.2.2) st3 hIF2 hOcc2
        (fun d hd => hdb2 d hd) h3
    have hocc3 := recFold_occ hmid
      ((mget tcd (((mget ms mid).getD default).name)).getD [])
      hdecl3 hintern hinj h3 ⟨hIF2, hOcc2, fun d hd => hdb2 d hd⟩
    intro path c hso
    obtain ⟨spec, hspec', hcase⟩ := hso
    have hspeceq : spec = moduleSpec := by
      rw [hspec0] at hspec'
      exact (Option.some.inj hspec').symm
    subst hspeceq
    rcases hcase with ⟨hc, hp⟩ | ⟨hc, hp⟩ | ⟨hc, hp⟩
    · subst hc
      obtain ⟨f₁, hf₁, hp₁, hc₁⟩ := hocc1 path hp
      obtain ⟨f₂, hf₂, hp₂, hc₂⟩ := hstab2 _ f₁ hf₁
      obtain ⟨f₃, hf₃, hp₃, hc₃⟩ := hstab3 _ f₂ hf₂
      exact ⟨f₃, hf₃, by rw [hp₃, hp₂, hp₁], by rw [hc₃, hc₂, hc₁]⟩
    · subst hc
      obtain ⟨f₂, hf₂, hp₂, hc₂⟩ := hocc2 path hp
      obtain ⟨f₃, hf₃, hp₃, hc₃⟩ := hstab3 _ f₂ hf₂
      exact ⟨f₃, hf₃, by rw [hp₃, hp₂], by rw [hc₃, hc₂]⟩
    · subst hc
      exact hocc3 path hp

/-- After a successful `initFiles`, every declared occurrence of every
processed module is recorded under its own path and mode. -/
theorem initFiles_ok_every_occurrence {po : ProjectOptions}
    {tcd : List (String × List String)} {ms : List (MId × JsModule)}
    {sorted : List MId} {pathToId : List (String × Nat)}
    {files0 : List (FId × JsFile)} {occs : List (FId × List FId)}
    (hintern : ∀ pa cc, declaredOccurs po tcd pa cc →
      (mget pathToId pa).isSome)
    (hinj : ∀ p₁ p₂ n, mget pathToId p₁ = some n →
      mget pathToId p₂ = some n → p₁ = p₂)
    (h : initFiles po tcd ms sorted pathToId = .ok (files0, occs)) :
    ∀ mid ∈ sorted, ∀ path c,
      specOccurs po tcd (((mget ms mid).getD default).name) path c →
      ∃ f, mget files0 (mget pathToId path) = some f ∧ f.path = path ∧
        f.compileMode = c := by
  unfold initFiles at h
  cases hst : sorted.foldlM (initFilesModule po tcd ms pathToId)
      ⟨[], [], []⟩ with
  | error e =>
    rw [hst] at h
    dsimp only [Bind.bind, Except.bind] at h
    cases h
  | ok st =>
    rw [hst] at h
    dsimp only [Bind.bind, Except.bind, Pure.pure, Except.pure] at h
    have hfiles : st.files = files0 := congrArg Prod.fst (Except.ok.inj h)
    have := foldlM_except_inv_elem (initFilesModule po tcd ms pathToId)
      (fun st => FDInv st.files st.fileDeps ∧
        IFiles po tcd sorted pathToId st.files ∧ OccInv st.files st.occs)
      (fun mid st => ∀ path c,
        specOccurs po tcd (((mget ms mid).getD default).name) path c →
        ∃ f, mget st.files (mget pathToId path) = some f ∧ f.path = path ∧
          f.compileMode = c)
      sorted ⟨[], [], []⟩ st
      ⟨fun q hq => absurd hq (List.not_mem_nil q),
        ⟨List.nodup_nil, fun q hq => absurd hq (List.not_mem_nil q)⟩,
        fun fid => ⟨fun _ => rfl, fun f hf => by cases hf⟩⟩
      (fun st₀ b s' hb hP hok => by
        obtain ⟨hFD', hIF', hOcc', _, _⟩ :=
          initFilesModule_ok hb hP.1 hP.2.1 hP.2.2 hok
        exact ⟨hFD', hIF', hOcc'⟩)
      (fun st₀ b s' hb hP hok =>
        initFilesModule_occ hb hP.1 hP.2.1 hP.2.2 hintern hinj hok)
      (fun st₀ b b' s' hb hb' hP hQ hok => by
        intro path c hso
        obtain ⟨f₀, hf₀, hfp, hfc⟩ := hQ path c hso
        obtain ⟨_, _, _, _, hstab⟩ :=
          initFilesModule_ok hb' hP.1 hP.2.1 hP.2.2 hok
        obtain ⟨f₁, hf₁, hp₁, hc₁⟩ := hstab _ f₀ hf₀
        exact ⟨f₁, hf₁, by rw [hp₁, hfp], by rw [hc₁, hfc]⟩)
      hst
    intro mid hmid path c hso
    rw [← hfiles]
    exact this.2 mid hmid path c hso

end FilePhase7

section SolveErrors

theorem calcInputFiles_error_iff {po : ProjectOptions}
    {tcd : List (String × List String)} {e : JsErr} :
    calcInputFiles po tcd = .error e ↔ solve po tcd = .error e := by
  unfold calcInputFiles
  cases h : solve po tcd with
  | ok s =>
    dsimp only [Except.map]
    constructor
    · intro hh
      cases hh
    · intro hh
      cases hh
  | error e' =>
    dsimp only [Except.map]
    constructor
    · intro hh
      rw [Except.error.inj hh]
    · intro hh
      rw [Except.error.inj hh]

/-- If the module stages succeed but `initFiles` throws, `solve` throws
the same error. -/
theorem solve_error_of_initFiles_error {po : ProjectOptions}
    {tcd : List (String × List String)} {ms0 ms : List (MId × JsModule)}
    {sorted : List MId} {e : JsErr}
    (h0 : initModules po (indexModules po) = .ok ms0)
    (h1 : getSortedModuleIds ms0 = .ok sorted)
    (h2 : fillInTransitiveModuleDeps ms0 sorted = .ok ms)
    (he : initFiles po tcd ms sorted (indexFiles po tcd) = .error e) :
    solve po tcd = .error e := by
  unfold solve
  dsimp only
  rw [h0]
  dsimp only [Bind.bind, Except.bind]
  rw [h1]
  dsimp only [Bind.bind, Except.bind]
  rw [h2]
  dsimp only [Bind.bind, Except.bind]
  rw [he]

/-- Where each possible error of `solve` originates. -/
theorem solve_error_cases {po : ProjectOptions}
    {tcd : List (String × List String)} {e : JsErr}
    (h : solve po tcd = .error e) :
    initModules po (indexModules po) = .error e ∨
    (∃ ms0, initModules po (indexModules po) = .ok ms0 ∧
      getSortedModuleIds ms0 = .error e) ∨
    (∃ ms0 sorted, initModules po (indexModules po) = .ok ms0 ∧
      getSortedModuleIds ms0 = .ok sorted ∧
      fillInTransitiveModuleDeps ms0 sorted = .error e) ∨
    (∃ ms0 sorted ms, initModules po (indexModules po) = .ok ms0 ∧
      getSortedModuleIds ms0 = .ok sorted ∧
      fillInTransitiveModuleDeps ms0 sorted = .ok ms ∧
      initFiles po tcd ms sorted (indexFiles po tcd) = .error e) ∨
    (∃ ms0 sorted ms files0 occs,
      initModules po (indexModules po) = .ok ms0 ∧
      getSortedModuleIds ms0 = .ok sorted ∧
      fillInTransitiveModuleDeps ms0 sorted = .ok ms ∧
      initFiles po tcd ms sorted (indexFiles po tcd) = .ok (files0, occs) ∧
      getSortedFileIds files0 = .error e) ∨
    (∃ ms0 sorted ms files0 occs sortedFileIds,
      initModules po (indexModules po) = .ok ms0 ∧
      getSortedModuleIds ms0 = .ok sorted ∧
      fillInTransitiveModuleDeps ms0 sorted = .ok ms ∧
      initFiles po tcd ms sorted (indexFiles po tcd) = .ok (files0, occs) ∧
      getSortedFileIds files0 = .ok sortedFileIds ∧
      calcInputs ms sorted files0 sortedFileIds = .error e) := by
  unfold solve at h
  dsimp only at h
  cases g0 : initModules po (indexModules po) with
  | error e0 =>
    rw [g0] at h
    dsimp only [Bind.bind, Except.bind] at h
    exact Or.inl (by rw [Except.error.inj h])
  | ok ms0 =>
  rw [g0] at h
  dsimp only [Bind.bind, Except.bind] at h
  cases g1 : getSortedModuleIds ms0 with
  | error e1 =>
    rw [g1] at h
    dsimp only [Bind.bind, Except.bind] at h
    exact Or.inr (Or.inl ⟨ms0, rfl, by rw [g1, Except.error.inj h]⟩)
  | ok sorted =>
  rw [g1] at h
  dsimp only [Bind.bind, Except.bind] at h
  cases g2 : fillInTransitiveModuleDeps ms0 sorted with
  | error e2 =>
    rw [g2] at h
    dsimp only [Bind.bind, Except.bind] at h
    exact Or.inr (Or.inr (Or.inl ⟨ms0, sorted, rfl, g1,
      by rw [g2, Except.error.inj h]⟩))
  | ok ms =>
  rw [g2] at h
  dsimp only [Bind.bind, Except.bind] at h
  cases g3 : initFiles po tcd ms sorted (indexFiles po tcd) with
  | error e3 =>
    rw [g3] at h
    dsimp only [Bind.bind, Except.bind] at h
    exact Or.inr (Or.inr (Or.inr (Or.inl ⟨ms0, sorted, ms, rfl, g1, g2,
      by rw [g3, Except.error.inj h]⟩)))
  | ok fo =>
  rw [g3] at h
  obtain ⟨files0, occs⟩ := fo
  dsimp only [Bind.bind, Except.bind] at h
  cases g4 : getSortedFileIds files0 with
  | error e4 =>
    rw [g4] at h
    dsimp only [Bind.bind, Except.bind] at h
    exact Or.inr (Or.inr (Or.inr (Or.inr (Or.inl ⟨ms0, sorted, ms, files0,
      occs, rfl, g1, g2, g3, by rw [g4, Except.error.inj h]⟩))))
  | ok sortedFileIds =>
  rw [g4] at h
  dsimp only [Bind.bind, Except.bind] at h
  cases g5 : calcInputs ms sorted files0 sortedFileIds with
  | error e5 =>
    rw [g5] at h
    dsimp only [Bind.bind, Except.bind] at h
    exact Or.inr (Or.inr (Or.inr (Or.inr (Or.inr ⟨ms0, sorted, ms, files0,
      occs, sortedFileIds, rfl, g1, g2, g3, g4,
      by rw [g5, Except.error.inj h]⟩))))
  | ok ost =>
    rw [g5] at h
    obtain ⟨output, st⟩ := ost
    dsimp only [Bind.bind, Except.bind, Pure.pure, Except.pure] at h
    cases h

end SolveErrors

/-! ## Claim C8: the mixed-compile-mode error -/

/-- A project with two root modules and a path declared under two
compile classes: the virtual base module is injected, and `initFiles`
crashes with a TypeError on its missing spec before any mixed-mode
check can run. -/
def mixedVbaseProject : ProjectOptions := ⟨[
  ("a", ⟨[], [], ["x.js"]⟩),
  ("b", ⟨[], ["x.js"], []⟩)]⟩

/-- C8 (counterexample to the unconditional claim): on a project whose
root count differs from one, a genuinely mixed path does NOT produce
the mixed-mode error — `calcInputFiles` throws the virtual-base
TypeError first. -/
theorem C8_counterexample :
    calcInputFiles mixedVbaseProject [] = .error .typeError ∧
    declaredOccurs mixedVbaseProject [] "x.js" CompileMode.uncompiled ∧
    declaredOccurs mixedVbaseProject [] "x.js" CompileMode.nonNamespaced ∧
    CompileMode.uncompiled ≠ CompileMode.nonNamespaced := by
  refine ⟨by decide, by decide, by decide, by decide⟩

/-- C8 (amended): under the proviso that the spec lookup succeeds for
every sorted module (true whenever no virtual base module is injected,
i.e. exactly one root exists — otherwise the TypeError of C4 preempts
everything), and with distinct declared module names, `calcInputFiles`
throws a mixed-compile-mode error iff some declared path occurs under
two different compile classes; the named path is always such a path.
In particular a path repeated under a single class never produces the
error. -/
theorem C8_mixed_modes_amended {po : ProjectOptions}
    {tcd : List (String × List String)} {ms0 ms : List (MId × JsModule)}
    {sorted : List MId}
    (hnames : (po.jsModules.map Prod.fst).Nodup)
    (h0 : initModules po (indexModules po) = .ok ms0)
    (h1 : getSortedModuleIds ms0 = .ok sorted)
    (h2 : fillInTransitiveModuleDeps ms0 sorted = .ok ms)
    (hspecs : ∀ mid ∈ sorted,
      (mget po.jsModules (((mget ms mid).getD default).name)).isSome) :
    ((∃ path, calcInputFiles po tcd = .error (.mixedModes path)) ↔
      MixedProject po tcd) ∧
    (∀ path, calcInputFiles po tcd = .error (.mixedModes path) →
      ∃ c₁ c₂, c₁ ≠ c₂ ∧ declaredOccurs po tcd path c₁ ∧
        declaredOccurs po tcd path c₂) := by
  have hintern : ∀ pa cc, declaredOccurs po tcd pa cc →
      (mget (indexFiles po tcd) pa).isSome := by
    intro pa cc hd
    rw [← mem_keysOf_iff_isSome]
    exact declared_path_interned po tcd pa cc hd
  have hinj : ∀ p₁ p₂ n, mget (indexFiles po tcd) p₁ = some n →
      mget (indexFiles po tcd) p₂ = some n → p₁ = p₂ :=
    fun p₁ p₂ n ha hb => indexFiles_val_inj po tcd ha hb
  have hfwd : ∀ path, calcInputFiles po tcd = .error (.mixedModes path) →
      ∃ c₁ c₂, c₁ ≠ c₂ ∧ declaredOccurs po tcd path c₁ ∧
        declaredOccurs po tcd path c₂ := by
    intro path hcalc
    have hsolve := calcInputFiles_error_iff.mp hcalc
    rcases solve_error_cases hsolve with hA |
      ⟨ms0', hA, hB⟩ | ⟨ms0', sorted', hA, hB, hC⟩ |
      ⟨ms0', sorted', ms', hA, hB, hC, hD⟩ |
      ⟨ms0', sorted', ms', files0', occs', hA, hB, hC, hD, hE⟩ |
      ⟨ms0', sorted', ms', files0', occs', sfi', hA, hB, hC, hD, hE, hF⟩
    · rw [h0] at hA
      cases hA
    · rw [h0] at hA
      have := Except.ok.inj hA
      subst this
      rw [h1] at hB
      cases hB
    · rw [h0] at hA
      have := Except.ok.inj hA
      subst this
      rw [h1] at hB
      have := Except.ok.inj hB
      subst this
      rw [h2] at hC
      cases hC
    · rw [h0] at hA
      have := Except.ok.inj hA
      subst this
      rw [h1] at hB
      have := Except.ok.inj hB
      subst this
      rw [h2] at hC
      have := Except.ok.inj hC
      subst this
      obtain ⟨path', c₁, c₂, hne, hd₁, hd₂, he⟩ :=
        initFiles_error_classify hspecs hintern hinj hD
      have hpe : path' = path := (JsErr.mixedModes.inj he).symm
      subst hpe
      exact ⟨c₁, c₂, hne, hd₁, hd₂⟩
    · obtain ⟨paths, he⟩ := getSortedFileIds_error hE
      cases he
    · have := calcInputs_error hF
      cases this
  refine ⟨⟨?_, ?_⟩, hfwd⟩
  · rintro ⟨path, hcalc⟩
    obtain ⟨c₁, c₂, hne, hd₁, hd₂⟩ := hfwd path hcalc
    exact ⟨path, c₁, c₂, hne, hd₁, hd₂⟩
  · rintro ⟨path, c₁, c₂, hne, hd₁, hd₂⟩
    cases hif : initFiles po tcd ms sorted (indexFiles po tcd) with
    | error e =>
      obtain ⟨path', c₁', c₂', hne', hd₁', hd₂', he⟩ :=
        initFiles_error_classify hspecs hintern hinj hif
      refine ⟨path', ?_⟩
      have hsolve := solve_error_of_initFiles_error h0 h1 h2 hif
      rw [he] at hsolve
      exact calcInputFiles_error_iff.mpr hsolve
    | ok fo =>
      exfalso
      obtain ⟨files0, occs⟩ := fo
      obtain ⟨p₁, hp₁, hocc₁⟩ := hd₁
      obtain ⟨p₂, hp₂, hocc₂⟩ := hd₂
      obtain ⟨mid₁, hmid₁, hname₁, hslook₁⟩ :=
        declared_module_in_sorted hnames h0 h1 h2 p₁ hp₁
      obtain ⟨mid₂, hmid₂, hname₂, hslook₂⟩ :=
        declared_module_in_sorted hnames h0 h1 h2 p₂ hp₂
      have hn₁ : ((mget ms mid₁).getD default).name = p₁.1 := hname₁
      have hn₂ : ((mget ms mid₂).getD default).name = p₂.1 := hname₂
      have hso₁ : specOccurs po tcd (((mget ms mid₁).getD default).name)
          path c₁ := by
        refine ⟨p₁.2, hslook₁, ?_⟩
        rcases hocc₁ with ⟨hc, hm⟩ | ⟨hc, hm⟩ | ⟨hc, hm⟩
        · exact Or.inl ⟨hc, hm⟩
        · exact Or.inr (Or.inl ⟨hc, hm⟩)
        · refine Or.inr (Or.inr ⟨hc, ?_⟩)
          rw [hn₁]
          exact hm
      have hso₂ : specOccurs po tcd (((mget ms mid₂).getD default).name)
          path c₂ := by
        refine ⟨p₂.2, hslook₂, ?_⟩
        rcases hocc₂ with ⟨hc, hm⟩ | ⟨hc, hm⟩ | ⟨hc, hm⟩
        · exact Or.inl ⟨hc, hm⟩
        · exact Or.inr (Or.inl ⟨hc, hm⟩)
        · refine Or.inr (Or.inr ⟨hc, ?_⟩)
          rw [hn₂]
          exact hm
      obtain ⟨f₁, hf₁, hfp₁, hfc₁⟩ :=
        initFiles_ok_every_occurrence hintern hinj hif mid₁ hmid₁ path c₁
          hso₁
      obtain ⟨f₂, hf₂, hfp₂, hfc₂⟩ :=
        initFiles_ok_every_occurrence hintern hinj hif mid₂ hmid₂ path c₂
          hso₂
      have hff : f₁ = f₂ := Option.some.inj (hf₁.symm.trans hf₂)
      apply hne
      rw [← hfc₁, hff, hfc₂]

/-- A single-root project offering the same path under two compile
classes (the virtual-base proviso of the amended C8 is met). -/
def mixedOkProject : ProjectOptions := ⟨[("m", ⟨[], ["x.js"], ["x.js"]⟩)]⟩

def mixedMs0 : List (MId × JsModule) :=
  getOk (initModules mixedOkProject (indexModules mixedOkProject))

def mixedSorted : List MId := getOk (getSortedModuleIds mixedMs0)

def mixedMs : List (MId × JsModule) :=
  getOk (fillInTransitiveModuleDeps mixedMs0 mixedSorted)

set_option maxHeartbeats 1000000 in
/-- Witness for C8 on `mixedOkProject`: the amended theorem applies (all
hypotheses hold by evaluation) and yields the mixed-mode error. -/
theorem C8_witness :
    ∃ path, calcInputFiles mixedOkProject [] = .error (.mixedModes path) :=
  (C8_mixed_modes_amended (by decide)
    (show initModules mixedOkProject (indexModules mixedOkProject) =
      .ok mixedMs0 from rfl)
    (show getSortedModuleIds mixedMs0 = .ok mixedSorted from rfl)
    (show fillInTransitiveModuleDeps mixedMs0 mixedSorted = .ok mixedMs
      from rfl)
    (by decide)).1.mpr
    ⟨"x.js", CompileMode.uncompiled, CompileMode.nonNamespaced,
      by decide, by decide, by decide⟩

section PlacePhase1

theorem perm_insertSortedBy {α : Type} (le : α → α → Bool) (x : α)
    (l : List α) : (insertSortedBy le x l).Perm (x :: l) := by
  induction l with
  | nil => exact List.Perm.refl _
  | cons y ys ih =>
    rw [insertSortedBy]
    by_cases hle : le y x
    · rw [if_pos hle]
      exact (ih.cons y).trans (List.Perm.swap x y ys)
    · rw [if_neg hle]

theorem perm_sortBy {α : Type} (le : α → α → Bool) (l : List α) :
    (sortBy le l).Perm l := by
  have hgo : ∀ (acc : List α),
      (l.foldl (fun acc x => insertSortedBy le x acc) acc).Perm (l ++ acc) := by
    induction l with
    | nil => intro acc; exact List.Perm.refl _
    | cons x xs ih =>
      intro acc
      rw [List.foldl_cons]
      refine (ih (insertSortedBy le x acc)).trans ?_
      refine (List.Perm.append_left xs (perm_insertSortedBy le x acc)).trans
        ?_
      exact List.perm_middle
  have := hgo []
  rw [List.append_nil] at this
  exact this

theorem mem_takeWhile_mem {α : Type} {p : α → Bool} {l : List α} {x : α}
    (h : x ∈ l.takeWhile p) : x ∈ l := by
  induction l with
  | nil => cases h
  | cons y ys ih =>
    rw [List.takeWhile] at h
    cases hp : p y with
    | false =>
      rw [hp] at h
      cases h
    | true =>
      rw [hp] at h
      rcases List.mem_cons.mp h with rfl | h'
      · exact List.mem_cons_self _ _
      · exact List.mem_cons_of_mem _ (ih h')

/-- Whatever `chooseLowestModules` returns comes from the given set. -/
theorem chooseLowestModules_ok_subset {ms : List (MId × JsModule)}
    {moduleSet : List MId} {r : List MId}
    (h : chooseLowestModules ms moduleSet = .ok r) : ∀ x ∈ r, x ∈ moduleSet := by
  unfold chooseLowestModules at h
  dsimp only at h
  cases hl : (sortBy jsDefaultSortLe (moduleSet.map (fun moduleId =>
      (((mget ms moduleId).getD default).transitiveModuleDeps.length,
        moduleId)))).getLast? with
  | none =>
    rw [hl] at h
    cases h
  | some lastPair =>
    rw [hl] at h
    intro x hx
    rw [← Except.ok.inj h] at hx
    rcases List.mem_map.mp hx with ⟨p, hp, hpx⟩
    have hp' : p ∈ sortBy jsDefaultSortLe (moduleSet.map (fun moduleId =>
        (((mget ms moduleId).getD default).transitiveModuleDeps.length,
          moduleId))) :=
      List.mem_reverse.mp (mem_takeWhile_mem hp)
    have hp'' := (perm_sortBy jsDefaultSortLe _).subset hp'
    rcases List.mem_map.mp hp'' with ⟨mid, hmid, hmp⟩
    rw [← hpx, ← hmp]
    exact hmid

/-- Soundness of the intersection fold of `calcLcaModules`. -/
theorem foldInter_mem (ms : List (MId × JsModule)) (l : List MId)
    (acc : Option (List MId)) (c : List MId)
    (h : l.foldl (fun acc moduleId =>
      match acc with
      | none => some (((mget ms moduleId).getD default).transitiveModuleDeps)
      | some c => some (intersectSets c
          (((mget ms moduleId).getD default).transitiveModuleDeps))) acc =
      some c)
    (x : MId) (hx : x ∈ c) :
    (∀ mm ∈ l, x ∈ transOf ms mm) ∧ (∀ c0, acc = some c0 → x ∈ c0) := by
  induction l generalizing acc with
  | nil =>
    simp only [List.foldl_nil] at h
    subst h
    exact ⟨fun mm hmm => absurd hmm (List.not_mem_nil mm),
      fun c0 hc0 => by rw [Option.some.inj hc0] at hx; exact hx⟩
  | cons mm rest ih =>
    rw [List.foldl_cons] at h
    cases acc with
    | none =>
      obtain ⟨hrest, hacc⟩ := ih _ h
      have hxm : x ∈ transOf ms mm := hacc _ rfl
      refine ⟨?_, fun c0 hc0 => by cases hc0⟩
      intro mm' hmm'
      rcases List.mem_cons.mp hmm' with rfl | hmm''
      · exact hxm
      · exact hrest mm' hmm''
    | some c0 =>
      obtain ⟨hrest, hacc⟩ := ih _ h
      have hxi : x ∈ intersectSets c0
          (((mget ms mm).getD default).transitiveModuleDeps) := hacc _ rfl
      rw [mem_intersectSets] at hxi
      refine ⟨?_, fun c1 hc1 => by
        rw [← Option.some.inj hc1]
        exact hxi.1⟩
      intro mm' hmm'
      rcases List.mem_cons.mp hmm' with rfl | hmm''
      · exact hxi.2
      · exact hrest mm' hmm''

/-- `underscore.min` returns an element of the list. -/
theorem underscoreMin_mem {α : Type} {l : List α} {f : α → Nat} {m : α}
    (h : underscoreMin l f = some m) : m ∈ l := by
  unfold underscoreMin at h
  rcases Option.map_eq_some'.mp h with ⟨q, hq, hqm⟩
  have hgo : ∀ (l' : List α) (acc : Option (α × Nat)) (q' : α × Nat),
      l'.foldl (fun best x =>
        match best with
        | none => some (x, f x)
        | some (bx, bv) =>
          if f x < bv then some (x, f x) else some (bx, bv)) acc =
        some q' →
      q'.1 ∈ l' ∨ ∃ bv, acc = some (q'.1, bv) := by
    intro l'
    induction l' with
    | nil =>
      intro acc q' h'
      simp only [List.foldl_nil] at h'
      subst h'
      exact Or.inr ⟨q'.2, rfl⟩
    | cons x xs ih =>
      intro acc q' h'
      rw [List.foldl_cons] at h'
      rcases ih _ _ h' with hmem | ⟨bv, hacc⟩
      · exact Or.inl (List.mem_cons_of_mem _ hmem)
      · cases acc with
        | none =>
          have : x = q'.1 := by
            have := congrArg (fun o => (Option.map Prod.fst o)) hacc
            simpa using this
          exact Or.inl (this ▸ List.mem_cons_self _ _)
        | some p =>
          obtain ⟨bx, bv0⟩ := p
          dsimp only at hacc
          by_cases hlt : f x < bv0
          · rw [if_pos hlt] at hacc
            have : x = q'.1 := by
              have := congrArg (fun o => (Option.map Prod.fst o)) hacc
              simpa using this
            exact Or.inl (this ▸ List.mem_cons_self _ _)
          · rw [if_neg hlt] at hacc
            have : bx = q'.1 := by
              have := congrArg (fun o => (Option.map Prod.fst o)) hacc
              simpa using this
            exact Or.inr ⟨bv0, by rw [this]⟩
  rcases hgo l none q hq with hmem | ⟨bv, hacc⟩
  · rw [← hqm]
    exact hmem
  · cases hacc

theorem sadd_idem {α : Type} [DecidableEq α] (s : List α) (k : α) :
    sadd (sadd s k) k = sadd s k := by
  rw [sadd, if_pos self_mem_sadd]

theorem mget_fold_mupd_mem_idem {α β : Type} [DecidableEq α]
    (l : List α) (f : β → β) (m : List (α × β)) (k : α)
    (hid : ∀ v, f (f v) = f v) (hk : k ∈ l) :
    mget (l.foldl (fun acc x => mupd acc x f) m) k = (mget m k).map f := by
  induction l generalizing m with
  | nil => cases hk
  | cons x xs ih =>
    rw [List.foldl_cons]
    by_cases hks : k ∈ xs
    · rw [ih _ hks]
      by_cases hkx : x = k
      · rw [hkx, mget_mupd_self]
        cases mget m k with
        | none => rfl
        | some v =>
          simp only [Option.map_some']
          rw [hid v]
      · rw [mget_mupd_ne _ _ _ _ hkx]
    · have hkx : x = k := by
        rcases List.mem_cons.mp hk with rfl | h'
        · rfl
        · exact absurd h' hks
      rw [mget_fold_mupd_not_mem _ _ _ _ hks, hkx, mget_mupd_self]

theorem keysOf_fold_mupd {α β : Type} [DecidableEq α]
    (l : List α) (f : β → β) (m : List (α × β)) :
    keysOf (l.foldl (fun acc x => mupd acc x f) m) = keysOf m := by
  induction l generalizing m with
  | nil => rfl
  | cons x xs ih => rw [List.foldl_cons, ih, keysOf_mupd]

/-- Building a fresh map by `mset` over distinct keys is just a map. -/
theorem foldl_mset_fresh {β : Type}
    (l : List (MId × JsModule)) (g : MId × JsModule → β) :
    ∀ (acc : List (MId × β)),
    (∀ p ∈ l, p.1 ∉ keysOf acc) → (keysOf l).Nodup →
    l.foldl (fun acc p => mset acc p.1 (g p)) acc =
      acc ++ l.map (fun p => (p.1, g p)) := by
  induction l with
  | nil =>
    intro acc _ _
    simp
  | cons p ps ih =>
    intro acc hfresh hnd
    rw [List.foldl_cons,
      mset_not_mem_eq_append _ _ _ (hfresh p (List.mem_cons_self _ _)),
      ih (acc ++ [(p.1, g p)]) ?_ ?_]
    · simp
    · intro q hq
      rw [show keysOf (acc ++ [(p.1, g p)]) = keysOf acc ++ [p.1] by
        simp [keysOf]]
      intro hmem
      rcases List.mem_append.mp hmem with hmem | hmem
      · exact hfresh q (List.mem_cons_of_mem _ hq) hmem
      · rw [List.mem_singleton] at hmem
        rw [keysOf_cons, List.nodup_cons] at hnd
        exact hnd.1 (hmem ▸ List.mem_map_of_mem Prod.fst hq)
    · rw [keysOf_cons, List.nodup_cons] at hnd
      exact hnd.2

end PlacePhase1

section PlacePhase2

/-- The memoization invariant: every memoized candidate list consists
of common transitive ancestors of its key set. -/
def MemoInv (ms : List (MId × JsModule))
    (memo : List (List MId × List MId)) : Prop :=
  ∀ q ∈ memo, ∀ x ∈ q.2, ∀ mm ∈ q.1, x ∈ transOf ms mm

theorem calcLcaModules_ok {ms : List (MId × JsModule)}
    {files : List (FId × JsFile)} {memo : List (List MId × List MId)}
    {fid : FId} {lca : List MId} {memo' : List (List MId × List MId)}
    (hmemo : MemoInv ms memo)
    (h : calcLcaModules ms files memo fid = .ok (lca, memo')) :
    (∀ x ∈ lca, ∀ mm ∈ ((mget files fid).getD default).neededInModules,
      x ∈ transOf ms mm) ∧ MemoInv ms memo' := by
  unfold calcLcaModules at h
  dsimp only at h
  cases hm : mget memo (serializeModuleSet
      ((mget files fid).getD default).neededInModules) with
  | some v =>
    rw [hm] at h
    have hl : lca = v := (congrArg Prod.fst (Except.ok.inj h)).symm
    have hme : memo' = memo := (congrArg Prod.snd (Except.ok.inj h)).symm
    subst hl hme
    refine ⟨?_, hmemo⟩
    intro x hx mm hmm
    have hkey : mm ∈ serializeModuleSet
        ((mget files fid).getD default).neededInModules :=
      (perm_sortBy _ _).mem_iff.mpr hmm
    exact hmemo _ (mem_of_mget_eq_some _ _ _ hm) x hx mm hkey
  | none =>
    rw [hm] at h
    cases hcl : chooseLowestModules ms
        ((((mget files fid).getD default).neededInModules.foldl
          (fun acc moduleId =>
            match acc with
            | none => some (((mget ms moduleId).getD
                default).transitiveModuleDeps)
            | some c => some (intersectSets c
                (((mget ms moduleId).getD
                  default).transitiveModuleDeps)))
          none).getD []) with
    | error e =>
      rw [hcl] at h
      cases h
    | ok lcaM =>
      rw [hcl] at h
      have hl : lca = lcaM := (congrArg Prod.fst (Except.ok.inj h)).symm
      have hme : memo' = mset memo (serializeModuleSet
          ((mget files fid).getD default).neededInModules) lcaM :=
        (congrArg Prod.snd (Except.ok.inj h)).symm
      subst hl
      have hsub := chooseLowestModules_ok_subset hcl
      have hprop : ∀ x ∈ lca, ∀ mm ∈
          ((mget files fid).getD default).neededInModules,
          x ∈ transOf ms mm := by
        intro x hx mm hmm
        have hx' := hsub x hx
        cases hcd : ((mget files fid).getD default).neededInModules.foldl
            (fun acc moduleId =>
              match acc with
              | none => some (((mget ms moduleId).getD
                  default).transitiveModuleDeps)
              | some c => some (intersectSets c
                  (((mget ms moduleId).getD
                    default).transitiveModuleDeps)))
            none with
        | none =>
          rw [hcd] at hx'
          cases hx'
        | some c =>
          rw [hcd] at hx'
          exact (foldInter_mem ms _ none c hcd x hx').1 mm hmm
      refine ⟨hprop, ?_⟩
      subst hme
      have hnew : serializeModuleSet
          ((mget files fid).getD default).neededInModules ∉ keysOf memo := by
        rw [mem_keysOf_iff_isSome, hm]
        simp
      rw [mset_not_mem_eq_append _ _ _ hnew]
      intro q hq
      rcases List.mem_append.mp hq with hq | hq
      · exact hmemo q hq
      · rw [List.mem_singleton] at hq
        subst hq
        intro x hx mm hmm
        exact hprop x hx mm ((perm_sortBy _ _).mem_iff.mp hmm)

theorem chooseModuleFor_ok {ms : List (MId × JsModule)}
    {files : List (FId × JsFile)} {memo : List (List MId × List MId)}
    {fid : FId} {best : MId} {memo' : List (List MId × List MId)}
    (hmemo : MemoInv ms memo)
    (h : chooseModuleFor ms files memo fid = .ok (best, memo')) :
    (∀ mm ∈ ((mget files fid).getD default).neededInModules,
      best ∈ transOf ms mm) ∧ MemoInv ms memo' := by
  unfold chooseModuleFor at h
  cases hl : calcLcaModules ms files memo fid with
  | error e =>
    rw [hl] at h
    dsimp only [Bind.bind, Except.bind] at h
    cases h
  | ok lm =>
    rw [hl] at h
    obtain ⟨lca, memo₁⟩ := lm
    dsimp only [Bind.bind, Except.bind] at h
    obtain ⟨hlca, hminv⟩ := calcLcaModules_ok hmemo hl
    have hbest_mem : best ∈ lca ∧ memo' = memo₁ := by
      cases lca with
      | nil =>
        dsimp only at h
        cases hmin : underscoreMin [] (numMovesRequired files fid) with
        | some m =>
          rw [hmin] at h
          dsimp only [Pure.pure, Except.pure] at h
          refine ⟨?_, (congrArg Prod.snd (Except.ok.inj h)).symm⟩
          have hm : m = best := congrArg Prod.fst (Except.ok.inj h)
          rw [← hm]
          exact underscoreMin_mem hmin
        | none =>
          rw [hmin] at h
          cases h
      | cons x rest =>
        cases rest with
        | nil =>
          dsimp only [Pure.pure, Except.pure] at h
          refine ⟨?_, (congrArg Prod.snd (Except.ok.inj h)).symm⟩
          have hm : x = best := congrArg Prod.fst (Except.ok.inj h)
          rw [← hm]
          exact List.mem_singleton.mpr rfl
        | cons y rest' =>
          dsimp only at h
          cases hmin : underscoreMin (x :: y :: rest')
              (numMovesRequired files fid) with
          | some m =>
            rw [hmin] at h
            dsimp only [Pure.pure, Except.pure] at h
            refine ⟨?_, (congrArg Prod.snd (Except.ok.inj h)).symm⟩
            have hm : m = best := congrArg Prod.fst (Except.ok.inj h)
            rw [← hm]
            exact underscoreMin_mem hmin
          | none =>
            rw [hmin] at h
            cases h
    obtain ⟨hbm, hmm⟩ := hbest_mem
    subst hmm
    exact ⟨fun mm hmm' => hlca best hbm mm hmm', hminv⟩

/-- Decomposition of a successful `calcInputs`. -/
theorem calcInputs_ok {ms : List (MId × JsModule)}
    {sortedModuleIds : List MId} {files0 : List (FId × JsFile)}
    {sortedFileIds : List FId} {output : List ModuleOutput} {st : PlaceState}
    (h : calcInputs ms sortedModuleIds files0 sortedFileIds =
      .ok (output, st)) :
    sortedFileIds.reverse.foldlM (placeOne ms)
      ⟨files0, [], ms.foldl (fun acc p =>
        mset acc p.1 ⟨p.2.name, [], []⟩) [], []⟩ = .ok st ∧
    output = sortedModuleIds.map (fun moduleId =>
      (mget st.inputsByModule moduleId).getD default) := by
  unfold calcInputs at h
  dsimp only at h
  cases hst : sortedFileIds.reverse.foldlM (placeOne ms)
      ⟨files0, [], ms.foldl (fun acc p =>
        mset acc p.1 ⟨p.2.name, [], []⟩) [], []⟩ with
  | error e =>
    rw [hst] at h
    dsimp only [Bind.bind, Except.bind] at h
    cases h
  | ok st' =>
    rw [hst] at h
    dsimp only [Bind.bind, Except.bind, Pure.pure, Except.pure] at h
    have h1 : sortedModuleIds.map (fun moduleId =>
        (mget st'.inputsByModule moduleId).getD default) = output :=
      congrArg Prod.fst (Except.ok.inj h)
    have h2 : st' = st := congrArg Prod.snd (Except.ok.inj h)
    subst h2
    exact ⟨rfl, h1.symm⟩

end PlacePhase2

section PlacePhase3

/-- The path recorded for a file ID. -/
def pathOf (files0 : List (FId × JsFile)) (fid : FId) : String :=
  ((mget files0 fid).getD default).path

/-- The compile mode recorded for a file ID. -/
def modeOf (files0 : List (FId × JsFile)) (fid : FId) : CompileMode :=
  ((mget files0 fid).getD default).compileMode

/-- The uncompiled bucket determined by the placements: paths of the
files of `l` placed in `k` with mode Uncompiled, in the order of `l`. -/
def bucketD (files0 : List (FId × JsFile)) (pl : List (FId × MId))
    (l : List FId) (k : MId) : List String :=
  (l.filter (fun fid => decide (mget pl fid = some k) &&
    decide (modeOf files0 fid = CompileMode.uncompiled))).map
    (pathOf files0)

/-- The compiled bucket: paths of the files of `l` placed in `k` with a
mode other than Uncompiled, in the order of `l`. -/
def bucketC (files0 : List (FId × JsFile)) (pl : List (FId × MId))
    (l : List FId) (k : MId) : List String :=
  (l.filter (fun fid => decide (mget pl fid = some k) &&
    decide (¬ modeOf files0 fid = CompileMode.uncompiled))).map
    (pathOf files0)

theorem bucketD_cons (files0 : List (FId × JsFile)) (pl : List (FId × MId))
    (l : List FId) (k : MId) (fid : FId) :
    bucketD files0 pl (fid :: l) k =
      if mget pl fid = some k ∧ modeOf files0 fid = CompileMode.uncompiled
      then pathOf files0 fid :: bucketD files0 pl l k
      else bucketD files0 pl l k := by
  by_cases h1 : mget pl fid = some k
  · by_cases h2 : modeOf files0 fid = CompileMode.uncompiled
    · rw [if_pos ⟨h1, h2⟩]
      unfold bucketD
      rw [List.filter_cons_of_pos (by simp [h1, h2]), List.map_cons]
    · rw [if_neg (fun hh => h2 hh.2)]
      unfold bucketD
      rw [List.filter_cons_of_neg (by simp [h2])]
  · rw [if_neg (fun hh => h1 hh.1)]
    unfold bucketD
    rw [List.filter_cons_of_neg (by simp [h1])]

theorem bucketC_cons (files0 : List (FId × JsFile)) (pl : List (FId × MId))
    (l : List FId) (k : MId) (fid : FId) :
    bucketC files0 pl (fid :: l) k =
      if mget pl fid = some k ∧ ¬ modeOf files0 fid = CompileMode.uncompiled
      then pathOf files0 fid :: bucketC files0 pl l k
      else bucketC files0 pl l k := by
  by_cases h1 : mget pl fid = some k
  · by_cases h2 : modeOf files0 fid = CompileMode.uncompiled
    · rw [if_neg (fun hh => hh.2 h2)]
      unfold bucketC
      rw [List.filter_cons_of_neg (by simp [h2])]
    · rw [if_pos ⟨h1, h2⟩]
      unfold bucketC
      rw [List.filter_cons_of_pos (by simp [h1, h2]), List.map_cons]
  · rw [if_neg (fun hh => h1 hh.1)]
    unfold bucketC
    rw [List.filter_cons_of_neg (by simp [h1])]

theorem bucketD_congr (files0 : List (FId × JsFile))
    {pl pl' : List (FId × MId)} (l : List FId) (k : MId)
    (h : ∀ x ∈ l, mget pl' x = mget pl x) :
    bucketD files0 pl' l k = bucketD files0 pl l k := by
  unfold bucketD
  congr 1
  apply List.filter_congr
  intro x hx
  rw [h x hx]

theorem bucketC_congr (files0 : List (FId × JsFile))
    {pl pl' : List (FId × MId)} (l : List FId) (k : MId)
    (h : ∀ x ∈ l, mget pl' x = mget pl x) :
    bucketC files0 pl' l k = bucketC files0 pl l k := by
  unfold bucketC
  congr 1
  apply List.filter_congr
  intro x hx
  rw [h x hx]

/-- The placement-loop invariant, relative to the context of a
successful run: `done` is the already-processed prefix of the
reverse-ordered file list. -/
def PlaceInv (ms : List (MId × JsModule)) (sorted : List MId)
    (files0 : List (FId × JsFile)) (done : List FId)
    (st : PlaceState) : Prop :=
  keysOf st.files = keysOf files0 ∧
  (∀ fid, (mget st.files fid).map
      (fun f => (f.path, f.compileMode, f.inferredDeps)) =
    (mget files0 fid).map
      (fun f => (f.path, f.compileMode, f.inferredDeps))) ∧
  (∀ q ∈ st.files, q.2.neededInModules ≠ [] ∧
    ∀ mm ∈ q.2.neededInModules, mm ∈ sorted) ∧
  MemoInv ms st.memo ∧
  st.placements.map Prod.fst = done ∧
  keysOf st.inputsByModule = keysOf ms ∧
  (∀ k, (mget st.inputsByModule k).map ModuleOutput.name =
    (mget ms k).map JsModule.name) ∧
  (∀ k r, mget st.inputsByModule k = some r →
    r.dontCompileInputFiles = bucketD files0 st.placements done.reverse k ∧
    r.compiledInputFiles = bucketC files0 st.placements done.reverse k) ∧
  (∀ p ∈ st.placements,
    p.2 ∈ ((mget st.files p.1).getD default).neededInModules ∧
    ∀ mm ∈ ((mget st.files p.1).getD default).neededInModules,
      p.2 ∈ transOf ms mm)

/-- Decomposition of one successful placement step. -/
theorem placeOne_ok {ms : List (MId × JsModule)} {st st' : PlaceState}
    {fid : FId} (h : placeOne ms st fid = .ok st') :
    ∃ best memo',
      chooseModuleFor ms st.files st.memo fid = .ok (best, memo') ∧
      st' = ⟨(if best ∈ ((mget st.files fid).getD default).neededInModules
          then st.files
          else ((mget st.files fid).getD default).inferredDeps.foldl
            (fun fs inferredDep => mupd fs inferredDep (fun f =>
              { f with neededInModules := sadd f.neededInModules best }))
            (mupd st.files fid (fun f =>
              { f with neededInModules := sadd f.neededInModules best }))),
        memo',
        (if ((mget st.files fid).getD default).compileMode =
            CompileMode.uncompiled
          then mupd st.inputsByModule best (fun r =>
            { r with dontCompileInputFiles :=
              ((mget st.files fid).getD default).path ::
                r.dontCompileInputFiles })
          else mupd st.inputsByModule best (fun r =>
            { r with compiledInputFiles :=
              ((mget st.files fid).getD default).path ::
                r.compiledInputFiles })),
        st.placements ++ [(fid, best)]⟩ := by
  unfold placeOne at h
  dsimp only at h
  cases hc : chooseModuleFor ms st.files st.memo fid with
  | error e =>
    rw [hc] at h
    dsimp only [Bind.bind, Except.bind] at h
    cases h
  | ok bm =>
    rw [hc] at h
    obtain ⟨best, memo'⟩ := bm
    dsimp only [Bind.bind, Except.bind, Pure.pure, Except.pure] at h
    exact ⟨best, memo', rfl, (Except.ok.inj h).symm⟩

end PlacePhase3

section PlacePhase4

/-- The placement loop maintains `PlaceInv` along the processed prefix
of the reverse file order. -/
theorem placeLoop_go (ms : List (MId × JsModule)) (sorted : List MId)
    (files0 : List (FId × JsFile)) (sortedFileIds : List FId)
    (hmsperm : sorted.Perm (keysOf ms))
    (hself : ∀ mid ∈ sorted, mid ∈ transOf ms mid)
    (htrans_sorted : ∀ mid x, x ∈ transOf ms mid → x = mid ∨ x ∈ sorted)
    (hfnd : (keysOf files0).Nodup)
    (hIFq : ∀ q ∈ files0, q.1 ∉ q.2.inferredDeps)
    (hsfperm : sortedFileIds.Perm (keysOf files0))
    (hsfnd : sortedFileIds.Nodup)
    (hsfidx : ∀ fid ∈ sortedFileIds,
      ∀ d ∈ ((mget files0 fid).getD default).inferredDeps,
        fidIndex sortedFileIds d < fidIndex sortedFileIds fid) :
    ∀ (rest done : List FId) (st stF : PlaceState),
    sortedFileIds.reverse = done ++ rest →
    PlaceInv ms sorted files0 done st →
    rest.foldlM (placeOne ms) st = .ok stF →
    PlaceInv ms sorted files0 (done ++ rest) stF := by
  intro rest
  induction rest with
  | nil =>
    intro done st stF hsp hinv h
    simp only [List.foldlM_nil] at h
    cases h
    rw [List.append_nil]
    exact hinv
  | cons fid rest' ih =>
    intro done st stF hsp hinv h
    rw [List.foldlM_cons] at h
    cases hstep : placeOne ms st fid with
    | error e =>
      rw [hstep] at h
      dsimp only [Bind.bind, Except.bind] at h
      cases h
    | ok st1 =>
    rw [hstep] at h
    dsimp only [Bind.bind, Except.bind] at h
    obtain ⟨hK, hS, hN, hM, hP, hIK, hIN, hIB, hPL⟩ := hinv
    obtain ⟨best, memo', hchoose, hst1⟩ := placeOne_ok hstep
    subst hst1
    -- the processed file is a recorded file
    have hfid_sf : fid ∈ sortedFileIds := by
      apply List.mem_reverse.mp
      rw [hsp]
      exact List.mem_append.mpr (Or.inr (List.mem_cons_self _ _))
    have hfid_keys : fid ∈ keysOf files0 := hsfperm.subset hfid_sf
    have hfcur_ex : (mget st.files fid).isSome := by
      rw [← mem_keysOf_iff_isSome, hK]
      exact hfid_keys
    obtain ⟨fcur, hfcur⟩ := Option.isSome_iff_exists.mp hfcur_ex
    have hf0_ex : (mget files0 fid).isSome := by
      rw [← mem_keysOf_iff_isSome]
      exact hfid_keys
    obtain ⟨f0, hf0⟩ := Option.isSome_iff_exists.mp hf0_ex
    have hstr : (fcur.path, fcur.compileMode, fcur.inferredDeps) =
        (f0.path, f0.compileMode, f0.inferredDeps) := by
      have hx := hS fid
      rw [hfcur, hf0] at hx
      exact Option.some.inj hx
    have hpath : fcur.path = f0.path := congrArg (fun t => t.1) hstr
    have hmode : fcur.compileMode = f0.compileMode :=
      congrArg (fun t => t.2.1) hstr
    have hinfd : fcur.inferredDeps = f0.inferredDeps :=
      congrArg (fun t => t.2.2) hstr
    have hneed := hN (fid, fcur) (mem_of_mget_eq_some _ _ _ hfcur)
    obtain ⟨hbset0, hminv'⟩ := chooseModuleFor_ok hM hchoose
    have hbset : ∀ mm ∈ fcur.neededInModules, best ∈ transOf ms mm := by
      intro mm hmm
      have hx := hbset0 mm
      rw [hfcur] at hx
      exact hx hmm
    have hbest_sorted : best ∈ sorted := by
      obtain ⟨mm₀, hmm₀⟩ := List.exists_mem_of_ne_nil _ hneed.1
      rcases htrans_sorted mm₀ best (hbset mm₀ hmm₀) with rfl | hh
      · exact hneed.2 _ hmm₀
      · exact hh
    have hbest_keys : best ∈ keysOf ms := hmsperm.subset hbest_sorted
    have hbest_self : best ∈ transOf ms best := hself best hbest_sorted
    -- split of the sorted order around the processed file
    have hsf_eq : sortedFileIds = rest'.reverse ++ fid :: done.reverse := by
      have hc := congrArg List.reverse hsp
      rw [List.reverse_reverse] at hc
      rw [hc, List.reverse_append, List.reverse_cons, List.append_assoc,
        List.singleton_append]
    have hsplit_nd : (rest'.reverse ++ fid :: done.reverse).Nodup := by
      rw [← hsf_eq]
      exact hsfnd
    obtain ⟨hndL, hndFD, hdisj⟩ := List.nodup_append.mp hsplit_nd
    have hfid_notin_L : fid ∉ rest'.reverse := by
      intro hh
      exact hdisj hh (List.mem_cons_self _ _)
    have hfid_notin_done : fid ∉ done := by
      intro hh
      exact (List.nodup_cons.mp hndFD).1 (List.mem_reverse.mpr hh)
    have hidx_fid : fidIndex sortedFileIds fid = rest'.reverse.length := by
      unfold fidIndex
      rw [hsf_eq, List.indexOf_append_of_not_mem hfid_notin_L,
        List.indexOf_cons_self, Nat.add_zero]
    have hidx_done : ∀ x ∈ done,
        rest'.reverse.length < fidIndex sortedFileIds x := by
      intro x hx
      have hxD : x ∈ done.reverse := List.mem_reverse.mpr hx
      have hxnotL : x ∉ rest'.reverse := fun hh =>
        hdisj hh (List.mem_cons_of_mem _ hxD)
      have hxnefid : fid ≠ x := fun hh =>
        (List.nodup_cons.mp hndFD).1 (hh ▸ hxD)
      unfold fidIndex
      rw [hsf_eq, List.indexOf_append_of_not_mem hxnotL,
        List.indexOf_cons_ne _ hxnefid]
      omega
    have hdep_notin_done : ∀ d ∈ f0.inferredDeps, d ∉ done := by
      intro d hd hmem
      have hlt := hsfidx fid hfid_sf d (by rw [hf0]; exact hd)
      rw [hidx_fid] at hlt
      have hgt := hidx_done d hmem
      omega
    -- fold the components of the new state
    set g := (fun (f : JsFile) =>
      { f with neededInModules := sadd f.neededInModules best }) with hgdef
    have hgetD : (mget st.files fid).getD default = fcur := by
      rw [hfcur]
      rfl
    set FS := (if best ∈ ((mget st.files fid).getD default).neededInModules
        then st.files
        else ((mget st.files fid).getD default).inferredDeps.foldl
          (fun fs inferredDep => mupd fs inferredDep g)
          (mupd st.files fid g)) with hFS
    set IB := (if ((mget st.files fid).getD default).compileMode =
          CompileMode.uncompiled
        then mupd st.inputsByModule best (fun r =>
          { r with dontCompileInputFiles :=
            ((mget st.files fid).getD default).path ::
              r.dontCompileInputFiles })
        else mupd st.inputsByModule best (fun r =>
          { r with compiledInputFiles :=
            ((mget st.files fid).getD default).path ::
              r.compiledInputFiles })) with hIB2
    set PL := st.placements ++ [(fid, best)] with hPL2
    have hg_idem : ∀ v, g (g v) = g v := by
      intro v
      rw [hgdef]
      dsimp only
      rw [sadd_idem]
    have hfid_not_deps : fid ∉ fcur.inferredDeps := by
      rw [hinfd]
      exact hIFq (fid, f0) (mem_of_mget_eq_some _ _ _ hf0)
    rw [hgetD] at hFS hIB2
    have hFS_facts :
        keysOf FS = keysOf st.files ∧
        (∀ x, mget FS x = mget st.files x ∨
          mget FS x = (mget st.files x).map g) ∧
        (∀ x ∈ done, mget FS x = mget st.files x) ∧
        (∃ fafter, mget FS fid = some fafter ∧
          best ∈ fafter.neededInModules ∧
          (∀ mm ∈ fafter.neededInModules, best ∈ transOf ms mm)) := by
      by_cases hbestIn : best ∈ fcur.neededInModules
      · rw [if_pos hbestIn] at hFS
        refine ⟨by rw [hFS], fun x => Or.inl (by rw [hFS]),
          fun x _ => by rw [hFS], fcur, by rw [hFS]; exact hfcur,
          hbestIn, hbset⟩
      · rw [if_neg hbestIn] at hFS
        refine ⟨by rw [hFS, keysOf_fold_mupd, keysOf_mupd], ?_, ?_, ?_⟩
        · intro x
          by_cases hx1 : x = fid
          · subst hx1
            refine Or.inr ?_
            rw [hFS, mget_fold_mupd_not_mem _ _ _ _ hfid_not_deps,
              mget_mupd_self]
          · by_cases hx2 : x ∈ fcur.inferredDeps
            · refine Or.inr ?_
              rw [hFS, mget_fold_mupd_mem_idem _ _ _ _ hg_idem hx2,
                mget_mupd_ne _ _ _ _ (fun hh => hx1 hh.symm)]
            · refine Or.inl ?_
              rw [hFS, mget_fold_mupd_not_mem _ _ _ _ hx2,
                mget_mupd_ne _ _ _ _ (fun hh => hx1 hh.symm)]
        · intro x hx
          have hx1 : x ≠ fid := fun hh => hfid_notin_done (hh ▸ hx)
          have hx2 : x ∉ fcur.inferredDeps := by
            rw [hinfd]
            intro hh
            exact hdep_notin_done x hh hx
          rw [hFS, mget_fold_mupd_not_mem _ _ _ _ hx2,
            mget_mupd_ne _ _ _ _ (fun hh => hx1 hh.symm)]
        · refine ⟨g fcur, ?_, ?_, ?_⟩
          · rw [hFS, mget_fold_mupd_not_mem _ _ _ _ hfid_not_deps,
              mget_mupd_self, hfcur]
            rfl
          · exact self_mem_sadd
          · intro mm hmm
            have hmm' : mm ∈ sadd fcur.neededInModules best := hmm
            rcases mem_sadd.mp hmm' with hmm'' | rfl
            · exact hbset mm hmm''
            · exact hbest_self
    have hmap_tr : ∀ (o : Option JsFile),
        (o.map g).map (fun f => (f.path, f.compileMode, f.inferredDeps)) =
        o.map (fun f => (f.path, f.compileMode, f.inferredDeps)) := by
      intro o
      cases o with
      | none => rfl
      | some v => rfl
    have hgrow : ∀ x f', mget FS x = some f' →
        ∃ fx, mget st.files x = some fx ∧ (f' = fx ∨ f' = g fx) := by
      intro x f' hx'
      rcases hFS_facts.2.1 x with hh | hh
      · rw [hh] at hx'
        exact ⟨f', hx', Or.inl rfl⟩
      · rw [hh] at hx'
        rcases Option.map_eq_some'.mp hx' with ⟨fx, hfx, hgfx⟩
        exact ⟨fx, hfx, Or.inr hgfx.symm⟩
    -- placement lookups
    have hplkeys : keysOf st.placements = done := hP
    have hpl_fid : mget PL fid = some best := by
      rw [hPL2, mget_append_right _ _ _ (by
          rw [hplkeys]
          exact hfid_notin_done), mget_cons, if_pos rfl]
    have hpl_old : ∀ x ∈ done, mget PL x = mget st.placements x := by
      intro x hx
      rw [hPL2]
      apply mget_append_left
      rw [hplkeys]
      exact hx
    have hpl_old' : ∀ x ∈ done.reverse, mget PL x = mget st.placements x :=
      fun x hx => hpl_old x (List.mem_reverse.mp hx)
    -- mode and path of the processed file
    have hmodeOf : modeOf files0 fid = fcur.compileMode := by
      unfold modeOf
      rw [hf0, Option.getD_some]
      exact hmode.symm
    have hpathOf : pathOf files0 fid = fcur.path := by
      unfold pathOf
      rw [hf0, Option.getD_some]
      exact hpath.symm
    -- the output records
    have hbest_ib : (mget st.inputsByModule best).isSome := by
      rw [← mem_keysOf_iff_isSome, hIK]
      exact hbest_keys
    obtain ⟨r0, hr0⟩ := Option.isSome_iff_exists.mp hbest_ib
    obtain ⟨hr0D, hr0C⟩ := hIB best r0 hr0
    have hIB_facts : keysOf IB = keysOf st.inputsByModule ∧
        (∀ k, (mget IB k).map ModuleOutput.name =
          (mget st.inputsByModule k).map ModuleOutput.name) ∧
        (∀ k r', mget IB k = some r' →
          r'.dontCompileInputFiles =
            bucketD files0 PL (fid :: done.reverse) k ∧
          r'.compiledInputFiles =
            bucketC files0 PL (fid :: done.reverse) k) := by
      by_cases hmu : fcur.compileMode = CompileMode.uncompiled
      · rw [if_pos hmu] at hIB2
        refine ⟨by rw [hIB2, keysOf_mupd], ?_, ?_⟩
        · intro k
          by_cases hk : k = best
          · rw [hk, hIB2, mget_mupd_self, hr0]
            rfl
          · rw [hIB2, mget_mupd_ne _ _ _ _ (fun hh => hk hh.symm)]
        · intro k r' hr'
          by_cases hk : k = best
          · subst hk
            rw [hIB2, mget_mupd_self, hr0] at hr'
            have hr'' := Option.some.inj hr'
            constructor
            · rw [← hr'']
              show fcur.path :: r0.dontCompileInputFiles = _
              rw [bucketD_cons, if_pos ⟨hpl_fid, by rw [hmodeOf]; exact hmu⟩,
                hpathOf, hr0D]
              rw [bucketD_congr files0 done.reverse k hpl_old']
            · rw [← hr'']
              show r0.compiledInputFiles = _
              rw [bucketC_cons, if_neg (fun hh => hh.2 (by
                  rw [hmodeOf]
                  exact hmu)), hr0C]
              rw [bucketC_congr files0 done.reverse k hpl_old']
          · rw [hIB2, mget_mupd_ne _ _ _ _ (fun hh => hk hh.symm)] at hr'
            obtain ⟨hD, hC⟩ := hIB k r' hr'
            constructor
            · rw [hD, bucketD_cons, if_neg (fun hh =>
                hk (Option.some.inj (hpl_fid.symm.trans hh.1)).symm)]
              rw [bucketD_congr files0 done.reverse k hpl_old']
            · rw [hC, bucketC_cons, if_neg (fun hh =>
                hk (Option.some.inj (hpl_fid.symm.trans hh.1)).symm)]
              rw [bucketC_congr files0 done.reverse k hpl_old']
      · rw [if_neg hmu] at hIB2
        refine ⟨by rw [hIB2, keysOf_mupd], ?_, ?_⟩
        · intro k
          by_cases hk : k = best
          · rw [hk, hIB2, mget_mupd_self, hr0]
            rfl
          · rw [hIB2, mget_mupd_ne _ _ _ _ (fun hh => hk hh.symm)]
        · intro k r' hr'
          by_cases hk : k = best
          · subst hk
            rw [hIB2, mget_mupd_self, hr0] at hr'
            have hr'' := Option.some.inj hr'
            constructor
            · rw [← hr'']
              show r0.dontCompileInputFiles = _
              rw [bucketD_cons, if_neg (fun hh => hmu (by
                  rw [← hmodeOf]
                  exact hh.2)), hr0D]
              rw [bucketD_congr files0 done.reverse k hpl_old']
            · rw [← hr'']
              show fcur.path :: r0.compiledInputFiles = _
              rw [bucketC_cons, if_pos ⟨hpl_fid, by
                  rw [hmodeOf]
                  exact hmu⟩, hpathOf, hr0C]
              rw [bucketC_congr files0 done.reverse k hpl_old']
          · rw [hIB2, mget_mupd_ne _ _ _ _ (fun hh => hk hh.symm)] at hr'
            obtain ⟨hD, hC⟩ := hIB k r' hr'
            constructor
            · rw [hD, bucketD_cons, if_neg (fun hh =>
                hk (Option.some.inj (hpl_fid.symm.trans hh.1)).symm)]
              rw [bucketD_congr files0 done.reverse k hpl_old']
            · rw [hC, bucketC_cons, if_neg (fun hh =>
                hk (Option.some.inj (hpl_fid.symm.trans hh.1)).symm)]
              rw [bucketC_congr files0 done.reverse k hpl_old']
    have hrev : (done ++ [fid]).reverse = fid :: done.reverse := by
      rw [List.reverse_append]
      rfl
    -- the invariant after this step
    have hinv1 : PlaceInv ms sorted files0 (done ++ [fid])
        ⟨FS, memo', IB, PL⟩ := by
      refine ⟨?_, ?_, ?_, hminv', ?_, ?_, ?_, ?_, ?_⟩
      · show keysOf FS = keysOf files0
        rw [hFS_facts.1, hK]
      · intro x
        show (mget FS x).map _ = _
        rcases hFS_facts.2.1 x with hh | hh
        · rw [hh]
          exact hS x
        · rw [hh, hmap_tr]
          exact hS x
      · intro q hq
        have hFSnd : (keysOf FS).Nodup := by
          rw [hFS_facts.1, hK]
          exact hfnd
        have hq' : mget FS q.1 = some q.2 :=
          mget_eq_some_of_mem_nodup _ _ _ hFSnd hq
        obtain ⟨fx, hfx, hcase⟩ := hgrow q.1 q.2 hq'
        obtain ⟨hne, hsub⟩ := hN (q.1, fx) (mem_of_mget_eq_some _ _ _ hfx)
        rcases hcase with rfl | hgfx
        · exact ⟨hne, hsub⟩
        · rw [hgfx]
          refine ⟨?_, ?_⟩
          · exact fun hh => sadd_ne_nil hh
          · intro mm hmm
            have hmm' : mm ∈ sadd fx.neededInModules best := hmm
            rcases mem_sadd.mp hmm' with hmm'' | rfl
            · exact hsub mm hmm''
            · exact hbest_sorted
      · show PL.map Prod.fst = done ++ [fid]
        rw [hPL2, List.map_append, hP]
        rfl
      · show keysOf IB = keysOf ms
        rw [hIB_facts.1, hIK]
      · intro k
        show (mget IB k).map _ = _
        rw [hIB_facts.2.1 k]
        exact hIN k
      · intro k r hr
        rw [hrev]
        exact hIB_facts.2.2 k r hr
      · intro p hp
        rcases List.mem_append.mp hp with hp' | hp'
        · have hp1done : p.1 ∈ done := by
            rw [← hP]
            exact List.mem_map_of_mem Prod.fst hp'
          show p.2 ∈ ((mget FS p.1).getD default).neededInModules ∧ _
          rw [hFS_facts.2.2.1 p.1 hp1done]
          exact hPL p hp'
        · rw [List.mem_singleton] at hp'
          subst hp'
          obtain ⟨fafter, hfa, hfa1, hfa2⟩ := hFS_facts.2.2.2
          show best ∈ ((mget FS fid).getD default).neededInModules ∧ _
          rw [hfa]
          exact ⟨hfa1, hfa2⟩
    have hll : done ++ fid :: rest' = (done ++ [fid]) ++ rest' := by
      rw [List.append_assoc, List.singleton_append]
    rw [hll]
    exact ih (done ++ [fid]) ⟨FS, memo', IB, PL⟩ stF
      (by rw [hsp, hll]) hinv1 h

end PlacePhase4

section SolveFinal

/-- The list of all input paths a solve emits, in output order. -/
def emittedPaths (out : List ModuleOutput) : List String :=
  (out.map (fun r => r.compiledInputFiles ++ r.dontCompileInputFiles)).flatten

/-- `indexOf` over the `DecidableEq`-derived `BEq` instance (the
instance every decidable-equality rewrite in this file uses). -/
def idxOfD {α : Type} [DecidableEq α] (l : List α) (x : α) : Nat :=
  @List.indexOf α instBEqOfDecidableEq x l

/-- Position of a path in an emitted bucket. -/
def pidx (l : List String) (x : String) : Nat := idxOfD l x

theorem idxOfD_cons_self {α : Type} [DecidableEq α] (a : α) (l : List α) :
    idxOfD (a :: l) a = 0 := by
  unfold idxOfD
  rw [List.indexOf_cons_self]

theorem idxOfD_cons_ne {α : Type} [DecidableEq α] {a b : α} (l : List α)
    (h : b ≠ a) : idxOfD (b :: l) a = idxOfD l a + 1 := by
  unfold idxOfD
  rw [List.indexOf_cons_ne _ h]

theorem idxOfD_getElem {α : Type} [DecidableEq α] :
    ∀ (l : List α), l.Nodup → ∀ (i : Nat) (hi : i < l.length),
      idxOfD l (l.get ⟨i, hi⟩) = i := by
  intro l
  induction l with
  | nil =>
    intro _ i hi
    exact absurd hi (Nat.not_lt_zero i)
  | cons a l' ih =>
    intro hnd i hi
    cases i with
    | zero => exact idxOfD_cons_self a l'
    | succ j =>
      have hj : j < l'.length := Nat.lt_of_succ_lt_succ hi
      have hmem : l'.get ⟨j, hj⟩ ∈ l' := l'.get_mem _ _
      have hne : a ≠ l'.get ⟨j, hj⟩ := fun hh =>
        (List.nodup_cons.mp hnd).1 (hh ▸ hmem)
      rw [show (a :: l').get ⟨j + 1, hi⟩ = l'.get ⟨j, hj⟩ from rfl,
        idxOfD_cons_ne l' hne, ih (List.nodup_cons.mp hnd).2 j hj]

theorem pairwise_idxOfD {α : Type} [DecidableEq α] (l : List α)
    (hnd : l.Nodup) :
    l.Pairwise (fun a b => idxOfD l a < idxOfD l b) := by
  rw [List.pairwise_iff_get]
  intro i j hij
  rw [idxOfD_getElem l hnd i.1 i.2, idxOfD_getElem l hnd j.1 j.2]
  exact hij

theorem idxOfD_lt_of_pairwise {α : Type} [DecidableEq α] {w : α → Nat} :
    ∀ {L : List α}, L.Pairwise (fun a b => w a < w b) →
    ∀ {a b : α}, a ∈ L → b ∈ L → w a < w b → idxOfD L a < idxOfD L b := by
  intro L
  induction L with
  | nil =>
    intro _ a b ha
    exact absurd ha (List.not_mem_nil a)
  | cons c L' ih =>
    intro hp a b ha hb hw
    obtain ⟨hc, hp'⟩ := List.pairwise_cons.mp hp
    by_cases hac : a = c
    · have hbne : c ≠ b := fun hh =>
        Nat.lt_irrefl _ (by rw [hac, hh] at hw; exact hw)
      have hb' : b ∈ L' := by
        rcases List.mem_cons.mp hb with rfl | hb'
        · exact absurd rfl (fun hh => hbne hh.symm)
        · exact hb'
      rw [hac, idxOfD_cons_self, idxOfD_cons_ne L' hbne]
      exact Nat.succ_pos _
    · have ha' : a ∈ L' := by
        rcases List.mem_cons.mp ha with rfl | ha'
        · exact absurd rfl hac
        · exact ha'
      have hbc : c ≠ b := fun hh =>
        Nat.lt_asymm hw (hh ▸ hc a ha')
      have hb' : b ∈ L' := by
        rcases List.mem_cons.mp hb with rfl | hb'
        · exact absurd rfl (fun hh => hbc hh.symm)
        · exact hb'
      rw [idxOfD_cons_ne L' (fun hh => hac hh.symm), idxOfD_cons_ne L' hbc]
      exact Nat.succ_lt_succ (ih hp' ha' hb' hw)

theorem idxOfD_map_inj {α β : Type} [DecidableEq α] [DecidableEq β]
    (f : α → β) :
    ∀ (L : List α), (∀ x ∈ L, ∀ y ∈ L, f x = f y → x = y) →
    ∀ a ∈ L, idxOfD (L.map f) (f a) = idxOfD L a := by
  intro L
  induction L with
  | nil =>
    intro _ a ha
    exact absurd ha (List.not_mem_nil a)
  | cons c L' ih =>
    intro hinj a ha
    rw [List.map_cons]
    by_cases hac : a = c
    · rw [hac, idxOfD_cons_self, idxOfD_cons_self]
    · have ha' : a ∈ L' := by
        rcases List.mem_cons.mp ha with rfl | ha'
        · exact absurd rfl hac
        · exact ha'
      have hfac : f c ≠ f a := fun hh =>
        hac (hinj c (List.mem_cons_self _ _) a ha hh).symm
      rw [idxOfD_cons_ne (L'.map f) hfac,
        idxOfD_cons_ne L' (fun hh => hac hh.symm),
        ih (fun x hx y hy =>
          hinj x (List.mem_cons_of_mem _ hx) y (List.mem_cons_of_mem _ hy))
          a ha']

/-- Everything established about the final state of a successful
`solve`: the placement invariant at the fully processed reverse order,
the output equation, and the module/file stage facts. -/
theorem solve_final_facts {po : ProjectOptions}
    {tcd : List (String × List String)} {s : Solved}
    (h : solve po tcd = .ok s) :
    ∃ st : PlaceState,
      st.files = s.filesFinal ∧
      st.placements = s.placements ∧
      PlaceInv s.modules s.sortedModuleIds s.files0
        s.sortedFileIds.reverse st ∧
      s.output = s.sortedModuleIds.map (fun mid =>
        (mget st.inputsByModule mid).getD default) ∧
      s.sortedModuleIds.Perm (keysOf s.modules) ∧
      s.sortedModuleIds.Nodup ∧
      (∀ mid, ∀ x ∈ transOf s.modules mid,
        x = mid ∨ (x ∈ s.sortedModuleIds ∧
          s.sortedModuleIds.indexOf x < s.sortedModuleIds.indexOf mid)) ∧
      ((mget s.modules MId.vbase).isSome →
        (mget s.modules MId.vbase).map JsModule.name =
          some VIRTUAL_BASE_MODULE ∧
        ∃ rest, s.sortedModuleIds = MId.vbase :: rest) ∧
      IFiles po tcd s.sortedModuleIds (indexFiles po tcd) s.files0 ∧
      s.sortedFileIds.Perm (keysOf s.files0) ∧
      s.sortedFileIds.Nodup ∧
      (∀ fid ∈ s.sortedFileIds,
        ∀ d ∈ ((mget s.files0 fid).getD default).inferredDeps,
          fidIndex s.sortedFileIds d < fidIndex s.sortedFileIds fid) := by
  obtain ⟨ms0, st, h0, h1, h2, h3, h4, h5, hstf, hstp, hnid, hpid⟩ :=
    solve_ok h
  obtain ⟨hkeys, hndms, hpermM, hndM, hstruct, hself, hprop, hvbs⟩ :=
    moduleStage_facts h0 h1 h2
  obtain ⟨hIF, hOcc⟩ := initFiles_ok_facts h3
  obtain ⟨hsfperm, hsfnd, hsfidx⟩ := getSortedFileIds_ok_facts hIF.1 h4
  obtain ⟨hfold, hout⟩ := calcInputs_ok h5
  have hib0pre := foldl_mset_fresh s.modules
    (fun p => (⟨p.2.name, [], []⟩ : ModuleOutput)) []
    (fun p _ hmem => absurd hmem (List.not_mem_nil _)) hndms
  rw [List.nil_append] at hib0pre
  have hib0 : s.modules.foldl (fun acc p =>
      mset acc p.1 (⟨p.2.name, [], []⟩ : ModuleOutput)) [] =
      s.modules.map (fun p =>
        (p.1, (⟨p.2.name, [], []⟩ : ModuleOutput))) := hib0pre
  have hinv0 : PlaceInv s.modules s.sortedModuleIds s.files0 []
      ⟨s.files0, [], s.modules.foldl (fun acc p =>
        mset acc p.1 ⟨p.2.name, [], []⟩) [], []⟩ := by
    refine ⟨rfl, fun _ => rfl, ?_, ?_, rfl, ?_, ?_, ?_, ?_⟩
    · intro q hq
      exact ⟨(hIF.2 q hq).2.2.1, (hIF.2 q hq).2.2.2.1⟩
    · intro q hq
      exact absurd hq (List.not_mem_nil q)
    · show keysOf (s.modules.foldl _ _) = keysOf s.modules
      rw [hib0, keysOf_map_snd s.modules
        (fun v => (⟨v.name, [], []⟩ : ModuleOutput))]
    · intro k
      show (mget (s.modules.foldl _ _) k).map ModuleOutput.name = _
      rw [hib0, mget_map_snd s.modules
        (fun v => (⟨v.name, [], []⟩ : ModuleOutput)) k]
      cases mget s.modules k with
      | none => rfl
      | some m => rfl
    · intro k r hr
      show r.dontCompileInputFiles = _ ∧ r.compiledInputFiles = _
      rw [hib0, mget_map_snd s.modules
        (fun v => (⟨v.name, [], []⟩ : ModuleOutput)) k] at hr
      cases hm : mget s.modules k with
      | none =>
        rw [hm] at hr
        cases hr
      | some m =>
        rw [hm, Option.map_some'] at hr
        have hrr := Option.some.inj hr
        constructor
        · rw [← hrr]
          rfl
        · rw [← hrr]
          rfl
    · intro p hp
      exact absurd hp (List.not_mem_nil p)
  have hfinal := placeLoop_go s.modules s.sortedModuleIds s.files0
    s.sortedFileIds hpermM hself
    (fun mid x hx => (hprop mid x hx).imp id And.left)
    hIF.1 (fun q hq => (hIF.2 q hq).2.2.2.2.2)
    hsfperm hsfnd hsfidx
    s.sortedFileIds.reverse [] _ st rfl hinv0 hfold
  rw [List.nil_append] at hfinal
  have hvbase : (mget s.modules MId.vbase).isSome →
      (mget s.modules MId.vbase).map JsModule.name =
        some VIRTUAL_BASE_MODULE ∧
      ∃ rest, s.sortedModuleIds = MId.vbase :: rest := by
    intro hvs
    obtain ⟨_, _, _, hvb0⟩ := initModules_ok_facts h0
    have hvs0 : (mget ms0 MId.vbase).isSome := by
      rw [← mem_keysOf_iff_isSome, ← hkeys, mem_keysOf_iff_isSome]
      exact hvs
    obtain ⟨hvb, _⟩ := hvb0 hvs0
    refine ⟨?_, hvbs hvs⟩
    have hst := hstruct MId.vbase
    rw [hvb] at hst
    cases hg : mget s.modules MId.vbase with
    | none =>
      rw [hg] at hvs
      cases hvs
    | some m =>
      rw [hg, Option.map_some'] at hst
      rw [Option.map_some']
      have hm := Option.some.inj hst
      exact congrArg some (congrArg (fun t => t.1) hm)
  exact ⟨st, hstf, hstp, hfinal, hout, hpermM, hndM, hprop, hvbase, hIF,
    hsfperm, hsfnd, hsfidx⟩

end SolveFinal

/-! ## Claim C1: every declared input file is emitted exactly once -/

/-- C1: on every project with distinct declared module names on which
the solve returns normally, the union of all `compiledInputFiles` and
`dontCompileInputFiles` across the returned records has no repeated
path, and a path appears in it exactly when the project declares it
(in some module list or among the transitive Closure deps). -/
theorem C1_unique_complete {po : ProjectOptions}
    {tcd : List (String × List String)} {s : Solved}
    (hnames : (po.jsModules.map Prod.fst).Nodup)
    (h : solve po tcd = .ok s) :
    (emittedPaths s.output).Nodup ∧
    ∀ path, path ∈ emittedPaths s.output ↔
      ∃ c, declaredOccurs po tcd path c := by
  obtain ⟨st, hstf, hstp, hinv, hout, hpermM, hndM, hprop, hvbase, hIF,
    hsfperm, hsfnd, hsfidx⟩ := solve_final_facts h
  obtain ⟨hK, hS, hN, hM, hP, hIK, hIN, hIBk, hPL⟩ := hinv
  rw [List.reverse_reverse] at hIBk
  have hpinj : ∀ x ∈ keysOf s.files0, ∀ y ∈ keysOf s.files0,
      pathOf s.files0 x = pathOf s.files0 y → x = y := by
    intro x hx y hy hxy
    rw [mem_keysOf_iff_isSome] at hx hy
    obtain ⟨fx, hfx⟩ := Option.isSome_iff_exists.mp hx
    obtain ⟨fy, hfy⟩ := Option.isSome_iff_exists.mp hy
    have h1 : mget (indexFiles po tcd) fx.path = x :=
      (hIF.2 (x, fx) (mem_of_mget_eq_some _ _ _ hfx)).1
    have h2 : mget (indexFiles po tcd) fy.path = y :=
      (hIF.2 (y, fy) (mem_of_mget_eq_some _ _ _ hfy)).1
    unfold pathOf at hxy
    rw [hfx, hfy] at hxy
    have hxy' : fx.path = fy.path := hxy
    rw [← h1, ← h2, hxy']
  have hrec : ∀ mid ∈ s.sortedModuleIds,
      mget st.inputsByModule mid =
        some ((mget st.inputsByModule mid).getD default) := by
    intro mid hmid
    have hmk : mid ∈ keysOf st.inputsByModule := by
      rw [hIK]
      exact hpermM.subset hmid
    rw [mem_keysOf_iff_isSome] at hmk
    obtain ⟨r, hr⟩ := Option.isSome_iff_exists.mp hmk
    rw [hr]
    rfl
  have hbuckets : ∀ mid ∈ s.sortedModuleIds,
      ((mget st.inputsByModule mid).getD default).dontCompileInputFiles =
        bucketD s.files0 st.placements s.sortedFileIds mid ∧
      ((mget st.inputsByModule mid).getD default).compiledInputFiles =
        bucketC s.files0 st.placements s.sortedFileIds mid :=
    fun mid hmid => hIBk mid _ (hrec mid hmid)
  have hmem_chunk : ∀ m path,
      (path ∈ bucketC s.files0 st.placements s.sortedFileIds m ++
        bucketD s.files0 st.placements s.sortedFileIds m) ↔
      ∃ fid ∈ s.sortedFileIds, mget st.placements fid = some m ∧
        pathOf s.files0 fid = path := by
    intro m path
    unfold bucketC bucketD
    constructor
    · intro hp
      rcases List.mem_append.mp hp with hp' | hp'
      · obtain ⟨fid, hfid, hpath⟩ := List.mem_map.mp hp'
        have hfid' := List.mem_filter.mp hfid
        have hcond := hfid'.2
        simp only [Bool.and_eq_true, decide_eq_true_eq] at hcond
        exact ⟨fid, hfid'.1, hcond.1, hpath⟩
      · obtain ⟨fid, hfid, hpath⟩ := List.mem_map.mp hp'
        have hfid' := List.mem_filter.mp hfid
        have hcond := hfid'.2
        simp only [Bool.and_eq_true, decide_eq_true_eq] at hcond
        exact ⟨fid, hfid'.1, hcond.1, hpath⟩
    · rintro ⟨fid, hfid, hplm, hpath⟩
      by_cases hmode : modeOf s.files0 fid = CompileMode.uncompiled
      · apply List.mem_append.mpr
        refine Or.inr (List.mem_map.mpr ⟨fid, ?_, hpath⟩)
        apply List.mem_filter.mpr
        refine ⟨hfid, ?_⟩
        simp only [Bool.and_eq_true, decide_eq_true_eq]
        exact ⟨hplm, hmode⟩
      · apply List.mem_append.mpr
        refine Or.inl (List.mem_map.mpr ⟨fid, ?_, hpath⟩)
        apply List.mem_filter.mpr
        refine ⟨hfid, ?_⟩
        simp only [Bool.and_eq_true, decide_eq_true_eq]
        exact ⟨hplm, hmode⟩
  have hemit : emittedPaths s.output =
      (s.sortedModuleIds.map (fun mid =>
        bucketC s.files0 st.placements s.sortedFileIds mid ++
        bucketD s.files0 st.placements s.sortedFileIds mid)).flatten := by
    unfold emittedPaths
    rw [hout, List.map_map]
    congr 1
    apply List.map_congr_left
    intro mid hmid
    show ((mget st.inputsByModule mid).getD default).compiledInputFiles ++
      ((mget st.inputsByModule mid).getD default).dontCompileInputFiles = _
    rw [(hbuckets mid hmid).1, (hbuckets mid hmid).2]
  have hchunk_nodup : ∀ mid,
      (bucketC s.files0 st.placements s.sortedFileIds mid ++
        bucketD s.files0 st.placements s.sortedFileIds mid).Nodup := by
    intro mid
    unfold bucketC bucketD
    rw [← List.map_append]
    apply List.Nodup.map_on
    · intro x hx y hy hxy
      refine hpinj x ?_ y ?_ hxy
      · rcases List.mem_append.mp hx with hh | hh
        · exact hsfperm.subset (List.mem_filter.mp hh).1
        · exact hsfperm.subset (List.mem_filter.mp hh).1
      · rcases List.mem_append.mp hy with hh | hh
        · exact hsfperm.subset (List.mem_filter.mp hh).1
        · exact hsfperm.subset (List.mem_filter.mp hh).1
    · apply List.Nodup.append
      · exact hsfnd.sublist (List.filter_sublist _)
      · exact hsfnd.sublist (List.filter_sublist _)
      · intro x hxC hxD
        have h1 := (List.mem_filter.mp hxC).2
        have h2 := (List.mem_filter.mp hxD).2
        simp only [Bool.and_eq_true, decide_eq_true_eq] at h1 h2
        exact h1.2 h2.2
  have hnodup : (emittedPaths s.output).Nodup := by
    rw [hemit, List.nodup_flatten]
    constructor
    · intro chunk hchunk
      obtain ⟨mid, _, hchunkeq⟩ := List.mem_map.mp hchunk
      rw [← hchunkeq]
      exact hchunk_nodup mid
    · refine List.Pairwise.map _ ?_ hndM
      intro a b hab path hpa hpb
      obtain ⟨fid1, hf1, hm1, hp1⟩ := (hmem_chunk a path).mp hpa
      obtain ⟨fid2, hf2, hm2, hp2⟩ := (hmem_chunk b path).mp hpb
      have heq : fid1 = fid2 := hpinj fid1 (hsfperm.subset hf1) fid2
        (hsfperm.subset hf2) (hp1.trans hp2.symm)
      rw [heq] at hm1
      exact hab (Option.some.inj (hm1.symm.trans hm2))
  have hcomplete : ∀ path, path ∈ emittedPaths s.output ↔
      ∃ c, declaredOccurs po tcd path c := by
    obtain ⟨ms0, st2, h0, h1, h2, h3, _, _, _, _, _, _⟩ := solve_ok h
    intro path
    rw [hemit]
    constructor
    · intro hp
      obtain ⟨chunk, hchunk, hpc⟩ := List.mem_flatten.mp hp
      obtain ⟨mid, hmid, hchunkeq⟩ := List.mem_map.mp hchunk
      rw [← hchunkeq] at hpc
      obtain ⟨fid, hfid, hplm, hpath⟩ := (hmem_chunk mid path).mp hpc
      have hfk : fid ∈ keysOf s.files0 := hsfperm.subset hfid
      rw [mem_keysOf_iff_isSome] at hfk
      obtain ⟨f, hf⟩ := Option.isSome_iff_exists.mp hfk
      refine ⟨f.compileMode, ?_⟩
      have hdecl := (hIF.2 (fid, f) (mem_of_mget_eq_some _ _ _ hf)).2.1
      have hfp : f.path = path := by
        rw [← hpath]
        show f.path = pathOf s.files0 fid
        unfold pathOf
        rw [hf]
        rfl
      rw [← hfp]
      exact hdecl
    · rintro ⟨c, hdecl⟩
      obtain ⟨p, hp, hocc⟩ := hdecl
      obtain ⟨mid, hmid, hname, hspec⟩ :=
        declared_module_in_sorted hnames h0 h1 h2 p hp
      have hso : specOccurs po tcd (((mget s.modules mid).getD default).name)
          path c := by
        refine ⟨p.2, hspec, ?_⟩
        rcases hocc with ⟨hc, hm⟩ | ⟨hc, hm⟩ | ⟨hc, hm⟩
        · exact Or.inl ⟨hc, hm⟩
        · exact Or.inr (Or.inl ⟨hc, hm⟩)
        · refine Or.inr (Or.inr ⟨hc, ?_⟩)
          rw [show ((mget s.modules mid).getD default).name = p.1 from hname]
          exact hm
      have hintern : ∀ pa cc, declaredOccurs po tcd pa cc →
          (mget (indexFiles po tcd) pa).isSome := by
        intro pa cc hd
        rw [← mem_keysOf_iff_isSome]
        exact declared_path_interned po tcd pa cc hd
      obtain ⟨f, hfm, hfp, hfc⟩ := initFiles_ok_every_occurrence hintern
        (fun p₁ p₂ n h₁ h₂ => indexFiles_val_inj po tcd h₁ h₂) h3 mid hmid
        path c hso
      have hfk : mget (indexFiles po tcd) path ∈ keysOf s.files0 := by
        rw [mem_keysOf_iff_isSome, hfm]
        rfl
      have hfsf : mget (indexFiles po tcd) path ∈ s.sortedFileIds :=
        hsfperm.mem_iff.mpr hfk
      have hfpl : mget (indexFiles po tcd) path ∈ keysOf st.placements := by
        rw [show keysOf st.placements = s.sortedFileIds.reverse from hP]
        exact List.mem_reverse.mpr hfsf
      rw [mem_keysOf_iff_isSome] at hfpl
      obtain ⟨m, hm⟩ := Option.isSome_iff_exists.mp hfpl
      have hmm : m ∈ s.sortedModuleIds := by
        obtain ⟨hmn, _⟩ := hPL (mget (indexFiles po tcd) path, m)
          (mem_of_mget_eq_some _ _ _ hm)
        cases hq : mget st.files (mget (indexFiles po tcd) path) with
        | none =>
          rw [hq] at hmn
          exact absurd hmn (List.not_mem_nil m)
        | some fcur =>
          rw [hq] at hmn
          exact (hN (mget (indexFiles po tcd) path, fcur)
            (mem_of_mget_eq_some _ _ _ hq)).2 m hmn
      apply List.mem_flatten.mpr
      refine ⟨bucketC s.files0 st.placements s.sortedFileIds m ++
        bucketD s.files0 st.placements s.sortedFileIds m,
        List.mem_map.mpr ⟨m, hmm, rfl⟩, ?_⟩
      apply (hmem_chunk m path).mpr
      refine ⟨mget (indexFiles po tcd) path, hfsf, hm, ?_⟩
      unfold pathOf
      rw [hfm]
      exact hfp
  exact ⟨hnodup, hcomplete⟩

/-- Witness for C1 on the eleven-module chain project (distinct names,
successful solve): its emission has no repeated path and covers exactly
the declared paths. -/
theorem C1_witness :
    (emittedPaths (getOk (solve chainProject chainDeps)).output).Nodup ∧
    ∀ path,
      path ∈ emittedPaths (getOk (solve chainProject chainDeps)).output ↔
      ∃ c, declaredOccurs chainProject chainDeps path c :=
  C1_unique_complete (by decide)
    (show solve chainProject chainDeps =
      .ok (getOk (solve chainProject chainDeps)) from rfl)

/-! ## Claim C2: placement lies in neededIn and is a common ancestor -/

/-- C2: in every successful solve the files are placed in reverse
file-dependency order (the placement list keys are exactly the reversed
sorted file IDs), and every file's chosen module is a member of the
file's final `neededIn` set and lies in the transitive-ancestor set
(self inclusive) of every module of that final set — the set receives
no placement-relevant additions after the file is placed, so the final
set is the one the choice is measured against. -/
theorem C2_placement_spec {po : ProjectOptions}
    {tcd : List (String × List String)} {s : Solved}
    (h : solve po tcd = .ok s) :
    s.placements.map Prod.fst = s.sortedFileIds.reverse ∧
    ∀ p ∈ s.placements,
      p.2 ∈ ((mget s.filesFinal p.1).getD default).neededInModules ∧
      ∀ mm ∈ ((mget s.filesFinal p.1).getD default).neededInModules,
        p.2 ∈ transOf s.modules mm := by
  obtain ⟨st, hstf, hstp, hinv, _⟩ := solve_final_facts h
  obtain ⟨_, _, _, _, hP, _, _, _, hPL⟩ := hinv
  constructor
  · rw [← hstp]
    exact hP
  · intro p hp
    rw [← hstf]
    exact hPL p (by rw [hstp]; exact hp)

/-- Witness for C2 on the eleven-module chain project: the solve
succeeds and the placement facts hold for its single file. -/
theorem C2_witness :
    (getOk (solve chainProject chainDeps)).placements.map Prod.fst =
      (getOk (solve chainProject chainDeps)).sortedFileIds.reverse ∧
    ∀ p ∈ (getOk (solve chainProject chainDeps)).placements,
      p.2 ∈ ((mget (getOk (solve chainProject chainDeps)).filesFinal
        p.1).getD default).neededInModules ∧
      ∀ mm ∈ ((mget (getOk (solve chainProject chainDeps)).filesFinal
        p.1).getD default).neededInModules,
        p.2 ∈ transOf (getOk (solve chainProject chainDeps)).modules mm :=
  C2_placement_spec
    (show solve chainProject chainDeps =
      .ok (getOk (solve chainProject chainDeps)) from rfl)

/-! ## Claim C6: per-bucket forward topological order -/

/-- C6: each returned record's buckets equal the forward sorted file
order restricted to the files placed in that module under the matching
compile class (the reverse-order placement prepends to the bucket
head), and so, within either bucket of any record, every inferred
predecessor sits at a smaller index than its dependent. -/
theorem C6_bucket_order {po : ProjectOptions}
    {tcd : List (String × List String)} {s : Solved}
    (h : solve po tcd = .ok s) :
    (∀ k, k < s.output.length →
      (s.output.getD k default).dontCompileInputFiles =
        bucketD s.files0 s.placements s.sortedFileIds
          (s.sortedModuleIds.getD k MId.vbase) ∧
      (s.output.getD k default).compiledInputFiles =
        bucketC s.files0 s.placements s.sortedFileIds
          (s.sortedModuleIds.getD k MId.vbase)) ∧
    (∀ r ∈ s.output, ∀ fid gid f g,
      mget s.files0 fid = some f → mget s.files0 gid = some g →
      gid ∈ f.inferredDeps →
      (g.path ∈ r.compiledInputFiles → f.path ∈ r.compiledInputFiles →
        pidx r.compiledInputFiles g.path <
          pidx r.compiledInputFiles f.path) ∧
      (g.path ∈ r.dontCompileInputFiles →
        f.path ∈ r.dontCompileInputFiles →
        pidx r.dontCompileInputFiles g.path <
          pidx r.dontCompileInputFiles f.path)) := by
  obtain ⟨st, hstf, hstp, hinv, hout, hpermM, hndM, hprop, hvbase, hIF,
    hsfperm, hsfnd, hsfidx⟩ := solve_final_facts h
  obtain ⟨hK, hS, hN, hM, hP, hIK, hIN, hIBk, hPL⟩ := hinv
  rw [List.reverse_reverse] at hIBk
  have hrec : ∀ mid ∈ s.sortedModuleIds,
      mget st.inputsByModule mid =
        some ((mget st.inputsByModule mid).getD default) := by
    intro mid hmid
    have hmk : mid ∈ keysOf st.inputsByModule := by
      rw [hIK]
      exact hpermM.subset hmid
    rw [mem_keysOf_iff_isSome] at hmk
    obtain ⟨r, hr⟩ := Option.isSome_iff_exists.mp hmk
    rw [hr]
    rfl
  have hbuckets : ∀ mid ∈ s.sortedModuleIds,
      ((mget st.inputsByModule mid).getD default).dontCompileInputFiles =
        bucketD s.files0 st.placements s.sortedFileIds mid ∧
      ((mget st.inputsByModule mid).getD default).compiledInputFiles =
        bucketC s.files0 st.placements s.sortedFileIds mid :=
    fun mid hmid => hIBk mid _ (hrec mid hmid)
  have hpinj : ∀ x ∈ keysOf s.files0, ∀ y ∈ keysOf s.files0,
      pathOf s.files0 x = pathOf s.files0 y → x = y := by
    intro x hx y hy hxy
    rw [mem_keysOf_iff_isSome] at hx hy
    obtain ⟨fx, hfx⟩ := Option.isSome_iff_exists.mp hx
    obtain ⟨fy, hfy⟩ := Option.isSome_iff_exists.mp hy
    have h1 : mget (indexFiles po tcd) fx.path = x :=
      (hIF.2 (x, fx) (mem_of_mget_eq_some _ _ _ hfx)).1
    have h2 : mget (indexFiles po tcd) fy.path = y :=
      (hIF.2 (y, fy) (mem_of_mget_eq_some _ _ _ hfy)).1
    unfold pathOf at hxy
    rw [hfx, hfy] at hxy
    have hxy' : fx.path = fy.path := hxy
    rw [← h1, ← h2, hxy']
  constructor
  · intro k hk
    have hk' : k < s.sortedModuleIds.length := by
      rw [hout, List.length_map] at hk
      exact hk
    have hgd : s.sortedModuleIds.getD k MId.vbase =
        s.sortedModuleIds.get ⟨k, hk'⟩ := by
      rw [List.getD_eq_getElem _ _ hk']
      rfl
    have hmid : s.sortedModuleIds.getD k MId.vbase ∈ s.sortedModuleIds := by
      rw [hgd]
      exact s.sortedModuleIds.get_mem _ _
    have hov : s.output.getD k default =
        (mget st.inputsByModule (s.sortedModuleIds.getD k MId.vbase)).getD
          default := by
      rw [hout]
      rw [List.getD_eq_getElem _ _ (by rw [List.length_map]; exact hk'),
        List.getElem_map, List.getD_eq_getElem _ _ hk']
    rw [hov, ← hstp]
    exact ⟨(hbuckets _ hmid).1, (hbuckets _ hmid).2⟩
  · intro r hr fid gid f g hf hg hdep
    rw [hout] at hr
    obtain ⟨mid, hmid, hreq⟩ := List.mem_map.mp hr
    have hreq' : (mget st.inputsByModule mid).getD default = r := hreq
    obtain ⟨hD, hC⟩ := hIBk mid _ (hrec mid hmid)
    have hgp : pathOf s.files0 gid = g.path := by
      unfold pathOf
      rw [hg]
      rfl
    have hfp : pathOf s.files0 fid = f.path := by
      unfold pathOf
      rw [hf]
      rfl
    have hfk : fid ∈ keysOf s.files0 := by
      rw [mem_keysOf_iff_isSome, hf]
      rfl
    have hgk : gid ∈ keysOf s.files0 := by
      rw [mem_keysOf_iff_isSome, hg]
      rfl
    have hfsf : fid ∈ s.sortedFileIds := hsfperm.mem_iff.mpr hfk
    have hw : idxOfD s.sortedFileIds gid < idxOfD s.sortedFileIds fid :=
      hsfidx fid hfsf gid (by rw [hf]; exact hdep)
    have hpwS : s.sortedFileIds.Pairwise (fun a b =>
        idxOfD s.sortedFileIds a < idxOfD s.sortedFileIds b) :=
      pairwise_idxOfD s.sortedFileIds hsfnd
    have hcore : ∀ q : FId → Bool,
        g.path ∈ (s.sortedFileIds.filter q).map (pathOf s.files0) →
        f.path ∈ (s.sortedFileIds.filter q).map (pathOf s.files0) →
        pidx ((s.sortedFileIds.filter q).map (pathOf s.files0)) g.path <
        pidx ((s.sortedFileIds.filter q).map (pathOf s.files0)) f.path := by
      intro q hgm hfm
      obtain ⟨gid', hgid', hgpe⟩ := List.mem_map.mp hgm
      obtain ⟨fid', hfid', hfpe⟩ := List.mem_map.mp hfm
      have hgeq : gid' = gid := by
        apply hpinj gid' (hsfperm.subset (List.mem_filter.mp hgid').1) gid hgk
        rw [hgpe, hgp]
      have hfeq : fid' = fid := by
        apply hpinj fid' (hsfperm.subset (List.mem_filter.mp hfid').1) fid hfk
        rw [hfpe, hfp]
      rw [hgeq] at hgid'
      rw [hfeq] at hfid'
      have hpwL : (s.sortedFileIds.filter q).Pairwise (fun a b =>
          idxOfD s.sortedFileIds a < idxOfD s.sortedFileIds b) :=
        hpwS.sublist (List.filter_sublist _)
      have hidxL := idxOfD_lt_of_pairwise hpwL hgid' hfid' hw
      have hinjL : ∀ x ∈ s.sortedFileIds.filter q,
          ∀ y ∈ s.sortedFileIds.filter q,
          pathOf s.files0 x = pathOf s.files0 y → x = y :=
        fun x hx y hy => hpinj x (hsfperm.subset (List.mem_filter.mp hx).1)
          y (hsfperm.subset (List.mem_filter.mp hy).1)
      rw [← hgp, ← hfp]
      show idxOfD ((s.sortedFileIds.filter q).map (pathOf s.files0))
          (pathOf s.files0 gid) <
        idxOfD ((s.sortedFileIds.filter q).map (pathOf s.files0))
          (pathOf s.files0 fid)
      rw [idxOfD_map_inj (pathOf s.files0) (s.sortedFileIds.filter q)
          hinjL gid hgid',
        idxOfD_map_inj (pathOf s.files0) (s.sortedFileIds.filter q)
          hinjL fid hfid']
      exact hidxL
    constructor
    · intro hgmem hfmem
      rw [← hreq'] at hgmem hfmem ⊢
      rw [hC] at hgmem hfmem ⊢
      exact hcore _ hgmem hfmem
    · intro hgmem hfmem
      rw [← hreq'] at hgmem hfmem ⊢
      rw [hD] at hgmem hfmem ⊢
      exact hcore _ hgmem hfmem

/-- Witness for C6 on the eleven-module chain project: the solve
succeeds, so its buckets equal the restricted forward order and respect
the inferred dependencies. -/
theorem C6_witness :
    (∀ k, k < (getOk (solve chainProject chainDeps)).output.length →
      ((getOk (solve chainProject chainDeps)).output.getD k
          default).dontCompileInputFiles =
        bucketD (getOk (solve chainProject chainDeps)).files0
          (getOk (solve chainProject chainDeps)).placements
          (getOk (solve chainProject chainDeps)).sortedFileIds
          ((getOk (solve chainProject chainDeps)).sortedModuleIds.getD k
            MId.vbase) ∧
      ((getOk (solve chainProject chainDeps)).output.getD k
          default).compiledInputFiles =
        bucketC (getOk (solve chainProject chainDeps)).files0
          (getOk (solve chainProject chainDeps)).placements
          (getOk (solve chainProject chainDeps)).sortedFileIds
          ((getOk (solve chainProject chainDeps)).sortedModuleIds.getD k
            MId.vbase)) ∧
    (∀ r ∈ (getOk (solve chainProject chainDeps)).output, ∀ fid gid f g,
      mget (getOk (solve chainProject chainDeps)).files0 fid = some f →
      mget (getOk (solve chainProject chainDeps)).files0 gid = some g →
      gid ∈ f.inferredDeps →
      (g.path ∈ r.compiledInputFiles → f.path ∈ r.compiledInputFiles →
        pidx r.compiledInputFiles g.path <
          pidx r.compiledInputFiles f.path) ∧
      (g.path ∈ r.dontCompileInputFiles →
        f.path ∈ r.dontCompileInputFiles →
        pidx r.dontCompileInputFiles g.path <
          pidx r.dontCompileInputFiles f.path)) :=
  C6_bucket_order
    (show solve chainProject chainDeps =
      .ok (getOk (solve chainProject chainDeps)) from rfl)

/-! ## Claim C9: output in module-topological order, sentinel first -/

/-- C9: a successful `calcInputFiles` run returns one record per sorted
module ID carrying that module's name, the order puts every module
after all its transitive module deps, and whenever the virtual base
module was synthesized its record is first. -/
theorem C9_output_order {po : ProjectOptions}
    {tcd : List (String × List String)} {s : Solved}
    (h : solve po tcd = .ok s) :
    s.output.length = s.sortedModuleIds.length ∧
    (∀ k, k < s.output.length →
      (s.output.getD k default).name =
        nameOf s.modules (s.sortedModuleIds.getD k MId.vbase)) ∧
    (∀ mid ∈ s.sortedModuleIds, ∀ x ∈ transOf s.modules mid, x ≠ mid →
      s.sortedModuleIds.indexOf x < s.sortedModuleIds.indexOf mid) ∧
    ((mget s.modules MId.vbase).isSome →
      ∃ r rest, s.output = r :: rest ∧ r.name = VIRTUAL_BASE_MODULE) := by
  obtain ⟨st, hstf, hstp, hinv, hout, hpermM, hndM, hprop, hvbase, hIF,
    hsfperm, hsfnd, hsfidx⟩ := solve_final_facts h
  obtain ⟨_, _, _, _, _, hIK, hIN, _, _⟩ := hinv
  have hrec : ∀ mid ∈ s.sortedModuleIds,
      mget st.inputsByModule mid =
        some ((mget st.inputsByModule mid).getD default) := by
    intro mid hmid
    have hmk : mid ∈ keysOf st.inputsByModule := by
      rw [hIK]
      exact hpermM.subset hmid
    rw [mem_keysOf_iff_isSome] at hmk
    obtain ⟨r, hr⟩ := Option.isSome_iff_exists.mp hmk
    rw [hr]
    rfl
  have hname : ∀ mid ∈ s.sortedModuleIds,
      ((mget st.inputsByModule mid).getD default).name =
        nameOf s.modules mid := by
    intro mid hmid
    have hmsk : mid ∈ keysOf s.modules := hpermM.subset hmid
    rw [mem_keysOf_iff_isSome] at hmsk
    obtain ⟨m, hm⟩ := Option.isSome_iff_exists.mp hmsk
    have hx := hIN mid
    rw [hrec mid hmid, hm, Option.map_some', Option.map_some'] at hx
    unfold nameOf
    rw [hm]
    exact Option.some.inj hx
  refine ⟨?_, ?_, ?_, ?_⟩
  · rw [hout, List.length_map]
  · intro k hk
    have hk' : k < s.sortedModuleIds.length := by
      rw [hout, List.length_map] at hk
      exact hk
    have hgd : s.sortedModuleIds.getD k MId.vbase =
        s.sortedModuleIds.get ⟨k, hk'⟩ := by
      rw [List.getD_eq_getElem _ _ hk']
      rfl
    have hmid : s.sortedModuleIds.getD k MId.vbase ∈ s.sortedModuleIds := by
      rw [hgd]
      exact s.sortedModuleIds.get_mem _ _
    have hov : s.output.getD k default =
        (mget st.inputsByModule (s.sortedModuleIds.getD k MId.vbase)).getD
          default := by
      rw [hout]
      rw [List.getD_eq_getElem _ _ (by rw [List.length_map]; exact hk'),
        List.getElem_map, List.getD_eq_getElem _ _ hk']
    rw [hov]
    exact hname _ hmid
  · intro mid hmid x hx hne
    rcases hprop mid x hx with rfl | hh
    · exact absurd rfl hne
    · exact hh.2
  · intro hvs
    obtain ⟨hvn, rest, hrest⟩ := hvbase hvs
    have hvmem : MId.vbase ∈ s.sortedModuleIds := by
      rw [hrest]
      exact List.mem_cons_self _ _
    refine ⟨(mget st.inputsByModule MId.vbase).getD default,
      rest.map (fun mid => (mget st.inputsByModule mid).getD default),
      ?_, ?_⟩
    · rw [hout, hrest, List.map_cons]
    · rw [hname MId.vbase hvmem]
      unfold nameOf
      cases hg : mget s.modules MId.vbase with
      | none =>
        rw [hg] at hvs
        cases hvs
      | some m =>
        rw [hg, Option.map_some'] at hvn
        exact Option.some.inj hvn

/-- Witness for C9 on the eleven-module chain project: the solve
succeeds and the returned records are in dependency order with the
modules' names. -/
theorem C9_witness :
    (getOk (solve chainProject chainDeps)).output.length =
      (getOk (solve chainProject chainDeps)).sortedModuleIds.length ∧
    (∀ k, k < (getOk (solve chainProject chainDeps)).output.length →
      ((getOk (solve chainProject chainDeps)).output.getD k
          default).name =
        nameOf (getOk (solve chainProject chainDeps)).modules
          ((getOk (solve chainProject chainDeps)).sortedModuleIds.getD k
            MId.vbase)) ∧
    (∀ mid ∈ (getOk (solve chainProject chainDeps)).sortedModuleIds,
      ∀ x ∈ transOf (getOk (solve chainProject chainDeps)).modules mid,
      x ≠ mid →
      (getOk (solve chainProject chainDeps)).sortedModuleIds.indexOf x <
        (getOk (solve chainProject chainDeps)).sortedModuleIds.indexOf
          mid) ∧
    ((mget (getOk (solve chainProject chainDeps)).modules
        MId.vbase).isSome →
      ∃ r rest,
        (getOk (solve chainProject chainDeps)).output = r :: rest ∧
        r.name = VIRTUAL_BASE_MODULE) :=
  C9_output_order
    (show solve chainProject chainDeps =
      .ok (getOk (solve chainProject chainDeps)) from rfl)




end CPB
